import Mathlib

/-!
A verification development for cronly.

A shallow embedding of `crontab.go` and `jobs.go` (and of the parts of the Go
standard library they call: `container/heap`, `unicode.IsSpace`, the five
regular expressions of `crontab.go`), followed by theorems about it.

Conventions of the embedding.

* A Go `string` is a `List Char` (`Str`); positions are counted in characters.
  Go counts bytes, but every position the code uses is the start of a rune, so
  for valid UTF-8 text the slices are the same.
* A `time.Time` is an `Int`: nanoseconds since the zero `time.Time`. The comparison `==` of
  two times is the equality of the instants: every `nextRun` of the program comes from
  `cronexpr`'s `Next`, in one location and without a monotonic clock reading.
* The input of `ParseCron` is the list of the lines that its `bufio.Scanner` yields.
* A `*Job` is an address (`Ptr`) into the memory `Jobs.mem`; a `map[string]string`
  held by a `Job` is an address into `Jobs.envMem`.
* `log.Fatalf`, `log.Panicf` and the run-time panic of an index out of range are
  the `Fault` results of an `Except`.
-/

set_option autoImplicit false

namespace Cronly

/-! ## Part 1: `crontab.go` -/

/-- A Go string, as the list of its characters. -/
abbrev Str := List Char

/-- A `time.Time`, in nanoseconds since the zero time. -/
abbrev Time := Int

/-- The address of a Go object. -/
abbrev Ptr := Nat

/-- The contents of a `map[string]string`. -/
abbrev Env := Str → Option Str

/-- The errors of `crontab.go`: `ErrNotEnoughFields`, and whatever `cronexpr.Parse` reports. -/
inductive Error where
  | ErrNotEnoughFields : Error
  | cronexpr : String → Error
  deriving DecidableEq, Repr

deriving instance DecidableEq for Except

/-- The capability of a `*cronexpr.Expression` that the program uses: `Next`. -/
structure Expression where
  Next : Time → Time

/-- The struct `Job` of `crontab.go`; `environment` is the address of the map. -/
structure Job where
  Expression : Expression
  environment : Ptr
  script : Str
  crontab : Str
  index : Int
  nextRun : Time

/-- The method `Next` that `Job` gets from the embedded `*cronexpr.Expression`. -/
def Job.Next (job : Job) (t : Time) : Time := job.Expression.Next t

/-- The zero value `time.Time{}`. -/
def zeroTime : Time := 0

/-- Go `unicode.IsSpace`: the characters with the Unicode White_Space property. -/
def isSpace (c : Char) : Bool :=
  let n := c.toNat
  (0x09 ≤ n && n ≤ 0x0D) || n == 0x20 || n == 0x85 || n == 0xA0 || n == 0x1680 ||
  (0x2000 ≤ n && n ≤ 0x200A) || n == 0x2028 || n == 0x2029 || n == 0x202F ||
  n == 0x205F || n == 0x3000

/-- The Go slice expression `s[lo:hi]`. -/
def slice (s : Str) (lo hi : Nat) : Str := (s.drop lo).take (hi - lo)

/-- The `for i, character := range s` loop of `FieldsN`, run on the characters `rest` that
start at position `i`; the result is the final `a` and `last`. -/
def FieldsN.loop (s : Str) (max : Int) : Str → Nat → List Str → Int → List Str × Int
  | [], _, a, _ => (a, -1)
  | character :: rest, i, a, fieldStart =>
    if isSpace character then
      if fieldStart ≥ 0 then
        FieldsN.loop s max rest (i + 1) (a ++ [slice s fieldStart.toNat i]) (-1)
      else
        FieldsN.loop s max rest (i + 1) a fieldStart
    else if fieldStart = -1 then
      if (a.length : Int) ≥ max - 1 then
        (a, (i : Int))
      else
        FieldsN.loop s max rest (i + 1) a (i : Int)
    else
      FieldsN.loop s max rest (i + 1) a fieldStart

/-- The function `FieldsN` of `crontab.go`: the fields and the error it returns. -/
def FieldsN (s : Str) (max : Int) : List Str × Option Error :=
  let r := FieldsN.loop s max s 0 [] (-1)
  if r.2 = -1 then
    (r.1, some Error.ErrNotEnoughFields)
  else
    (r.1 ++ [s.drop r.2.toNat], none)

/-- Go `strings.Join`. -/
def Join (elems : List Str) (sep : Str) : Str := sep.intercalate elems

/-- Go `strings.TrimLeft(in, "0")`. -/
def TrimLeftZero (s : Str) : Str := s.dropWhile (fun c => c == '0')

/-- The closure `replace` of `RemoveLeadingZeroes`. -/
def replace (s : Str) : Str :=
  let result := TrimLeftZero s
  if result = [] then ['0'] else result

/-- The class `\w` of Go regular expressions: `[0-9A-Za-z_]`. -/
def isWordChar (c : Char) : Bool :=
  ('0' ≤ c && c ≤ '9') || ('A' ≤ c && c ≤ 'Z') || ('a' ≤ c && c ≤ 'z') || c == '_'

/-- The class `[0-9]`. -/
def isDigit (c : Char) : Bool := '0' ≤ c && c ≤ '9'

/-- The class `\s` of Go regular expressions: `[\t\n\f\r ]`. -/
def isReSpace (c : Char) : Bool :=
  c == '\t' || c == '\n' || c == Char.ofNat 12 || c == '\r' || c == ' '

/-- A match of `0+[0-9]` at the head of `s`, with the rest of `s` after it: `0+` is greedy and
gives characters back one at a time until `[0-9]` matches. Since the head of `s` is the
word character `0`, the assertion `\b` holds when the character before is not a word character. -/
def leadingZerosAt : Str → Option (Str × Str)
  | [] => none
  | c :: rest =>
    if c == '0' then
      match leadingZerosAt rest with
      | some (m, after) => some (c :: m, after)
      | none =>
        match rest with
        | d :: after => if isDigit d then some ([c, d], after) else none
        | [] => none
    else none

/-- The call `leading_zeros.ReplaceAllStringFunc(input, replace)`, scanning `input` from the
left. `prevWord` tells whether the character before `input` is a word character; `skip` is the
number of characters of `input` that still belong to the match replaced last. -/
def replaceAllLeadingZeros : Bool → Nat → Str → Str
  | _, _, [] => []
  | _, skip + 1, _ :: rest => replaceAllLeadingZeros true skip rest
  | prevWord, 0, c :: rest =>
    match (if prevWord then none else leadingZerosAt (c :: rest)) with
    | some (m, _) => replace m ++ replaceAllLeadingZeros true (m.length - 1) rest
    | none => c :: replaceAllLeadingZeros (isWordChar c) 0 rest

/-- The function `RemoveLeadingZeroes` of `crontab.go`. -/
def RemoveLeadingZeroes (input : Str) : Str :=
  replaceAllLeadingZeros false 0 input

/-- The function `SplitCron` of `crontab.go`. -/
def SplitCron (input : Str) (at_ : Bool) : Except Error (Str × Str) :=
  let nfields : Nat := if at_ then 2 else 6
  match FieldsN input nfields with
  | (_, some err) => .error err
  | (fields, none) =>
    let schedule := Join (fields.take (nfields - 1)) [' ']
    let exec := fields.getD (nfields - 1) []
    .ok (RemoveLeadingZeroes schedule, exec)

/-- The regular expression `starts_with_at`, the pattern `^\s*@`, as `MatchString`. -/
def starts_with_at (line : Str) : Bool :=
  match line.dropWhile isReSpace with
  | c :: _ => c == '@'
  | [] => false

/-- The regular expression `starts_with_hash`, the pattern `^\s*#`, as `MatchString`. -/
def starts_with_hash (line : Str) : Bool :=
  match line.dropWhile isReSpace with
  | c :: _ => c == '#'
  | [] => false

/-- The regular expression `blank_line`, the pattern `^\s*$`, as `MatchString`. -/
def blank_line (line : Str) : Bool := line.all isReSpace

/-- The regular expression `assignment`, the pattern `^([a-zA-Z0-9_]+)\s*=\s*(.*)$`, as
`FindStringSubmatch(line)[1:]`: the two groups when the line matches. Every repetition is
greedy and is followed by a character outside its class, so each takes the longest run;
the dot of the last group matches every character but the newline. -/
def assignment (line : Str) : Option (Str × Str) :=
  let left := line.takeWhile isWordChar
  if left = [] then none
  else
    match (line.dropWhile isWordChar).dropWhile isReSpace with
    | c :: rest =>
      if c == '=' then
        let right := rest.dropWhile isReSpace
        if right.all (fun d => d != '\n') then some (left, right) else none
      else none
    | [] => none

/-- The assignment `env[left] = right`. -/
def Env.set (env : Env) (left right : Str) : Env :=
  fun k => if k = left then some right else env k

/-- The function `ParseCronLine` of `crontab.go`. `Parse` is `cronexpr.Parse`; the map `env`
is passed as its address `envRef` and its contents, and the contents after the call are
the last component of the result. -/
def ParseCronLine (Parse : Str → Except Error Expression) (envRef : Ptr) (env : Env)
    (filename line : Str) : (Option Job × Option Error) × Env :=
  if starts_with_hash line || blank_line line then
    ((none, none), env)
  else
    match assignment line with
    | some (left, right) => ((none, none), env.set left right)
    | none =>
      let has_at := starts_with_at line
      match SplitCron line has_at with
      | .error err => ((none, some err), env)
      | .ok (scheduleText, script) =>
        match Parse scheduleText with
        | .error err => ((none, some err), env)
        | .ok schedule =>
          ((some ⟨schedule, envRef, script, filename, -1, zeroTime⟩, none), env)

/-- The `for scanner.Scan()` loop of `ParseCron` over the lines that the scanner yields. -/
def ParseCron.loop (Parse : Str → Except Error Expression) (envRef : Ptr) (filename : Str) :
    List Str → Env → List Job → List Job × Env
  | [], env, result => (result, env)
  | line :: rest, env, result =>
    let r := ParseCronLine Parse envRef env filename line
    match r.1.1 with
    | some job => ParseCron.loop Parse envRef filename rest r.2 (result ++ [job])
    | none => ParseCron.loop Parse envRef filename rest r.2 result

/-- The function `ParseCron` of `crontab.go`, on the lines of `input`. The map `env` that it
makes lives at the address `envRef`; the result is the jobs, in order, and the contents of
that map when `ParseCron` returns. -/
def ParseCron (Parse : Str → Except Error Expression) (envRef : Ptr) (filename : Str)
    (input : List Str) : List Job × Env :=
  ParseCron.loop Parse envRef filename input (fun _ => none) []

/-! ## Part 2: `jobs.go` and `container/heap` -/

/-- The ways the program stops: `log.Fatalf`, `log.Panicf`, the run-time panic of an index out
of range. `OutOfFuel` is no behaviour of the program: it is the result of a loop of the
embedding that was given too few steps, and `NextJobs_ne_OutOfFuel` shows that `NextJobs`
never gives it. -/
inductive Fault where
  | Fatal : String → Fault
  | Panic : String → Fault
  | IndexOutOfRange : Fault
  | OutOfFuel : Fault
  deriving DecidableEq, Repr

/-- The type `Crontab` of `crontab.go`, a slice of pointers to `Job`. -/
abbrev Crontab := List Ptr

/-- The files that `os.Open` and the scanner of `ParseCron` see: the lines of the file at a
path, `none` when the file cannot be opened. -/
abbrev FileSystem := Str → Option (List Str)

/-- The type of `cronexpr.Parse`. -/
abbrev ParseFn := Str → Except Error Expression

/-- The struct `Jobs` of `jobs.go`, with the memory its pointers point into: `mem` holds the
`Job` objects and `envMem` the environment maps, `next` is the first address not yet in use.
`CrontabMapping f` is `none` when `f` is no key of the map, and otherwise the members of the
set `CrontabMapping[f]`, in the order in which a `range` loop visits them. -/
structure Jobs where
  mem : Ptr → Job
  envMem : Ptr → Env
  next : Ptr
  List : Crontab
  CrontabMapping : Str → Option (Crontab)

/-- The assignment `job.index = i` through the pointer `job`. -/
def setIndex (mem : Ptr → Job) (job : Ptr) (i : Int) : Ptr → Job :=
  fun p => if p = job then { mem p with index := i } else mem p

/-- The assignment `job.nextRun = t` through the pointer `job`. -/
def setNextRun (mem : Ptr → Job) (job : Ptr) (t : Time) : Ptr → Job :=
  fun p => if p = job then { mem p with nextRun := t } else mem p

/-- The method `Len`. -/
def Jobs.Len (jobs : Jobs) : Nat := jobs.List.length

/-- The element `jobs.List[i]`, for `i < jobs.Len`. -/
def Jobs.at (jobs : Jobs) (i : Nat) : Ptr := jobs.List.getD i 0

/-- The method `Less`. -/
def Jobs.Less (jobs : Jobs) (i j : Nat) : Bool :=
  decide ((jobs.mem (jobs.at i)).nextRun < (jobs.mem (jobs.at j)).nextRun)

/-- The method `Swap`, for `i, j < jobs.Len`. -/
def Jobs.Swap (jobs : Jobs) (i j : Nat) : Jobs :=
  let l := (jobs.List.set i (jobs.at j)).set j (jobs.at i)
  let m1 := setIndex jobs.mem (l.getD i 0) i
  let m2 := setIndex m1 (l.getD j 0) j
  { jobs with List := l, mem := m2 }

/-- The method `Top`: `jobs.List[0]`, which panics on the empty list. -/
def Jobs.Top (jobs : Jobs) : Except Fault Ptr :=
  match jobs.List with
  | job :: _ => .ok job
  | [] => .error Fault.IndexOutOfRange

/-- The insertion `set[job] = struct{}{}` into a set of pointers. -/
def setInsert (set : Crontab) (job : Ptr) : Crontab :=
  if job ∈ set then set else set ++ [job]

/-- The method `Push`. -/
def Jobs.Push (jobs : Jobs) (job : Ptr) : Jobs :=
  let key := (jobs.mem job).crontab
  let set := (jobs.CrontabMapping key).getD []
  { jobs with
    CrontabMapping := fun f => if f = key then some (setInsert set job) else jobs.CrontabMapping f
    mem := setIndex jobs.mem job jobs.List.length
    List := jobs.List ++ [job] }

/-- The method `Pop`, for a list that is not empty; `delete` on a key that is absent from
`CrontabMapping` does nothing. -/
def Jobs.Pop (jobs : Jobs) : Jobs × Ptr :=
  let old := jobs.List
  let n := old.length
  let job := old.getD (n - 1) 0
  let key := (jobs.mem job).crontab
  ({ jobs with
     mem := setIndex jobs.mem job (-1)
     List := old.take (n - 1)
     CrontabMapping := fun f =>
       if f = key then (jobs.CrontabMapping f).map (fun set => set.erase job)
       else jobs.CrontabMapping f }, job)

/-- The loop of `up` in `container/heap`; it stops after at most `j` rounds, since `j`
gets smaller in each (`heap_up_unfold`). -/
def heap.up.loop : Nat → Jobs → Nat → Jobs
  | 0, h, _ => h
  | fuel + 1, h, j =>
    let i := (j - 1) / 2
    if i = j ∨ ¬ h.Less j i then h
    else heap.up.loop fuel (h.Swap i j) i

/-- The function `up` of `container/heap`. -/
def heap.up (h : Jobs) (j : Nat) : Jobs := heap.up.loop j h j

/-- The loop of `down` in `container/heap`, with the final value of `i`; it stops after at
most `n` rounds, since `i` grows in each and stays below `n` (`heap_down_unfold`). -/
def heap.down.loop : Nat → Jobs → Nat → Nat → Jobs × Nat
  | 0, h, i, _ => (h, i)
  | fuel + 1, h, i, n =>
    let j1 := 2 * i + 1
    if j1 ≥ n then (h, i)
    else
      let j := if j1 + 1 < n ∧ h.Less (j1 + 1) j1 then j1 + 1 else j1
      if ¬ h.Less j i then (h, i)
      else heap.down.loop fuel (h.Swap i j) j n

/-- The function `down` of `container/heap`: the heap afterwards and the result `i > i0`. -/
def heap.down (h : Jobs) (i0 n : Nat) : Jobs × Bool :=
  let r := heap.down.loop n h i0 n
  (r.1, decide (r.2 > i0))

/-- The function `heap.Push`. -/
def heap.Push (h : Jobs) (x : Ptr) : Jobs :=
  let h1 := h.Push x
  heap.up h1 (h1.Len - 1)

/-- The function `heap.Fix`, for `i < h.Len`. -/
def heap.Fix (h : Jobs) (i : Nat) : Jobs :=
  let r := heap.down h i h.Len
  if ¬ r.2 then heap.up r.1 i else r.1

/-- The function `heap.Remove`; it panics when `i` is no position of the list. -/
def heap.Remove (h : Jobs) (i : Int) : Except Fault (Jobs × Ptr) :=
  if 0 ≤ i ∧ i < h.Len then
    let n := h.Len - 1
    if n ≠ i.toNat then
      let h1 := h.Swap i.toNat n
      let r := heap.down h1 i.toNat n
      let h2 := if ¬ r.2 then heap.up r.1 i.toNat else r.1
      .ok h2.Pop
    else .ok h.Pop
  else .error Fault.IndexOutOfRange

/-- The method `Add`. -/
def Jobs.Add (now : Time) : Crontab → Jobs → Jobs
  | [], jobs => jobs
  | job :: crontab, jobs =>
    let jobs1 := { jobs with mem := setNextRun jobs.mem job ((jobs.mem job).Next now) }
    Jobs.Add now crontab (heap.Push jobs1 job)

/-- One second, `1 * time.Second`. -/
def epsilon : Int := 1000000000

/-- The `for jobs.Top().nextRun == runTime` loop of `NextJobs`. -/
def NextJobs.loop (runTime : Time) : Nat → Jobs → Crontab → Except Fault (Jobs × Crontab)
  | 0, _, _ => .error Fault.OutOfFuel
  | fuel + 1, jobs, jobsThisRun =>
    match jobs.Top with
    | .error e => .error e
    | .ok job =>
      if (jobs.mem job).nextRun = runTime then
        let jobs1 := { jobs with
          mem := setNextRun jobs.mem job ((jobs.mem job).Next (runTime + epsilon)) }
        let jobs2 := heap.Fix jobs1 0
        if (jobs2.mem job).nextRun = runTime ∨ (jobs2.mem job).nextRun < runTime then
          .error (Fault.Fatal "Logic error: next run time is wrong")
        else NextJobs.loop runTime fuel jobs2 (jobsThisRun ++ [job])
      else .ok (jobs, jobsThisRun)

/-- The method `NextJobs`: the queue afterwards and the list of the batch. -/
def Jobs.NextJobs (jobs : Jobs) : Except Fault (Jobs × Crontab) :=
  if jobs.Len = 0 then .ok (jobs, [])
  else
    match jobs.Top with
    | .error e => .error e
    | .ok top => NextJobs.loop (jobs.mem top).nextRun (jobs.Len + 1) jobs []

/-- The statement `&Job{...}`: a new object at the first free address. -/
def Jobs.alloc (jobs : Jobs) (job : Job) : Jobs × Ptr :=
  ({ jobs with
     mem := fun p => if p = jobs.next then job else jobs.mem p
     next := jobs.next + 1 }, jobs.next)

/-- The objects of a parsed crontab, made one after the other. -/
def allocAll : List Job → Jobs → Jobs × Crontab
  | [], jobs => (jobs, [])
  | job :: rest, jobs =>
    let r := jobs.alloc job
    let rs := allocAll rest r.1
    (rs.1, r.2 :: rs.2)

/-- The statement `env := map[string]string{}` of `ParseCron`: a new map at the first free
address, with the contents `env` that it has when `ParseCron` returns. -/
def Jobs.allocEnv (jobs : Jobs) (env : Env) : Jobs :=
  { jobs with
    envMem := fun p => if p = jobs.next then env else jobs.envMem p
    next := jobs.next + 1 }

/-- The function `ReadCrontab` of `crontab.go`: `none` when `os.Open` fails, and otherwise the
memory with the new map and the new jobs of `ParseCron`, and the pointers to these jobs. -/
def ReadCrontab (fs : FileSystem) (Parse : ParseFn)
    (cronpath : Str) (jobs : Jobs) : Option (Jobs × Crontab) :=
  match fs cronpath with
  | none => none
  | some input =>
    let envRef := jobs.next
    let parsed := ParseCron Parse envRef cronpath input
    some (allocAll parsed.1 (jobs.allocEnv parsed.2))

/-- The `for job := range jobs.CrontabMapping[crontab]` loop of `UpdateCrontab`: `order` is the
order in which the loop would visit the members that the set had at the start, and a member
deleted before the loop reaches it is not visited. -/
def UpdateCrontab.loop (crontab : Str) : Crontab → Jobs → Except Fault Jobs
  | [], jobs => .ok jobs
  | job :: order, jobs =>
    if job ∈ (jobs.CrontabMapping crontab).getD [] then
      if (jobs.mem job).crontab ≠ crontab then
        .error (Fault.Panic "Logic error, crontabs not equal")
      else
        match heap.Remove jobs (jobs.mem job).index with
        | .error e => .error e
        | .ok r => UpdateCrontab.loop crontab order r.1
    else UpdateCrontab.loop crontab order jobs

/-- The method `UpdateCrontab`. -/
def Jobs.UpdateCrontab (fs : FileSystem) (Parse : ParseFn)
    (when : Time) (crontab : Str) (jobs : Jobs) : Except Fault Jobs :=
  let evicted :=
    match jobs.CrontabMapping crontab with
    | some set => UpdateCrontab.loop crontab set jobs
    | none => .ok jobs
  match evicted with
  | .error e => .error e
  | .ok jobs1 =>
    match ReadCrontab fs Parse crontab jobs1 with
    | none => .ok jobs1
    | some (jobs2, c) => .ok (Jobs.Add when c jobs2)


/-! ## Part 3: definitions for the statements and proofs -/

/-- The keys `κ` satisfy the heap order on the positions below `n`. -/
def HeapUpTo (κ : Nat → Int) (n : Nat) : Prop :=
  ∀ k, 0 < k → k < n → κ ((k - 1) / 2) ≤ κ k

/-- The exchange of the positions `i` and `j`. -/
def swapIdx (i j k : Nat) : Nat := if k = i then j else if k = j then i else k

/-- The heap order holds below `n` for every pair that does not contain `i`, and the parent of
`i` is not after the children of `i`. -/
def HoleInv (κ : Nat → Int) (n i : Nat) : Prop :=
  (∀ k, 0 < k → k < n → (k - 1) / 2 ≠ i → k ≠ i → κ ((k - 1) / 2) ≤ κ k) ∧
  (∀ c, 0 < c → c < n → (c - 1) / 2 = i → 0 < i → κ ((i - 1) / 2) ≤ κ c)

/-- No child of position `i` below `n` is before position `i`. -/
def ChildrenOk (κ : Nat → Int) (n i : Nat) : Prop :=
  ∀ c, 0 < c → c < n → (c - 1) / 2 = i → κ i ≤ κ c

/-- The parent of position `i` is not after position `i`. -/
def ParentOk (κ : Nat → Int) (i : Nat) : Prop := 0 < i → κ ((i - 1) / 2) ≤ κ i

/-- The key of position `k`: the `nextRun` of `jobs.List[k]`. -/
def Jobs.key (jobs : Jobs) (k : Nat) : Time := (jobs.mem (jobs.at k)).nextRun

/-- The list of the queue satisfies the heap order on `nextRun`: in the words of
`container/heap`, no position is `Less` than its parent. -/
def HeapOrdered (jobs : Jobs) : Prop :=
  ∀ k, 0 < k → k < jobs.Len → jobs.Less k ((k - 1) / 2) = false

/-- The child that `down` compares with position `i`. -/
def downChild (h : Jobs) (i n : Nat) : Nat :=
  if 2 * i + 1 + 1 < n ∧ h.Less (2 * i + 1 + 1) (2 * i + 1) then 2 * i + 1 + 1 else 2 * i + 1

/-- The two steps `if !down(h, i, n) { up(h, i) }` of `heap.Fix` and `heap.Remove`. -/
def fixAt (h : Jobs) (i n : Nat) : Jobs :=
  if ¬ (heap.down h i n).2 then heap.up (heap.down h i n).1 i else (heap.down h i n).1

/-- The queue `h` differs from `h0` at most in the order of `List` and in the `index` fields. -/
def Reordered (h0 h : Jobs) : Prop :=
  h.List.Perm h0.List ∧ h.CrontabMapping = h0.CrontabMapping ∧ h.next = h0.next ∧
  h.envMem = h0.envMem ∧
  ∀ p, (h.mem p).nextRun = (h0.mem p).nextRun ∧ (h.mem p).crontab = (h0.mem p).crontab ∧
    (h.mem p).Expression = (h0.mem p).Expression ∧ (h.mem p).script = (h0.mem p).script ∧
    (h.mem p).environment = (h0.mem p).environment

/-- The number of positions of the list whose job is due at `T`. -/
def dueCount (T : Time) (jobs : Jobs) : Nat :=
  (jobs.List.filter (fun p => decide ((jobs.mem p).nextRun = T))).length

/-- What one run of the loop of `NextJobs` for the time `T` does: `jobs` is the queue before,
`jobs'` the queue after and `batch` the jobs that the loop has added to its result. -/
structure LoopResult (T : Time) (jobs jobs' : Jobs) (batch : Crontab) : Prop where
  perm : jobs'.List.Perm jobs.List
  mapping : jobs'.CrontabMapping = jobs.CrontabMapping
  next : jobs'.next = jobs.next
  envMem : jobs'.envMem = jobs.envMem
  fields : ∀ p, (jobs'.mem p).crontab = (jobs.mem p).crontab ∧
    (jobs'.mem p).Expression = (jobs.mem p).Expression ∧
    (jobs'.mem p).script = (jobs.mem p).script ∧
    (jobs'.mem p).environment = (jobs.mem p).environment
  batch_due : ∀ p ∈ batch, p ∈ jobs.List ∧ (jobs.mem p).nextRun = T ∧
    (jobs'.mem p).nextRun = (jobs.mem p).Next (T + epsilon)
  others : ∀ p, p ∉ batch → (jobs'.mem p).nextRun = (jobs.mem p).nextRun
  nodup : batch.Nodup
  top : (jobs'.mem (jobs'.at 0)).nextRun ≠ T
  heap : HeapOrdered jobs → jobs.List.Nodup → (∀ p ∈ jobs.List, T ≤ (jobs.mem p).nextRun) →
    HeapOrdered jobs' ∧ ∀ p ∈ jobs.List, (jobs.mem p).nextRun = T → p ∈ batch

/-- The queue after `job.nextRun = t`. -/
def withNextRun (jobs : Jobs) (job : Ptr) (t : Time) : Jobs :=
  { jobs with mem := setNextRun jobs.mem job t }

/-- The time `T` is the minimum `nextRun` of the queued jobs. -/
def MinNextRun (jobs : Jobs) (T : Time) : Prop :=
  (∃ p ∈ jobs.List, (jobs.mem p).nextRun = T) ∧ ∀ p ∈ jobs.List, T ≤ (jobs.mem p).nextRun

/-- Every queued job has an evaluator whose `Next(t)` is strictly after `t`. -/
def NextAfter (jobs : Jobs) : Prop :=
  ∀ p ∈ jobs.List, ∀ t : Time, t < (jobs.mem p).Next t

/-- The batch of a result of `NextJobs`, `none` when the program has stopped. -/
def batchOf (r : Except Fault (Jobs × Crontab)) : Option Crontab :=
  match r with
  | .ok x => some x.2
  | .error _ => none

/-- A job that only has a schedule step, a crontab name and a `nextRun`, for examples: its
`Next(t)` is `t + step`. -/
def exampleJob (step : Int) (crontab : Str) (nextRun : Time) : Job :=
  ⟨⟨fun t => t + step⟩, 0, [], crontab, -1, nextRun⟩

/-- A heap-ordered queue in which the job at address 0 stands at two positions of the list:
the list is `[0, 0, 1, 2]`, the jobs 0 and 2 are due at time 0 and the job 1 at time 10. -/
def twiceQueued : Jobs :=
  { mem := fun p => exampleJob 60 ['f'] (if p = 1 then 10 else 0)
    envMem := fun _ _ => none
    next := 3
    List := [0, 0, 1, 2]
    CrontabMapping := fun f => if f = ['f'] then some [0, 1, 2] else none }

/-- The queues that a sequence of `Add`, `heap.Remove` and `NextJobs` makes from the empty
queue; `allowed jobs crontab` says which crontabs may be added to the queue `jobs`. -/
inductive Reachable (allowed : Jobs → Crontab → Prop) : Jobs → Prop where
  | empty (mem : Ptr → Job) (envMem : Ptr → Env) (next : Ptr) :
      Reachable allowed ⟨mem, envMem, next, [], fun _ => none⟩
  | add {jobs : Jobs} (now : Time) (crontab : Crontab) :
      Reachable allowed jobs → allowed jobs crontab → Reachable allowed (Jobs.Add now crontab jobs)
  | remove {jobs : Jobs} (i : Int) (r : Jobs × Ptr) :
      Reachable allowed jobs → heap.Remove jobs i = .ok r → Reachable allowed r.1
  | nextJobs {jobs : Jobs} (r : Jobs × Crontab) :
      Reachable allowed jobs → NextAfter jobs → jobs.NextJobs = .ok r → Reachable allowed r.1

/-- The jobs of `crontab` are pairwise different and none of them is in the queue. -/
def NewJobs (jobs : Jobs) (crontab : Crontab) : Prop :=
  crontab.Nodup ∧ ∀ p ∈ crontab, p ∉ jobs.List

/-- The method `Top` gives a job whose `nextRun` is not after that of any queued job. -/
def TopIsMin (jobs : Jobs) : Prop :=
  ∃ top, jobs.Top = .ok top ∧ ∀ p ∈ jobs.List, (jobs.mem top).nextRun ≤ (jobs.mem p).nextRun

/-- The empty queue over a memory with two jobs: job 0 runs every 10, job 1 every 20. -/
def twoJobs : Jobs :=
  { mem := fun p => exampleJob (if p = 0 then 10 else 20) ['f'] 0
    envMem := fun _ _ => none
    next := 2
    List := []
    CrontabMapping := fun _ => none }

/-- The queue after `Add(0, [job0, job1])` and then `Add(100, [job0])`. -/
def addedTwice : Jobs := Jobs.Add 100 [0] (Jobs.Add 0 [0, 1] twoJobs)

/-- The queue of the dispatch-batching example of the specification: three jobs due at time 0
and the job 3 due one second later, every job scheduled once a minute. -/
def batchExample : Jobs :=
  { mem := fun p => ⟨⟨fun t => t + 60 * epsilon⟩, 0, [], ['f'], p, if p = 3 then epsilon else 0⟩
    envMem := fun _ _ => none
    next := 4
    List := [0, 1, 2, 3]
    CrontabMapping := fun f => if f = ['f'] then some [0, 1, 2, 3] else none }

/-- The queue-position invariant: every queued job has its position of the list in `index`. -/
def IndexInv (jobs : Jobs) : Prop :=
  ∀ k, k < jobs.Len → (jobs.mem (jobs.at k)).index = (k : Int)

/-- The file-index invariant: a job is in the set `CrontabMapping[f]` exactly when it is in
`List` and its `crontab` is `f`. -/
def MappingInv (jobs : Jobs) : Prop :=
  ∀ f p, p ∈ (jobs.CrontabMapping f).getD [] ↔ (p ∈ jobs.List ∧ (jobs.mem p).crontab = f)

/-- A well-formed queue: the two invariants of the data model hold, the sets of
`CrontabMapping` list each member once, and the queued jobs are objects in use. -/
def WellFormed (jobs : Jobs) : Prop :=
  IndexInv jobs ∧ MappingInv jobs ∧ (∀ f, ((jobs.CrontabMapping f).getD []).Nodup) ∧
  ∀ p ∈ jobs.List, p < jobs.next

/-- The queue `h'` is the queue `h` without the job `job`: what `Pop` and `heap.Remove` do to a
well-formed queue. -/
structure Removed (h h' : Jobs) (job : Ptr) : Prop where
  wf : WellFormed h'
  mem_iff : ∀ p, p ∈ h'.List ↔ (p ∈ h.List ∧ p ≠ job)
  fields : ∀ p, (h'.mem p).nextRun = (h.mem p).nextRun ∧ (h'.mem p).crontab = (h.mem p).crontab ∧
    (h'.mem p).Expression = (h.mem p).Expression ∧ (h'.mem p).script = (h.mem p).script ∧
    (h'.mem p).environment = (h.mem p).environment
  next : h'.next = h.next
  envMem : h'.envMem = h.envMem
  mapping : ∀ f, f ≠ (h.mem job).crontab → h'.CrontabMapping f = h.CrontabMapping f
  index : (h'.mem job).index = -1

/-- A well-formed queue with the jobs 0 and 1 of the file `a` and the jobs 2 and 3 of the
file `b`, every job scheduled once a minute and due at time 60. -/
def twoFiles : Jobs :=
  { mem := fun p => ⟨⟨fun t => t + 60⟩, 0, [], if p < 2 then ['a'] else ['b'], p, 60⟩
    envMem := fun _ _ => none
    next := 4
    List := [0, 1, 2, 3]
    CrontabMapping := fun f =>
      if f = ['a'] then some [0, 1] else if f = ['b'] then some [2, 3] else none }

/-- A file system with the one file `a`, of three lines. -/
def oneFile : FileSystem :=
  fun path => if path = ['a'] then
    some ["* * * * * x".toList, "# comment".toList, "@daily y".toList] else none

/-- An evaluator that accepts every schedule and answers the time a minute later. -/
def everyMinute : ParseFn := fun _ => .ok ⟨fun t => t + 60⟩

/-- The loop of Go `strings.Fields`, as the specification words it: the whitespace-delimited
fields of `rest`, where `cur` holds the characters of the field that has begun. -/
def Fields.go : Str → Str → List Str
  | [], cur => if cur = [] then [] else [cur]
  | c :: rest, cur =>
    if isSpace c then
      if cur = [] then Fields.go rest [] else cur :: Fields.go rest []
    else Fields.go rest (cur ++ [c])

/-- The whitespace-delimited fields of a string, as Go `strings.Fields` gives them. -/
def Fields (s : Str) : List Str := Fields.go s []

/-- The canonical form of a line: its fields, separated by single spaces. -/
def canonical (s : Str) : Str := Join (Fields s) [' ']

/-- The string is empty or ends with a whitespace character. -/
def EndsInSpace (s : Str) : Prop := s = [] ∨ ∃ q d, s = q ++ [d] ∧ isSpace d = true

/-- A field: a string that is not empty and holds no whitespace. -/
def IsField (t : Str) : Prop := t ≠ [] ∧ ∀ c ∈ t, isSpace c = false

/-- The fields `toks`, each followed by one space. -/
def spaced (toks : List Str) : Str := (toks.map (fun t => t ++ [' '])).flatten

/-- Where a scan of a string stands with respect to its numerals: outside of every numeral,
inside a numeral that stays as it is, or inside a numeral that has been replaced. -/
inductive NumeralMode where
  | outside : NumeralMode
  | keep : NumeralMode
  | drop : NumeralMode

/-- The numeral has a leading zero followed by another digit. -/
def hasLeadingZero : Str → Bool
  | c :: _ :: _ => c == '0'
  | _ => false

/-- The numeral with its leading zeros stripped, down to a single `0` when it is all zeros. -/
def stripZeros (numeral : Str) : Str :=
  let r := numeral.dropWhile (fun c => c == '0')
  if r = [] then ['0'] else r

/-- The normalization of the numerals of a string, in the words of the specification: every
numeral (maximal run of decimal digits) that has a leading zero followed by another digit is
replaced by the numeral with its leading zeros stripped, and nothing else changes. With
`atBoundary` only the numerals that do not follow a letter, a digit or an underscore are
replaced. `prevWord` tells whether the character before is one of these. -/
def normalizeNumerals (atBoundary : Bool) : NumeralMode → Bool → Str → Str
  | _, _, [] => []
  | mode, prevWord, c :: rest =>
    if isDigit c then
      match mode with
      | .drop => normalizeNumerals atBoundary .drop true rest
      | .keep => c :: normalizeNumerals atBoundary .keep true rest
      | .outside =>
        if hasLeadingZero ((c :: rest).takeWhile isDigit) && !(atBoundary && prevWord) then
          stripZeros ((c :: rest).takeWhile isDigit) ++ normalizeNumerals atBoundary .drop true rest
        else c :: normalizeNumerals atBoundary .keep true rest
    else c :: normalizeNumerals atBoundary .outside (isWordChar c) rest

/-- The assignment that `ParseCronLine` makes for a line: the groups of `assignment` when the
line is no comment and not blank. -/
def assigns (line : Str) : Option (Str × Str) :=
  if starts_with_hash line || blank_line line then none else assignment line

/-- The mapping after the assignments of the lines, from top to bottom. -/
def applyAssignments : List Str → Env → Env
  | [], env => env
  | line :: rest, env =>
    match assigns line with
    | some (left, right) => applyAssignments rest (env.set left right)
    | none => applyAssignments rest env

/-- The maps in memory when `ParseCron` has returned `result`: the map that `ParseCron` made
lives at `envRef` and has the contents `result.2`. -/
def envMemAfter (envRef : Ptr) (result : List Job × Env) : Ptr → Env :=
  fun p => if p = envRef then result.2 else fun _ => none

/-- The environment of a job, read through its pointer `environment`. -/
def Job.env (envMem : Ptr → Env) (job : Job) : Env := envMem job.environment

/-- A crontab of two lines: a schedule line and, after it, an assignment. -/
def scheduleThenAssignment : List Str := ["* * * * * cmd".toList, "A=1".toList]

/-- The line is blank: it is empty or holds only whitespace of the class `\s`. -/
def IsBlank (line : Str) : Prop := ∀ c ∈ line, isReSpace c = true

/-- The first character of the line that is no whitespace of the class `\s`. -/
def firstNonSpace (line : Str) : Option Char := (line.dropWhile isReSpace).head?

/-- The line is a comment: its first non-whitespace character is `#`. -/
def IsComment (line : Str) : Prop := firstNonSpace line = some '#'

/-- The line has the form `NAME=VALUE`: a name of letters, digits and underscores, optional
whitespace, the sign `=`, optional whitespace, and the value, which starts after that
whitespace and, like every line, holds no newline. -/
def AssignmentForm (line name value : Str) : Prop :=
  ∃ ws1 ws2, line = name ++ ws1 ++ '=' :: ws2 ++ value ∧
    name ≠ [] ∧ (∀ c ∈ name, isWordChar c = true) ∧
    (∀ c ∈ ws1, isReSpace c = true) ∧ (∀ c ∈ ws2, isReSpace c = true) ∧
    (∀ c ∈ value, c ≠ '\n') ∧ (∀ c rest, value = c :: rest → isReSpace c = false)

/-- The line is an assignment. -/
def IsAssignment (line : Str) : Prop := ∃ name value, AssignmentForm line name value

/-- The number of fields that a schedule line is split into: 2 when it starts with an
at-shortcut, 6 otherwise. -/
def fieldCount (line : Str) : Nat := if firstNonSpace line = some '@' then 2 else 6

/-- The job that `ParseCronLine` makes of a line, if any; it does not depend on the contents
of the environment (`ParseCronLine_job_eq`). -/
def lineJob (Parse : ParseFn) (envRef : Ptr) (filename line : Str) : Option Job :=
  (ParseCronLine Parse envRef (fun _ => none) filename line).1.1

/-- The error of `ParseCronLine` on a line, if any; it depends on the line and on the
evaluator only (`ParseCronLine_error_eq`). -/
def lineError (Parse : ParseFn) (line : Str) : Option Error :=
  (ParseCronLine Parse 0 (fun _ => none) [] line).1.2

/-- The maps in memory in which the map at `envRef` has the contents `env`. -/
def envMemWith (envRef : Ptr) (env : Env) : Ptr → Env :=
  fun p => if p = envRef then env else fun _ => none

/-- The jobs of `crontab` are pairwise different objects in use, and none of them is a member
of the queue. -/
def FreshJobs (jobs : Jobs) (crontab : Crontab) : Prop :=
  crontab.Nodup ∧ ∀ p ∈ crontab, p ∉ jobs.List ∧ p < jobs.next

/-- The queues that a sequence of `heap.Push`, `Add`, `heap.Remove`, the assignment
`job.nextRun = t`, `heap.Fix`, `NextJobs` and `UpdateCrontab` makes from the empty queue;
`allowed jobs crontab` says which jobs may be inserted into the queue `jobs`. -/
inductive Reached (allowed : Jobs → Crontab → Prop) : Jobs → Prop where
  | empty (mem : Ptr → Job) (envMem : Ptr → Env) (next : Ptr) :
      Reached allowed ⟨mem, envMem, next, [], fun _ => none⟩
  | push {jobs : Jobs} (job : Ptr) :
      Reached allowed jobs → allowed jobs [job] → Reached allowed (heap.Push jobs job)
  | add {jobs : Jobs} (now : Time) (crontab : Crontab) :
      Reached allowed jobs → allowed jobs crontab → Reached allowed (Jobs.Add now crontab jobs)
  | remove {jobs : Jobs} (i : Int) (r : Jobs × Ptr) :
      Reached allowed jobs → heap.Remove jobs i = .ok r → Reached allowed r.1
  | reschedule {jobs : Jobs} (job : Ptr) (t : Time) :
      Reached allowed jobs → Reached allowed (withNextRun jobs job t)
  | fix {jobs : Jobs} (i : Nat) :
      Reached allowed jobs → i < jobs.Len → Reached allowed (heap.Fix jobs i)
  | nextJobs {jobs : Jobs} (r : Jobs × Crontab) :
      Reached allowed jobs → jobs.NextJobs = .ok r → Reached allowed r.1
  | updateCrontab {jobs : Jobs} (fs : FileSystem) (Parse : ParseFn) (when : Time) (file : Str)
      (jobs' : Jobs) :
      Reached allowed jobs → jobs.UpdateCrontab fs Parse when file = .ok jobs' →
      Reached allowed jobs'

/-- The queue of a result of `heap.Remove`; the queue `twoJobs` when the program has stopped. -/
def queueOf (r : Except Fault (Jobs × Ptr)) : Jobs :=
  match r with
  | .ok x => x.1
  | .error _ => twoJobs

/-- The queue after `Add(0, [job0])`, once more `Add(0, [job0])` and then `heap.Remove` at
position 0, from the empty queue `twoJobs`. -/
def removedAfterTwice : Jobs := queueOf (heap.Remove (Jobs.Add 0 [0] (Jobs.Add 0 [0] twoJobs)) 0)

/-- The queue of a result of `UpdateCrontab`; the queue `twoJobs` when the program has
stopped. -/
def jobsOf (r : Except Fault Jobs) : Jobs :=
  match r with
  | .ok jobs => jobs
  | .error _ => twoJobs

/-- The queue after `UpdateCrontab(60, a)` on the queue `twoFiles`, whose jobs are all due at
the time 60, with the file `a` of `oneFile` and the evaluator `everyMinute`. -/
def afterUpdate : Jobs := jobsOf (twoFiles.UpdateCrontab oneFile everyMinute 60 ['a'])

/-- The string is empty or starts with a character that is no digit: a numeral ends here. -/
def Stops (t : Str) : Prop := ∀ x r, t = x :: r → isDigit x = false

/-- The pattern of `leading_zeros`, a word boundary, one or more `0` and a digit, matches
somewhere in the string; `prevWord` tells whether the character before the string is a word
character. -/
def hasLeadingZerosMatch : Bool → Str → Bool
  | _, [] => false
  | prevWord, c :: rest =>
    (!prevWord && (leadingZerosAt (c :: rest)).isSome) || hasLeadingZerosMatch (isWordChar c) rest

/-- The line of one vertical tab (U+000B), which `unicode.IsSpace` holds and the class `\s`
does not. -/
def tabLine : Str := [Char.ofNat 11]

/-- The line of a vertical tab and the comment `# hello`. -/
def tabHashLine : Str := Char.ofNat 11 :: "# hello".toList

/-- The line of a vertical tab and the at-shortcut line `@daily cmd`. -/
def tabAtLine : Str := Char.ofNat 11 :: "@daily cmd".toList

/-! ## Part 4: theorems -/

theorem heapUpTo_of_hole {κ : Nat → Int} {n i : Nat} (h : HoleInv κ n i)
    (hc : ChildrenOk κ n i) (hp : ParentOk κ i) : HeapUpTo κ n := by
  intro k hk hkn
  by_cases h1 : (k - 1) / 2 = i
  · rw [h1]; exact hc k hk hkn h1
  · by_cases h2 : k = i
    · subst h2; exact hp hk
    · exact h.1 k hk hkn h1 h2

theorem hole_of_heapUpTo {κ : Nat → Int} {n : Nat} (h : HeapUpTo κ n) (i : Nat) (hi : i < n) :
    HoleInv κ n i ∧ ChildrenOk κ n i ∧ ParentOk κ i := by
  refine ⟨⟨fun k hk hkn _ _ => h k hk hkn, ?_⟩, ?_, ?_⟩
  · intro c hc hcn hci hi0
    have h1 := h c hc hcn
    have h2 := h i hi0 hi
    rw [hci] at h1
    exact le_trans h2 h1
  · intro c hc hcn hci
    have h1 := h c hc hcn
    rwa [hci] at h1
  · intro hi0; exact h i hi0 hi

theorem hole_down_step {κ : Nat → Int} {n i j : Nat} (h : HoleInv κ n i)
    (hj : j = 2 * i + 1 ∨ j = 2 * i + 2) (hjn : j < n) (hlt : κ j < κ i)
    (hsib : ∀ c, c < n → (c = 2 * i + 1 ∨ c = 2 * i + 2) → κ j ≤ κ c) :
    HoleInv (fun k => κ (swapIdx i j k)) n j ∧ ParentOk (fun k => κ (swapIdx i j k)) j := by
  have hpj : (j - 1) / 2 = i := by omega
  have hij : i ≠ j := by omega
  refine ⟨⟨?_, ?_⟩, ?_⟩
  · intro k hk hkn hkp hkj
    by_cases hki : k = i
    · subst hki
      have hpk : (k - 1) / 2 ≠ k := by omega
      have hpk2 : (k - 1) / 2 ≠ j := by omega
      simp only [swapIdx, if_pos, hpk, hpk2, if_false]
      exact h.2 j (by omega) hjn hpj hk
    · by_cases hpi : (k - 1) / 2 = i
      · have : κ j ≤ κ k := hsib k hkn (by omega)
        simp only [swapIdx, hpi, if_pos, hki, hkj, if_false]
        exact this
      · have := h.1 k hk hkn hpi hki
        simp only [swapIdx, hpi, hkp, hki, hkj, if_false]
        exact this
  · intro c hc hcn hcp _
    have hci : c ≠ i := by omega
    have hcj : c ≠ j := by omega
    have := h.1 c hc hcn (by omega) hci
    rw [hcp] at this
    simp only [swapIdx, hpj, if_pos, hci, hcj, if_false]
    exact this
  · intro _
    simp only [swapIdx, hpj, if_pos, hij.symm, if_false]
    exact le_of_lt hlt

theorem hole_up_step {κ : Nat → Int} {n j : Nat} (h : HoleInv κ n j) (hc : ChildrenOk κ n j)
    (hj : 0 < j) (hjn : j < n) (hlt : κ j < κ ((j - 1) / 2)) :
    HoleInv (fun k => κ (swapIdx ((j - 1) / 2) j k)) n ((j - 1) / 2) ∧
    ChildrenOk (fun k => κ (swapIdx ((j - 1) / 2) j k)) n ((j - 1) / 2) := by
  have hij : (j - 1) / 2 ≠ j := by omega
  have hin : (j - 1) / 2 < n := by omega
  refine ⟨⟨?_, ?_⟩, ?_⟩
  · intro k hk hkn hkp hki
    by_cases hkj : k = j
    · exact absurd (by rw [hkj]) hkp
    · by_cases hpj : (k - 1) / 2 = j
      · have h1 := h.2 k hk hkn hpj hj
        simp only [swapIdx, hpj, hij.symm, if_pos, hki, hkj, if_false]
        exact h1
      · have h1 := h.1 k hk hkn hpj hkj
        simp only [swapIdx, hpj, hkp, hki, hkj, if_false]
        exact h1
  · intro c hc0 hcn hcp hi0
    have hpp1 : (((j - 1) / 2 - 1) / 2) ≠ (j - 1) / 2 := by omega
    have hpp2 : (((j - 1) / 2 - 1) / 2) ≠ j := by omega
    have hpar := h.1 ((j - 1) / 2) hi0 hin (by omega) hij
    by_cases hcj : c = j
    · subst hcj
      simp only [swapIdx, hpp1, hpp2, if_pos, hij.symm, if_false]
      exact hpar
    · have hci : c ≠ (j - 1) / 2 := by omega
      have h1 := h.1 c hc0 hcn (by omega) hcj
      rw [hcp] at h1
      simp only [swapIdx, hpp1, hpp2, hci, hcj, if_false]
      exact le_trans hpar h1
  · intro c hc0 hcn hcp
    by_cases hcj : c = j
    · subst hcj
      simp only [swapIdx, if_pos, hij.symm, if_false]
      exact le_of_lt hlt
    · have hci : c ≠ (j - 1) / 2 := by omega
      have h1 := h.1 c hc0 hcn (by omega) hcj
      rw [hcp] at h1
      simp only [swapIdx, if_pos, hci, hcj, if_false]
      exact le_trans (le_of_lt hlt) h1

theorem heapOrdered_iff (jobs : Jobs) : HeapOrdered jobs ↔ HeapUpTo jobs.key jobs.Len := by
  unfold HeapOrdered HeapUpTo Jobs.Less Jobs.key
  constructor
  · intro h k hk hkn
    have := h k hk hkn
    simpa using this
  · intro h k hk hkn
    have := h k hk hkn
    simpa using this

@[simp] theorem Swap_Len (h : Jobs) (i j : Nat) : (h.Swap i j).Len = h.Len := by
  simp [Jobs.Swap, Jobs.Len]

@[simp] theorem Swap_CrontabMapping (h : Jobs) (i j : Nat) :
    (h.Swap i j).CrontabMapping = h.CrontabMapping := rfl

@[simp] theorem Swap_next (h : Jobs) (i j : Nat) : (h.Swap i j).next = h.next := rfl

@[simp] theorem Swap_envMem (h : Jobs) (i j : Nat) : (h.Swap i j).envMem = h.envMem := rfl

@[simp] theorem setIndex_nextRun (mem : Ptr → Job) (q p : Ptr) (i : Int) :
    (setIndex mem q i p).nextRun = (mem p).nextRun := by
  unfold setIndex; split <;> rfl

@[simp] theorem setIndex_crontab (mem : Ptr → Job) (q p : Ptr) (i : Int) :
    (setIndex mem q i p).crontab = (mem p).crontab := by
  unfold setIndex; split <;> rfl

@[simp] theorem setIndex_Expression (mem : Ptr → Job) (q p : Ptr) (i : Int) :
    (setIndex mem q i p).Expression = (mem p).Expression := by
  unfold setIndex; split <;> rfl

@[simp] theorem setIndex_Next (mem : Ptr → Job) (q p : Ptr) (i : Int) :
    (setIndex mem q i p).Next = (mem p).Next := by
  unfold setIndex; split <;> rfl

@[simp] theorem Swap_nextRun (h : Jobs) (i j : Nat) (p : Ptr) :
    ((h.Swap i j).mem p).nextRun = (h.mem p).nextRun := by
  simp [Jobs.Swap]

@[simp] theorem Swap_crontab (h : Jobs) (i j : Nat) (p : Ptr) :
    ((h.Swap i j).mem p).crontab = (h.mem p).crontab := by
  simp [Jobs.Swap]

@[simp] theorem Swap_Next (h : Jobs) (i j : Nat) (p : Ptr) :
    ((h.Swap i j).mem p).Next = (h.mem p).Next := by
  simp [Jobs.Swap]

theorem at_of_ge (h : Jobs) (k : Nat) (hk : h.Len ≤ k) : h.at k = 0 := by
  unfold Jobs.at Jobs.Len at *
  simp [List.getD_eq_getElem?_getD, List.getElem?_eq_none hk]

theorem Swap_at (h : Jobs) (i j k : Nat) (hi : i < h.Len) (hj : j < h.Len) :
    (h.Swap i j).at k = h.at (swapIdx i j k) := by
  unfold Jobs.Len at hi hj
  simp only [Jobs.Swap, Jobs.at, swapIdx, List.getD_eq_getElem?_getD, List.getElem?_set,
    List.length_set]
  by_cases h1 : k = j
  · subst h1
    by_cases h2 : k = i
    · subst h2; simp [hi]
    · simp [hj, h2]
  · by_cases h2 : k = i
    · subst h2
      simp [hi, Ne.symm h1]
    · simp [h1, h2, Ne.symm h1, Ne.symm h2]

theorem Swap_key (h : Jobs) (i j : Nat) (hi : i < h.Len) (hj : j < h.Len) :
    (h.Swap i j).key = fun k => h.key (swapIdx i j k) := by
  funext k
  simp [Jobs.key, Swap_at h i j k hi hj]

theorem list_set_perm (x : Nat) : ∀ (t : List Nat) (k : Nat), k < t.length →
    (t.getD k 0 :: t.set k x).Perm (x :: t)
  | [], _, h => by simp at h
  | y :: t, 0, _ => by simpa using List.Perm.swap x y t
  | y :: t, k + 1, h => by
    have ih := list_set_perm x t k (by simpa using h)
    simp only [List.getD_cons_succ, List.set_cons_succ]
    exact ((List.Perm.swap y (t.getD k 0) (t.set k x)).trans (ih.cons y)).trans
      (List.Perm.swap x y t)

theorem list_swap_perm : ∀ (l : List Nat) (i j : Nat), i < l.length → j < l.length →
    ((l.set i (l.getD j 0)).set j (l.getD i 0)).Perm l
  | [], _, _, h, _ => by simp at h
  | x :: t, 0, 0, _, _ => by simp
  | x :: t, 0, j + 1, _, hj => by
    simpa using list_set_perm x t j (by simpa using hj)
  | x :: t, i + 1, 0, hi, _ => by
    simpa using list_set_perm x t i (by simpa using hi)
  | x :: t, i + 1, j + 1, hi, hj => by
    simpa using list_swap_perm t i j (by simpa using hi) (by simpa using hj)

theorem Swap_perm (h : Jobs) (i j : Nat) (hi : i < h.Len) (hj : j < h.Len) :
    (h.Swap i j).List.Perm h.List :=
  list_swap_perm h.List i j hi hj

/-! ### The loops of `container/heap` -/

theorem down_loop_succ (fuel : Nat) (h : Jobs) (i n : Nat) :
    heap.down.loop (fuel + 1) h i n =
      if 2 * i + 1 ≥ n then (h, i)
      else if ¬ h.Less (downChild h i n) i then (h, i)
      else heap.down.loop fuel (h.Swap i (downChild h i n)) (downChild h i n) n := rfl

theorem downChild_cases (h : Jobs) (i n : Nat) (hn : 2 * i + 1 < n) :
    (downChild h i n = 2 * i + 1 ∨ downChild h i n = 2 * i + 2) ∧ downChild h i n < n := by
  unfold downChild
  split
  · rename_i hl; exact ⟨Or.inr rfl, hl.1⟩
  · exact ⟨Or.inl rfl, hn⟩

theorem downChild_min (h : Jobs) (i n : Nat) :
    ∀ c, c < n → (c = 2 * i + 1 ∨ c = 2 * i + 2) → h.key (downChild h i n) ≤ h.key c := by
  intro c hcn hc
  unfold downChild
  split
  · rename_i hl
    have hl2 := hl.2
    simp only [Jobs.Less, decide_eq_true_eq] at hl2
    rcases hc with hc | hc
    · subst hc; exact le_of_lt hl2
    · subst hc; exact le_refl _
  · rename_i hl
    rcases hc with hc | hc
    · subst hc; exact le_refl _
    · subst hc
      have : ¬ (h.Less (2 * i + 1 + 1) (2 * i + 1) = true) := fun hh => hl ⟨hcn, hh⟩
      simp only [Jobs.Less, decide_eq_true_eq, not_lt] at this
      exact this

theorem down_loop_Len : ∀ (fuel : Nat) (h : Jobs) (i n : Nat),
    (heap.down.loop fuel h i n).1.Len = h.Len
  | 0, h, i, n => rfl
  | fuel + 1, h, i, n => by
    rw [down_loop_succ]
    split
    · rfl
    · split
      · rfl
      · rw [down_loop_Len fuel]; simp

theorem down_loop_ge : ∀ (fuel : Nat) (h : Jobs) (i n : Nat),
    i ≤ (heap.down.loop fuel h i n).2
  | 0, h, i, n => le_refl _
  | fuel + 1, h, i, n => by
    rw [down_loop_succ]
    split
    · exact le_refl _
    · rename_i hj1
      split
      · exact le_refl _
      · have := (downChild_cases h i n (by omega)).1
        exact le_trans (by omega) (down_loop_ge fuel _ (downChild h i n) n)

/-- Whatever every `Swap` of two positions of the list preserves, the loop of `down` preserves. -/
theorem down_loop_preserves (P : Jobs → Prop)
    (hP : ∀ (h : Jobs) (i j : Nat), i < h.Len → j < h.Len → P h → P (h.Swap i j)) :
    ∀ (fuel : Nat) (h : Jobs) (i n : Nat), n ≤ h.Len → P h → P (heap.down.loop fuel h i n).1
  | 0, h, i, n, _, hp => hp
  | fuel + 1, h, i, n, hn, hp => by
    rw [down_loop_succ]
    split
    · exact hp
    · rename_i hj1
      split
      · exact hp
      · have hc := downChild_cases h i n (by omega)
        apply down_loop_preserves P hP fuel _ _ n (by simpa using hn)
        exact hP _ _ _ (by omega) (by omega) hp

theorem down_loop_heap : ∀ (fuel : Nat) (h : Jobs) (i n : Nat), n ≤ h.Len → n - i ≤ fuel →
    HoleInv h.key n i → ParentOk h.key i → HeapUpTo (heap.down.loop fuel h i n).1.key n
  | 0, h, i, n, _, hf, hinv, hpar => by
    refine heapUpTo_of_hole hinv ?_ hpar
    intro c hc hcn hci
    omega
  | fuel + 1, h, i, n, hn, hf, hinv, hpar => by
    rw [down_loop_succ]
    split
    · refine heapUpTo_of_hole hinv ?_ hpar
      intro c hc hcn hci
      omega
    · rename_i hj1
      have hjc := downChild_cases h i n (by omega)
      have hmin := downChild_min h i n
      generalize downChild h i n = j at hmin hjc ⊢
      split
      · rename_i hless
        refine heapUpTo_of_hole hinv ?_ hpar
        intro c hc hcn hci
        have h1 := hmin c hcn (by omega)
        simp only [Jobs.Less, decide_eq_true_eq, not_lt] at hless
        exact le_trans hless h1
      · rename_i hless
        simp only [Jobs.Less, decide_eq_true_eq, not_not] at hless
        have hstep := hole_down_step hinv hjc.1 hjc.2 hless hmin
        rw [← Swap_key h i j (by omega) (by omega)] at hstep
        exact down_loop_heap fuel (h.Swap i j) j n (by simpa using hn) (by omega) hstep.1 hstep.2

theorem down_Len (h : Jobs) (i0 n : Nat) : (heap.down h i0 n).1.Len = h.Len :=
  down_loop_Len n h i0 n

theorem down_preserves (P : Jobs → Prop)
    (hP : ∀ (h : Jobs) (i j : Nat), i < h.Len → j < h.Len → P h → P (h.Swap i j))
    (h : Jobs) (i0 n : Nat) (hn : n ≤ h.Len) (hp : P h) : P (heap.down h i0 n).1 :=
  down_loop_preserves P hP n h i0 n hn hp

/-- What `down` does to the heap order: when it moves the element of position `i0`, the heap
order holds afterwards; when it does not, nothing changes and the children of `i0` are
not before it. -/
theorem down_spec (h : Jobs) (i0 n : Nat) (hn : n ≤ h.Len) (hi : i0 < n)
    (hinv : HoleInv h.key n i0) :
    ((heap.down h i0 n).2 = true → HeapUpTo (heap.down h i0 n).1.key n) ∧
    ((heap.down h i0 n).2 = false → (heap.down h i0 n).1 = h ∧ ChildrenOk h.key n i0) := by
  obtain ⟨m, rfl⟩ : ∃ m, n = m + 1 := ⟨n - 1, by omega⟩
  unfold heap.down
  simp only [down_loop_succ]
  split
  · refine ⟨fun hh => by simp at hh, fun _ => ⟨rfl, ?_⟩⟩
    intro c hc hcn hci
    omega
  · rename_i hj1
    have hjc := downChild_cases h i0 (m + 1) (by omega)
    have hmin := downChild_min h i0 (m + 1)
    generalize downChild h i0 (m + 1) = j at hmin hjc ⊢
    split
    · rename_i hless
      refine ⟨fun hh => by simp at hh, fun _ => ⟨rfl, ?_⟩⟩
      intro c hc hcn hci
      have h1 := hmin c hcn (by omega)
      simp only [Jobs.Less, decide_eq_true_eq, not_lt] at hless
      exact le_trans hless h1
    · rename_i hless
      simp only [Jobs.Less, decide_eq_true_eq, not_not] at hless
      have hstep := hole_down_step hinv hjc.1 hjc.2 hless hmin
      rw [← Swap_key h i0 j (by omega) (by omega)] at hstep
      have hge := down_loop_ge m (h.Swap i0 j) j (m + 1)
      refine ⟨fun _ => ?_, fun hh => ?_⟩
      · exact down_loop_heap m (h.Swap i0 j) j (m + 1) (by simpa using hn) (by omega)
          hstep.1 hstep.2
      · simp only [decide_eq_false_iff_not, not_lt] at hh
        omega

/-! The loop of `up`. -/

theorem up_loop_succ (fuel : Nat) (h : Jobs) (j : Nat) :
    heap.up.loop (fuel + 1) h j =
      if (j - 1) / 2 = j ∨ ¬ h.Less j ((j - 1) / 2) then h
      else heap.up.loop fuel (h.Swap ((j - 1) / 2) j) ((j - 1) / 2) := rfl

theorem up_loop_Len : ∀ (fuel : Nat) (h : Jobs) (j : Nat), (heap.up.loop fuel h j).Len = h.Len
  | 0, h, j => rfl
  | fuel + 1, h, j => by
    rw [up_loop_succ]
    split
    · rfl
    · rw [up_loop_Len fuel]; simp

theorem up_loop_preserves (P : Jobs → Prop)
    (hP : ∀ (h : Jobs) (i j : Nat), i < h.Len → j < h.Len → P h → P (h.Swap i j)) :
    ∀ (fuel : Nat) (h : Jobs) (j : Nat), j < h.Len → P h → P (heap.up.loop fuel h j)
  | 0, h, j, _, hp => hp
  | fuel + 1, h, j, hj, hp => by
    rw [up_loop_succ]
    split
    · exact hp
    · apply up_loop_preserves P hP fuel _ _ (by simp; omega)
      exact hP _ _ _ (by omega) hj hp

theorem up_loop_heap : ∀ (fuel : Nat) (h : Jobs) (j n : Nat), n ≤ h.Len → j < n → j ≤ fuel →
    HoleInv h.key n j → ChildrenOk h.key n j → HeapUpTo (heap.up.loop fuel h j).key n
  | 0, h, j, n, _, _, hf, hinv, hc => by
    refine heapUpTo_of_hole hinv hc ?_
    intro hj; omega
  | fuel + 1, h, j, n, hn, hjn, hf, hinv, hc => by
    rw [up_loop_succ]
    split
    · rename_i hbreak
      refine heapUpTo_of_hole hinv hc ?_
      intro hj
      rcases hbreak with hb | hb
      · omega
      · simp only [Jobs.Less, decide_eq_true_eq, not_lt] at hb
        exact hb
    · rename_i hbreak
      simp only [not_or, not_not, Jobs.Less, decide_eq_true_eq] at hbreak
      have hj0 : 0 < j := by omega
      have hstep := hole_up_step hinv hc hj0 hjn hbreak.2
      rw [← Swap_key h ((j - 1) / 2) j (by omega) (by omega)] at hstep
      exact up_loop_heap fuel _ _ n (by simpa using hn) (by omega) (by omega) hstep.1 hstep.2

theorem up_Len (h : Jobs) (j : Nat) : (heap.up h j).Len = h.Len := up_loop_Len j h j

theorem up_preserves (P : Jobs → Prop)
    (hP : ∀ (h : Jobs) (i j : Nat), i < h.Len → j < h.Len → P h → P (h.Swap i j))
    (h : Jobs) (j : Nat) (hj : j < h.Len) (hp : P h) : P (heap.up h j) :=
  up_loop_preserves P hP j h j hj hp

theorem up_heap (h : Jobs) (j n : Nat) (hn : n ≤ h.Len) (hj : j < n)
    (hinv : HoleInv h.key n j) (hc : ChildrenOk h.key n j) : HeapUpTo (heap.up h j).key n :=
  up_loop_heap j h j n hn hj (le_refl _) hinv hc

/-! ### `heap.Fix`, `heap.Push`, `heap.Remove` and the heap order -/

theorem Fix_eq (h : Jobs) (i : Nat) : heap.Fix h i = fixAt h i h.Len := rfl

theorem Remove_eq (h : Jobs) (i : Nat) (hi : i < h.Len) :
    heap.Remove h (i : Int) =
      .ok (if h.Len - 1 ≠ i then fixAt (h.Swap i (h.Len - 1)) i (h.Len - 1) else h).Pop := by
  unfold heap.Remove fixAt
  have h1 : (0 : Int) ≤ (i : Int) ∧ (i : Int) < (h.Len : Int) := ⟨by omega, by omega⟩
  simp only [h1, and_self, if_true, Int.toNat_ofNat]
  split <;> rfl

theorem fixAt_Len (h : Jobs) (i n : Nat) : (fixAt h i n).Len = h.Len := by
  unfold fixAt
  split
  · rw [up_Len, down_Len]
  · rw [down_Len]

theorem fixAt_preserves (P : Jobs → Prop)
    (hP : ∀ (h : Jobs) (i j : Nat), i < h.Len → j < h.Len → P h → P (h.Swap i j))
    (h : Jobs) (i n : Nat) (hn : n ≤ h.Len) (hi : i < n) (hp : P h) : P (fixAt h i n) := by
  unfold fixAt
  have hd := down_preserves P hP h i n hn hp
  split
  · exact up_preserves P hP _ i (by rw [down_Len]; omega) hd
  · exact hd

theorem fixAt_heap (h : Jobs) (i n : Nat) (hn : n ≤ h.Len) (hi : i < n)
    (hinv : HoleInv h.key n i) : HeapUpTo (fixAt h i n).key n := by
  unfold fixAt
  have hs := down_spec h i n hn hi hinv
  cases hd : (heap.down h i n).2
  · obtain ⟨he, hc⟩ := hs.2 hd
    simp only [Bool.false_eq_true, not_false_eq_true, if_true]
    rw [he]
    exact up_heap h i n hn hi hinv hc
  · simp only [not_true_eq_false, if_false]
    exact hs.1 hd

@[simp] theorem Pop_nextRun (h : Jobs) (p : Ptr) :
    (h.Pop.1.mem p).nextRun = (h.mem p).nextRun := by
  simp [Jobs.Pop]

@[simp] theorem Pop_Len (h : Jobs) : h.Pop.1.Len = h.Len - 1 := by
  simp [Jobs.Pop, Jobs.Len]

theorem Pop_at (h : Jobs) (k : Nat) (hk : k < h.Len - 1) : h.Pop.1.at k = h.at k := by
  unfold Jobs.Len at hk
  have hk2 : k < h.List.length := by omega
  simp [Jobs.Pop, Jobs.at, List.getD_eq_getElem?_getD, List.getElem?_take, hk,
    List.getElem?_eq_getElem hk2]

theorem Pop_key (h : Jobs) (k : Nat) (hk : k < h.Len - 1) : h.Pop.1.key k = h.key k := by
  simp [Jobs.key, Pop_at h k hk]

theorem Pop_heap (h : Jobs) (hh : HeapUpTo h.key (h.Len - 1)) : HeapOrdered h.Pop.1 := by
  rw [heapOrdered_iff]
  intro k hk hkn
  rw [Pop_Len] at hkn
  rw [Pop_key h k hkn, Pop_key h _ (by omega)]
  exact hh k hk hkn

@[simp] theorem Push_nextRun (h : Jobs) (x p : Ptr) :
    ((h.Push x).mem p).nextRun = (h.mem p).nextRun := by
  simp [Jobs.Push]

@[simp] theorem Push_Len (h : Jobs) (x : Ptr) : (h.Push x).Len = h.Len + 1 := by
  simp [Jobs.Push, Jobs.Len]

theorem Push_at (h : Jobs) (x : Ptr) (k : Nat) (hk : k < h.Len) : (h.Push x).at k = h.at k := by
  unfold Jobs.Len at hk
  simp [Jobs.Push, Jobs.at, List.getD_eq_getElem?_getD, List.getElem?_append_left hk]

theorem Push_key (h : Jobs) (x : Ptr) (k : Nat) (hk : k < h.Len) :
    (h.Push x).key k = h.key k := by
  simp [Jobs.key, Push_at h x k hk]

/-- The function `heap.Push` keeps the heap order. -/
theorem heapPush_heap (h : Jobs) (x : Ptr) (hh : HeapOrdered h) : HeapOrdered (heap.Push h x) := by
  rw [heapOrdered_iff] at hh ⊢
  unfold heap.Push
  simp only [up_Len, Push_Len, Nat.add_sub_cancel]
  apply up_heap _ _ _ (by simp) (by omega)
  · refine ⟨?_, ?_⟩
    · intro k hk hkn _ hkl
      rw [Push_key h x k (by omega), Push_key h x _ (by omega)]
      exact hh k hk (by omega)
    · intro c hc hcn hcp _
      omega
  · intro c hc hcn hcp
    omega

/-- The function `heap.Fix` at the root restores the heap order when only the root is out
of place. -/
theorem heapFix_zero_heap (h : Jobs) (hlen : 0 < h.Len)
    (hh : ∀ k, 0 < k → k < h.Len → (k - 1) / 2 ≠ 0 → h.key ((k - 1) / 2) ≤ h.key k) :
    HeapOrdered (heap.Fix h 0) := by
  rw [heapOrdered_iff, Fix_eq, fixAt_Len]
  apply fixAt_heap h 0 h.Len (le_refl _) hlen
  refine ⟨?_, ?_⟩
  · intro k hk hkn hkp _
    exact hh k hk hkn hkp
  · intro c _ _ _ h0
    omega

/-- The function `heap.Remove` keeps the heap order. -/
theorem heapRemove_heap (h : Jobs) (i : Nat) (hi : i < h.Len) (hh : HeapOrdered h) :
    ∃ r, heap.Remove h (i : Int) = .ok r ∧ HeapOrdered r.1 := by
  rw [Remove_eq h i hi]
  refine ⟨_, rfl, ?_⟩
  rw [heapOrdered_iff] at hh
  apply Pop_heap
  split
  · rename_i hne
    rw [fixAt_Len, Swap_Len]
    apply fixAt_heap _ i (h.Len - 1) (by simp) (by omega)
    rw [Swap_key h i (h.Len - 1) hi (by omega)]
    refine ⟨?_, ?_⟩
    · intro k hk hkn hkp hki
      have e1 : swapIdx i (h.Len - 1) k = k := by
        unfold swapIdx; rw [if_neg hki, if_neg (by omega)]
      have e2 : swapIdx i (h.Len - 1) ((k - 1) / 2) = (k - 1) / 2 := by
        unfold swapIdx; rw [if_neg hkp, if_neg (by omega)]
      simp only [e1, e2]
      exact hh k hk (by omega)
    · intro c hc hcn hcp hi0
      have e1 : swapIdx i (h.Len - 1) c = c := by
        unfold swapIdx; rw [if_neg (by omega), if_neg (by omega)]
      have e2 : swapIdx i (h.Len - 1) ((i - 1) / 2) = (i - 1) / 2 := by
        unfold swapIdx; rw [if_neg (by omega), if_neg (by omega)]
      simp only [e1, e2]
      have h1 := hh c hc (by omega)
      have h2 := hh i hi0 hi
      rw [hcp] at h1
      exact le_trans h2 h1
  · intro k hk hkn
    exact hh k hk (by omega)

/-! ### What the heap functions leave alone -/

theorem Reordered.refl (h : Jobs) : Reordered h h :=
  ⟨List.Perm.refl _, rfl, rfl, rfl, fun _ => ⟨rfl, rfl, rfl, rfl, rfl⟩⟩

theorem setIndex_fields (mem : Ptr → Job) (q p : Ptr) (i : Int) :
    (setIndex mem q i p).nextRun = (mem p).nextRun ∧
    (setIndex mem q i p).crontab = (mem p).crontab ∧
    (setIndex mem q i p).Expression = (mem p).Expression ∧
    (setIndex mem q i p).script = (mem p).script ∧
    (setIndex mem q i p).environment = (mem p).environment := by
  unfold setIndex; split <;> exact ⟨rfl, rfl, rfl, rfl, rfl⟩

theorem Reordered.swap {h0 h : Jobs} (hr : Reordered h0 h) (i j : Nat) (hi : i < h.Len)
    (hj : j < h.Len) : Reordered h0 (h.Swap i j) := by
  obtain ⟨h1, h2, h3, h4, h5⟩ := hr
  refine ⟨(Swap_perm h i j hi hj).trans h1, h2, h3, h4, fun p => ?_⟩
  obtain ⟨a, b, c, d, e⟩ := h5 p
  have s1 := setIndex_fields h.mem (((h.List.set i (h.at j)).set j (h.at i)).getD i 0) p i
  have s2 := setIndex_fields (setIndex h.mem (((h.List.set i (h.at j)).set j (h.at i)).getD i 0) i)
    (((h.List.set i (h.at j)).set j (h.at i)).getD j 0) p j
  simp only [Jobs.Swap]
  obtain ⟨a1, b1, c1, d1, e1⟩ := s1
  obtain ⟨a2, b2, c2, d2, e2⟩ := s2
  exact ⟨by rw [a2, a1, a], by rw [b2, b1, b], by rw [c2, c1, c], by rw [d2, d1, d],
    by rw [e2, e1, e]⟩

theorem fixAt_reordered (h : Jobs) (i n : Nat) (hn : n ≤ h.Len) (hi : i < n) :
    Reordered h (fixAt h i n) :=
  fixAt_preserves (Reordered h) (fun _ i j hi hj hp => hp.swap i j hi hj) h i n hn hi
    (Reordered.refl h)

theorem up_reordered (h : Jobs) (j : Nat) (hj : j < h.Len) : Reordered h (heap.up h j) :=
  up_preserves (Reordered h) (fun _ i j hi hj hp => hp.swap i j hi hj) h j hj
    (Reordered.refl h)

/-! ### The top of a heap -/

theorem mem_iff_at (jobs : Jobs) (p : Ptr) : p ∈ jobs.List ↔ ∃ k, k < jobs.Len ∧ jobs.at k = p := by
  unfold Jobs.Len Jobs.at
  rw [List.mem_iff_getElem]
  constructor
  · rintro ⟨k, hk, rfl⟩
    exact ⟨k, hk, by simp [List.getD_eq_getElem?_getD, List.getElem?_eq_getElem hk]⟩
  · rintro ⟨k, hk, rfl⟩
    exact ⟨k, hk, by simp [List.getD_eq_getElem?_getD, List.getElem?_eq_getElem hk]⟩

theorem Top_eq (jobs : Jobs) (hne : jobs.List ≠ []) : jobs.Top = .ok (jobs.at 0) := by
  unfold Jobs.Top Jobs.at
  cases hl : jobs.List with
  | nil => exact absurd hl hne
  | cons a t => simp

theorem at_zero_mem (jobs : Jobs) (hne : jobs.List ≠ []) : jobs.at 0 ∈ jobs.List := by
  rw [mem_iff_at]
  refine ⟨0, ?_, rfl⟩
  unfold Jobs.Len
  exact List.length_pos.mpr hne

/-- In a heap the root is not after any position. -/
theorem heap_root_le (κ : Nat → Int) (n : Nat) (hh : HeapUpTo κ n) :
    ∀ k, k < n → κ 0 ≤ κ k := by
  intro k
  induction k using Nat.strong_induction_on with
  | _ k ih =>
    intro hk
    by_cases h0 : k = 0
    · subst h0; exact le_refl _
    · have h1 := hh k (by omega) hk
      have h2 := ih ((k - 1) / 2) (by omega) (by omega)
      exact le_trans h2 h1

theorem heapOrdered_top_min (jobs : Jobs) (hh : HeapOrdered jobs) (p : Ptr) (hp : p ∈ jobs.List) :
    (jobs.mem (jobs.at 0)).nextRun ≤ (jobs.mem p).nextRun := by
  rw [heapOrdered_iff] at hh
  obtain ⟨k, hk, rfl⟩ := (mem_iff_at jobs p).mp hp
  exact heap_root_le jobs.key jobs.Len hh k hk

/-! ### The loop of `NextJobs` -/

theorem NextJobs_loop_succ (T : Time) (fuel : Nat) (jobs : Jobs) (acc : Crontab)
    (hne : jobs.List ≠ []) :
    NextJobs.loop T (fuel + 1) jobs acc =
      if (jobs.mem (jobs.at 0)).nextRun = T then
        let jobs2 := heap.Fix
          (withNextRun jobs (jobs.at 0) ((jobs.mem (jobs.at 0)).Next (T + epsilon))) 0
        if (jobs2.mem (jobs.at 0)).nextRun = T ∨ (jobs2.mem (jobs.at 0)).nextRun < T then
          .error (Fault.Fatal "Logic error: next run time is wrong")
        else NextJobs.loop T fuel jobs2 (acc ++ [jobs.at 0])
      else .ok (jobs, acc) := by
  rw [NextJobs.loop, Top_eq jobs hne]
  rfl

theorem setNextRun_fields (mem : Ptr → Job) (q p : Ptr) (t : Time) :
    (setNextRun mem q t p).crontab = (mem p).crontab ∧
    (setNextRun mem q t p).Expression = (mem p).Expression ∧
    (setNextRun mem q t p).script = (mem p).script ∧
    (setNextRun mem q t p).environment = (mem p).environment ∧
    (setNextRun mem q t p).index = (mem p).index ∧
    (setNextRun mem q t p).nextRun = if p = q then t else (mem p).nextRun := by
  unfold setNextRun; split <;> simp

/-- One round of the loop of `NextJobs`: the root gets the time `t` and `heap.Fix` runs. -/
theorem round_facts (jobs : Jobs) (t : Time) (hne : jobs.List ≠ []) :
    let jobs2 := heap.Fix (withNextRun jobs (jobs.at 0) t) 0
    jobs2.List.Perm jobs.List ∧ jobs2.CrontabMapping = jobs.CrontabMapping ∧
    jobs2.next = jobs.next ∧ jobs2.envMem = jobs.envMem ∧
    (∀ p, (jobs2.mem p).crontab = (jobs.mem p).crontab ∧
      (jobs2.mem p).Expression = (jobs.mem p).Expression ∧
      (jobs2.mem p).script = (jobs.mem p).script ∧
      (jobs2.mem p).environment = (jobs.mem p).environment ∧
      (jobs2.mem p).nextRun = if p = jobs.at 0 then t else (jobs.mem p).nextRun) := by
  intro jobs2
  have hlen : 0 < (withNextRun jobs (jobs.at 0) t).Len := List.length_pos.mpr hne
  have hr : Reordered (withNextRun jobs (jobs.at 0) t) jobs2 :=
    fixAt_reordered _ 0 _ (le_refl _) hlen
  obtain ⟨h1, h2, h3, h4, h5⟩ := hr
  refine ⟨h1, h2, h3, h4, fun p => ?_⟩
  obtain ⟨a, b, c, d, e⟩ := h5 p
  obtain ⟨b', c', d', e', _, a'⟩ := setNextRun_fields jobs.mem (jobs.at 0) p t
  exact ⟨b.trans b', c.trans c', d.trans d', e.trans e', a.trans a'⟩

theorem epsilon_pos : 0 < epsilon := by decide

theorem dueCount_round (T : Time) (jobs jobs2 : Jobs) (t : Time) (hne : jobs.List ≠ [])
    (hT : (jobs.mem (jobs.at 0)).nextRun = T) (ht : t ≠ T)
    (hperm : jobs2.List.Perm jobs.List)
    (hrun : ∀ p, (jobs2.mem p).nextRun = if p = jobs.at 0 then t else (jobs.mem p).nextRun) :
    dueCount T jobs2 < dueCount T jobs := by
  unfold dueCount
  rw [(hperm.filter _).length_eq]
  have hsub : (jobs.List.filter (fun p => decide ((jobs2.mem p).nextRun = T))).Sublist
      (jobs.List.filter (fun p => decide ((jobs.mem p).nextRun = T))) := by
    apply List.monotone_filter_right
    intro p hp
    simp only [decide_eq_true_eq] at hp ⊢
    rw [hrun p] at hp
    split at hp
    · exact absurd hp ht
    · exact hp
  rcases Nat.lt_or_ge (jobs.List.filter (fun p => decide ((jobs2.mem p).nextRun = T))).length
    (jobs.List.filter (fun p => decide ((jobs.mem p).nextRun = T))).length with h | h
  · exact h
  · exfalso
    have heq := hsub.eq_of_length (le_antisymm hsub.length_le h)
    have hin : jobs.at 0 ∈ jobs.List.filter (fun p => decide ((jobs.mem p).nextRun = T)) := by
      rw [List.mem_filter]
      exact ⟨at_zero_mem jobs hne, by simpa using hT⟩
    rw [← heq, List.mem_filter] at hin
    have := hin.2
    simp only [decide_eq_true_eq] at this
    rw [hrun, if_pos rfl] at this
    exact ht this

theorem nodup_at_ne (jobs : Jobs) (hnd : jobs.List.Nodup) (k : Nat) (hk : k < jobs.Len)
    (hk0 : k ≠ 0) : jobs.at k ≠ jobs.at 0 := by
  unfold Jobs.Len at hk
  unfold Jobs.at
  have h0 : 0 < jobs.List.length := by omega
  simp only [List.getD_eq_getElem?_getD, List.getElem?_eq_getElem hk,
    List.getElem?_eq_getElem h0, Option.getD_some]
  intro he
  exact hk0 ((List.Nodup.getElem_inj_iff hnd).mp he)

theorem withNextRun_key_ne (jobs : Jobs) (t : Time) (hnd : jobs.List.Nodup) (k : Nat)
    (hk : k < jobs.Len) (hk0 : k ≠ 0) : (withNextRun jobs (jobs.at 0) t).key k = jobs.key k := by
  have hne := nodup_at_ne jobs hnd k hk hk0
  have hat : (withNextRun jobs (jobs.at 0) t).at k = jobs.at k := rfl
  unfold Jobs.key
  rw [hat]
  show (setNextRun jobs.mem (jobs.at 0) t (jobs.at k)).nextRun = _
  rw [(setNextRun_fields jobs.mem (jobs.at 0) (jobs.at k) t).2.2.2.2.2, if_neg hne]

theorem NextJobs_loop_spec (T : Time) : ∀ (fuel : Nat) (jobs : Jobs) (acc : Crontab),
    jobs.List ≠ [] → dueCount T jobs < fuel →
    (∀ p ∈ jobs.List, ∀ t, t < (jobs.mem p).Next t) →
    ∃ jobs' batch, NextJobs.loop T fuel jobs acc = .ok (jobs', acc ++ batch) ∧
      LoopResult T jobs jobs' batch
  | 0, _, _, _, hf, _ => absurd hf (Nat.not_lt_zero _)
  | fuel + 1, jobs, acc, hne, hf, hev => by
    rw [NextJobs_loop_succ T fuel jobs acc hne]
    by_cases hT : (jobs.mem (jobs.at 0)).nextRun = T
    · rw [if_pos hT]
      have hfacts := round_facts jobs ((jobs.mem (jobs.at 0)).Next (T + epsilon)) hne
      simp only [] at hfacts ⊢
      generalize hj2 : heap.Fix
          (withNextRun jobs (jobs.at 0) ((jobs.mem (jobs.at 0)).Next (T + epsilon))) 0 = jobs2
        at hfacts ⊢
      obtain ⟨hperm, hmap, hnext, henv, hfld⟩ := hfacts
      have hlt : T < (jobs.mem (jobs.at 0)).Next (T + epsilon) := by
        exact lt_trans (lt_add_of_pos_right T epsilon_pos)
          (hev _ (at_zero_mem jobs hne) (T + epsilon))
      have hrun : ∀ p, (jobs2.mem p).nextRun =
          if p = jobs.at 0 then (jobs.mem (jobs.at 0)).Next (T + epsilon)
          else (jobs.mem p).nextRun := fun p => (hfld p).2.2.2.2
      have hjob : (jobs2.mem (jobs.at 0)).nextRun = (jobs.mem (jobs.at 0)).Next (T + epsilon) := by
        rw [hrun, if_pos rfl]
      have hnofatal : ¬ ((jobs2.mem (jobs.at 0)).nextRun = T ∨ (jobs2.mem (jobs.at 0)).nextRun < T) := by
        rw [hjob]
        rintro (h | h)
        · exact absurd h (ne_of_gt hlt)
        · exact absurd h (not_lt.mpr (le_of_lt hlt))
      rw [if_neg hnofatal]
      have hne2 : jobs2.List ≠ [] := by
        intro h; rw [h] at hperm; exact hne (List.Perm.nil_eq hperm).symm
      have hdc := dueCount_round T jobs jobs2 _ hne hT (ne_of_gt hlt) hperm hrun
      have hev2 : ∀ p ∈ jobs2.List, ∀ t, t < (jobs2.mem p).Next t := by
        intro p hp t
        have := hev p (hperm.mem_iff.mp hp) t
        unfold Job.Next at this ⊢
        rw [(hfld p).2.1]; exact this
      obtain ⟨jobs', batch', hloop, hres⟩ :=
        NextJobs_loop_spec T fuel jobs2 (acc ++ [jobs.at 0]) hne2 (by omega) hev2
      refine ⟨jobs', jobs.at 0 :: batch', by rw [hloop]; simp, ?_⟩
      have hnotin : jobs.at 0 ∉ batch' := by
        intro hin
        have := (hres.batch_due _ hin).2.1
        rw [hjob] at this
        exact absurd this (ne_of_gt hlt)
      constructor
      · exact hres.perm.trans hperm
      · exact hres.mapping.trans hmap
      · exact hres.next.trans hnext
      · exact hres.envMem.trans henv
      · intro p
        obtain ⟨a, b, c, d⟩ := hres.fields p
        obtain ⟨a', b', c', d', _⟩ := hfld p
        exact ⟨a.trans a', b.trans b', c.trans c', d.trans d'⟩
      · intro p hp
        rcases List.mem_cons.mp hp with rfl | hp
        · refine ⟨at_zero_mem jobs hne, hT, ?_⟩
          rw [hres.others _ hnotin, hjob]
        · obtain ⟨h1, h2, h3⟩ := hres.batch_due p hp
          have hpj : p ≠ jobs.at 0 := fun h => hnotin (h ▸ hp)
          rw [hrun, if_neg hpj] at h2
          refine ⟨hperm.mem_iff.mp h1, h2, ?_⟩
          rw [h3]
          unfold Job.Next
          rw [(hfld p).2.1]
      · intro p hp
        rw [List.mem_cons, not_or] at hp
        rw [hres.others p hp.2, hrun, if_neg hp.1]
      · exact List.nodup_cons.mpr ⟨hnotin, hres.nodup⟩
      · exact hres.top
      · intro hheap hnd hge
        have hheap2 : HeapOrdered jobs2 := by
          rw [← hj2]
          apply heapFix_zero_heap
            (withNextRun jobs (jobs.at 0) ((jobs.mem (jobs.at 0)).Next (T + epsilon)))
            (List.length_pos.mpr hne)
          intro k hk hkn hkp
          have hkn' : k < jobs.Len := hkn
          have e1 := withNextRun_key_ne jobs ((jobs.mem (jobs.at 0)).Next (T + epsilon)) hnd k
            hkn' (by omega)
          have e2 := withNextRun_key_ne jobs ((jobs.mem (jobs.at 0)).Next (T + epsilon)) hnd
            ((k - 1) / 2) (by omega) hkp
          rw [e1, e2]
          exact (heapOrdered_iff jobs).mp hheap k hk hkn'
        have hnd2 : jobs2.List.Nodup := (hperm.nodup_iff).mpr hnd
        have hge2 : ∀ p ∈ jobs2.List, T ≤ (jobs2.mem p).nextRun := by
          intro p hp
          rw [hrun]
          split
          · exact le_of_lt hlt
          · exact hge p (hperm.mem_iff.mp hp)
        obtain ⟨hh', hall⟩ := hres.heap hheap2 hnd2 hge2
        refine ⟨hh', fun p hp hpT => ?_⟩
        by_cases hpj : p = jobs.at 0
        · rw [hpj]; exact List.mem_cons_self _ _
        · apply List.mem_cons_of_mem
          apply hall p (hperm.mem_iff.mpr hp)
          rw [hrun, if_neg hpj]; exact hpT
    · rw [if_neg hT]
      refine ⟨jobs, [], by simp, ?_⟩
      constructor
      · exact List.Perm.refl _
      · rfl
      · rfl
      · rfl
      · intro p; exact ⟨rfl, rfl, rfl, rfl⟩
      · intro p hp; simp at hp
      · intro p _; rfl
      · exact List.nodup_nil
      · exact hT
      · intro hheap _ hge
        refine ⟨hheap, fun p hp hpT => ?_⟩
        exfalso
        have h1 := heapOrdered_top_min jobs hheap p hp
        have h2 := hge _ (at_zero_mem jobs hne)
        apply hT
        rw [hpT] at h1
        exact le_antisymm h1 h2


/-! ### `NextJobs` -/

theorem dueCount_le (T : Time) (jobs : Jobs) : dueCount T jobs ≤ jobs.Len :=
  List.length_filter_le _ _

theorem NextJobs_nonempty (jobs : Jobs) (hne : jobs.List ≠ []) :
    jobs.NextJobs =
      NextJobs.loop (jobs.mem (jobs.at 0)).nextRun (jobs.Len + 1) jobs [] := by
  have hlen : jobs.Len ≠ 0 := by
    unfold Jobs.Len; exact fun h => hne (List.length_eq_zero.mp h)
  unfold Jobs.NextJobs
  rw [if_neg hlen, Top_eq jobs hne]

/-- On a queue that is not empty and whose evaluators answer strictly later times, `NextJobs`
returns, and `LoopResult` describes what it has done. -/
theorem NextJobs_spec (jobs : Jobs) (hne : jobs.List ≠ []) (hev : NextAfter jobs) :
    ∃ jobs' batch, jobs.NextJobs = .ok (jobs', batch) ∧
      LoopResult (jobs.mem (jobs.at 0)).nextRun jobs jobs' batch := by
  rw [NextJobs_nonempty jobs hne]
  obtain ⟨jobs', batch, h1, h2⟩ := NextJobs_loop_spec (jobs.mem (jobs.at 0)).nextRun
    (jobs.Len + 1) jobs [] hne (Nat.lt_succ_of_le (dueCount_le _ jobs)) hev
  exact ⟨jobs', batch, by simpa using h1, h2⟩

/-- The loop of `NextJobs` never runs out of steps, whatever the evaluators answer. -/
theorem NextJobs_loop_ne_OutOfFuel (T : Time) : ∀ (fuel : Nat) (jobs : Jobs) (acc : Crontab),
    jobs.List ≠ [] → dueCount T jobs < fuel →
    NextJobs.loop T fuel jobs acc ≠ .error Fault.OutOfFuel
  | 0, _, _, _, hf => absurd hf (Nat.not_lt_zero _)
  | fuel + 1, jobs, acc, hne, hf => by
    rw [NextJobs_loop_succ T fuel jobs acc hne]
    split
    · rename_i hT
      have hfacts := round_facts jobs ((jobs.mem (jobs.at 0)).Next (T + epsilon)) hne
      simp only [] at hfacts ⊢
      generalize heap.Fix
          (withNextRun jobs (jobs.at 0) ((jobs.mem (jobs.at 0)).Next (T + epsilon))) 0 = jobs2
        at hfacts ⊢
      obtain ⟨hperm, _, _, _, hfld⟩ := hfacts
      split
      · simp
      · rename_i hnf
        have hrun : ∀ p, (jobs2.mem p).nextRun =
            if p = jobs.at 0 then (jobs.mem (jobs.at 0)).Next (T + epsilon)
            else (jobs.mem p).nextRun := fun p => (hfld p).2.2.2.2
        have hneT : (jobs.mem (jobs.at 0)).Next (T + epsilon) ≠ T := by
          intro h
          apply hnf
          left
          rw [hrun, if_pos rfl]; exact h
        have hne2 : jobs2.List ≠ [] := by
          intro h; rw [h] at hperm; exact hne (List.Perm.nil_eq hperm).symm
        have hdc := dueCount_round T jobs jobs2 _ hne hT hneT hperm hrun
        exact NextJobs_loop_ne_OutOfFuel T fuel jobs2 _ hne2 (by omega)
    · simp

/-- The method `NextJobs` of the embedding never stops for lack of steps: the steps given to
its loop are enough on every queue. -/
theorem NextJobs_ne_OutOfFuel (jobs : Jobs) : jobs.NextJobs ≠ .error Fault.OutOfFuel := by
  by_cases hne : jobs.List = []
  · unfold Jobs.NextJobs Jobs.Len
    simp [hne]
  · rw [NextJobs_nonempty jobs hne]
    exact NextJobs_loop_ne_OutOfFuel _ _ jobs [] hne (Nat.lt_succ_of_le (dueCount_le _ jobs))

theorem minNextRun_eq_top (jobs : Jobs) (T : Time) (hne : jobs.List ≠ [])
    (hheap : HeapOrdered jobs) (hT : MinNextRun jobs T) :
    (jobs.mem (jobs.at 0)).nextRun = T := by
  obtain ⟨⟨p, hp, hpT⟩, hmin⟩ := hT
  have h1 := heapOrdered_top_min jobs hheap p hp
  rw [hpT] at h1
  exact le_antisymm h1 (hmin _ (at_zero_mem jobs hne))

/-- C1, as amended: on a queue that is not empty, is heap-ordered and holds no job at two
positions, with `T` the minimum `nextRun` and evaluators that answer strictly later times,
`NextJobs` returns a batch in which every job occurs once and whose jobs are exactly the
queued jobs that had `nextRun = T` before the call. -/
theorem NextJobs_batch_exact (jobs : Jobs) (T : Time) (hne : jobs.List ≠ [])
    (hheap : HeapOrdered jobs) (hnd : jobs.List.Nodup) (hT : MinNextRun jobs T)
    (hev : NextAfter jobs) :
    ∃ jobs' batch, jobs.NextJobs = .ok (jobs', batch) ∧ batch.Nodup ∧
      ∀ p, p ∈ batch ↔ (p ∈ jobs.List ∧ (jobs.mem p).nextRun = T) := by
  obtain ⟨jobs', batch, h1, h2⟩ := NextJobs_spec jobs hne hev
  rw [minNextRun_eq_top jobs T hne hheap hT] at h2
  refine ⟨jobs', batch, h1, h2.nodup, fun p => ⟨fun hp => ?_, fun hp => ?_⟩⟩
  · exact ⟨(h2.batch_due p hp).1, (h2.batch_due p hp).2.1⟩
  · exact (h2.heap hheap hnd hT.2).2 p hp.1 hp.2

/-- C5: on a queue that is not empty and is heap-ordered, with `T` the minimum `nextRun` and
evaluators that answer strictly later times, `NextJobs` returns (it neither runs forever nor
reaches `log.Fatalf`), and every job of the batch has `nextRun = Next(T + 1 second)`, which
is strictly after `T`. -/
theorem NextJobs_recomputes (jobs : Jobs) (T : Time) (hne : jobs.List ≠ [])
    (hheap : HeapOrdered jobs) (hT : MinNextRun jobs T) (hev : NextAfter jobs) :
    ∃ jobs' batch, jobs.NextJobs = .ok (jobs', batch) ∧
      ∀ p ∈ batch, (jobs'.mem p).nextRun = (jobs.mem p).Next (T + 1000000000) ∧
        T < (jobs'.mem p).nextRun := by
  obtain ⟨jobs', batch, h1, h2⟩ := NextJobs_spec jobs hne hev
  rw [minNextRun_eq_top jobs T hne hheap hT] at h2
  refine ⟨jobs', batch, h1, fun p hp => ?_⟩
  obtain ⟨hin, _, hrun⟩ := h2.batch_due p hp
  refine ⟨hrun, ?_⟩
  rw [hrun]
  exact lt_trans (lt_add_of_pos_right T epsilon_pos) (hev p hin (T + epsilon))

theorem twiceQueued_heapOrdered : HeapOrdered twiceQueued := by
  intro k hk hkn
  have : k < 4 := hkn
  interval_cases k <;> decide

theorem twiceQueued_nextAfter : NextAfter twiceQueued := by
  intro p _ t
  exact lt_add_of_pos_right t (by decide)

/-- C1 as stated fails: the queue `twiceQueued` is not empty and is heap-ordered, its minimum
`nextRun` is 0 and its evaluators answer strictly later times, but the batch of `NextJobs` is
`[0]`, without the job 2, which is queued and had `nextRun = 0`. -/
theorem NextJobs_batch_misses_job :
    twiceQueued.List ≠ [] ∧ HeapOrdered twiceQueued ∧ MinNextRun twiceQueued 0 ∧
    NextAfter twiceQueued ∧ batchOf twiceQueued.NextJobs = some [0] ∧
    (2 ∈ twiceQueued.List ∧ (twiceQueued.mem 2).nextRun = 0) ∧
    ¬ ∃ jobs' batch, twiceQueued.NextJobs = .ok (jobs', batch) ∧
      ∀ p, p ∈ batch ↔ (p ∈ twiceQueued.List ∧ (twiceQueued.mem p).nextRun = 0) := by
  have hb : batchOf twiceQueued.NextJobs = some [0] := by decide
  refine ⟨by decide, twiceQueued_heapOrdered, ⟨⟨0, by decide, by decide⟩, ?_⟩,
    twiceQueued_nextAfter, hb, by decide, ?_⟩
  · intro p hp
    simp only [twiceQueued, List.mem_cons, List.mem_singleton, List.not_mem_nil, or_false] at hp
    rcases hp with rfl | rfl | rfl | rfl <;> decide
  · rintro ⟨jobs', batch, hr, hall⟩
    rw [hr] at hb
    simp only [batchOf, Option.some.injEq] at hb
    have := (hall 2).mpr (by decide)
    rw [hb] at this
    simp at this

theorem batchExample_heapOrdered : HeapOrdered batchExample := by
  intro k hk hkn
  have : k < 4 := hkn
  interval_cases k <;> decide

theorem batchExample_min : MinNextRun batchExample 0 := by
  refine ⟨⟨0, by decide, by decide⟩, ?_⟩
  intro p hp
  simp only [batchExample, List.mem_cons, List.mem_singleton, List.not_mem_nil, or_false] at hp
  rcases hp with rfl | rfl | rfl | rfl <;> decide

theorem batchExample_nextAfter : NextAfter batchExample := by
  intro p _ t
  exact lt_add_of_pos_right t (by decide)

/-- The witness of `NextJobs_batch_exact`: the dispatch-batching example. -/
theorem NextJobs_batch_exact_witness :
    (batchExample.List ≠ [] ∧ HeapOrdered batchExample ∧ batchExample.List.Nodup ∧
      MinNextRun batchExample 0 ∧ NextAfter batchExample) ∧
    ∃ jobs' batch, batchExample.NextJobs = .ok (jobs', batch) ∧ batch.Nodup ∧
      ∀ p, p ∈ batch ↔ (p ∈ batchExample.List ∧ (batchExample.mem p).nextRun = 0) :=
  ⟨⟨by decide, batchExample_heapOrdered, by decide, batchExample_min, batchExample_nextAfter⟩,
    NextJobs_batch_exact batchExample 0 (by decide) batchExample_heapOrdered (by decide)
      batchExample_min batchExample_nextAfter⟩

/-- The witness of `NextJobs_recomputes`: the dispatch-batching example. -/
theorem NextJobs_recomputes_witness :
    (batchExample.List ≠ [] ∧ HeapOrdered batchExample ∧ MinNextRun batchExample 0 ∧
      NextAfter batchExample) ∧
    ∃ jobs' batch, batchExample.NextJobs = .ok (jobs', batch) ∧
      ∀ p ∈ batch, (jobs'.mem p).nextRun = (batchExample.mem p).Next (0 + 1000000000) ∧
        0 < (jobs'.mem p).nextRun :=
  ⟨⟨by decide, batchExample_heapOrdered, batchExample_min, batchExample_nextAfter⟩,
    NextJobs_recomputes batchExample 0 (by decide) batchExample_heapOrdered
      batchExample_min batchExample_nextAfter⟩

/-! ### The heap order along sequences of operations -/

theorem heapPush_perm (h : Jobs) (x : Ptr) : (heap.Push h x).List.Perm (h.List ++ [x]) := by
  unfold heap.Push
  exact (up_reordered (h.Push x) _ (by simp)).1

theorem withNextRun_heapOrdered (jobs : Jobs) (job : Ptr) (t : Time) (hjob : job ∉ jobs.List)
    (hh : HeapOrdered jobs) : HeapOrdered (withNextRun jobs job t) := by
  rw [heapOrdered_iff] at hh ⊢
  have hkey : ∀ k, k < jobs.Len → (withNextRun jobs job t).key k = jobs.key k := by
    intro k hk
    have hne : jobs.at k ≠ job := fun h => hjob ((mem_iff_at jobs job).mpr ⟨k, hk, h⟩)
    show (setNextRun jobs.mem job t (jobs.at k)).nextRun = _
    rw [(setNextRun_fields jobs.mem job (jobs.at k) t).2.2.2.2.2, if_neg hne]
    rfl
  intro k hk hkn
  have hkn' : k < jobs.Len := hkn
  rw [hkey k hkn', hkey _ (by omega)]
  exact hh k hk hkn'

/-- The method `Add` of jobs that are new to the queue keeps the heap order, and no job
comes to stand at two positions. -/
theorem Add_heapOrdered (now : Time) : ∀ (crontab : Crontab) (jobs : Jobs),
    HeapOrdered jobs → jobs.List.Nodup → NewJobs jobs crontab →
    HeapOrdered (Jobs.Add now crontab jobs) ∧ (Jobs.Add now crontab jobs).List.Nodup
  | [], jobs, hh, hnd, _ => ⟨hh, hnd⟩
  | job :: crontab, jobs, hh, hnd, hnew => by
    have hjob : job ∉ jobs.List := hnew.2 job (List.mem_cons_self _ _)
    have h1 := withNextRun_heapOrdered jobs job ((jobs.mem job).Next now) hjob hh
    have h2 := heapPush_heap _ job h1
    have hperm := heapPush_perm (withNextRun jobs job ((jobs.mem job).Next now)) job
    have hperm' : (heap.Push (withNextRun jobs job ((jobs.mem job).Next now)) job).List.Perm
        (jobs.List ++ [job]) := hperm
    have hnd2 : (heap.Push (withNextRun jobs job ((jobs.mem job).Next now)) job).List.Nodup := by
      rw [hperm'.nodup_iff]
      rw [List.nodup_append]
      refine ⟨hnd, List.nodup_singleton _, ?_⟩
      intro a ha hb
      rw [List.mem_singleton] at hb
      exact hjob (hb ▸ ha)
    have hnew2 : NewJobs (heap.Push (withNextRun jobs job ((jobs.mem job).Next now)) job)
        crontab := by
      refine ⟨(List.nodup_cons.mp hnew.1).2, fun p hp hin => ?_⟩
      rw [hperm'.mem_iff, List.mem_append, List.mem_singleton] at hin
      rcases hin with hin | hin
      · exact hnew.2 p (List.mem_cons_of_mem _ hp) hin
      · exact (List.nodup_cons.mp hnew.1).1 (hin ▸ hp)
    exact Add_heapOrdered now crontab _ h2 hnd2 hnew2

theorem Remove_ok_index (h : Jobs) (i : Int) (r : Jobs × Ptr) (hr : heap.Remove h i = .ok r) :
    ∃ k : Nat, i = (k : Int) ∧ k < h.Len := by
  unfold heap.Remove at hr
  split at hr
  · rename_i hi
    exact ⟨i.toNat, (Int.toNat_of_nonneg hi.1).symm, by omega⟩
  · simp at hr

theorem Pop_List (h : Jobs) : h.Pop.1.List = h.List.take (h.Len - 1) := rfl

theorem Remove_nodup (h : Jobs) (k : Nat) (hk : k < h.Len) (hnd : h.List.Nodup) :
    ∀ r, heap.Remove h (k : Int) = .ok r → r.1.List.Nodup := by
  intro r hr
  rw [Remove_eq h k hk] at hr
  injection hr with hr
  subst hr
  rw [Pop_List]
  apply List.Nodup.sublist (List.take_sublist _ _)
  split
  · have hre := fixAt_reordered (h.Swap k (h.Len - 1)) k (h.Len - 1) (by simp) (by omega)
    rw [hre.1.nodup_iff, (Swap_perm h k (h.Len - 1) hk (by omega)).nodup_iff]
    exact hnd
  · exact hnd

/-- Along every sequence of `Add` of new jobs, `heap.Remove` and `NextJobs` from the empty
queue, the list is heap-ordered and holds no job twice. -/
theorem reachable_heapOrdered (jobs : Jobs) (hr : Reachable NewJobs jobs) :
    HeapOrdered jobs ∧ jobs.List.Nodup := by
  induction hr with
  | empty mem envMem next =>
    refine ⟨?_, List.nodup_nil⟩
    intro k _ hkn
    exact absurd hkn (Nat.not_lt_zero _)
  | add now crontab _ hnew ih => exact Add_heapOrdered now crontab _ ih.1 ih.2 hnew
  | @remove jobs i r _ hrem ih =>
    obtain ⟨k, rfl, hk⟩ := Remove_ok_index jobs i r hrem
    obtain ⟨r', hr', hh⟩ := heapRemove_heap jobs k hk ih.1
    rw [hrem] at hr'
    injection hr' with hr'
    subst hr'
    exact ⟨hh, Remove_nodup jobs k hk ih.2 r hrem⟩
  | @nextJobs jobs r _ hev hnj ih =>
    by_cases hne : jobs.List = []
    · have : jobs.NextJobs = .ok (jobs, []) := by
        unfold Jobs.NextJobs Jobs.Len
        simp [hne]
      rw [this] at hnj
      injection hnj with hnj
      subst hnj
      exact ih
    · obtain ⟨jobs', batch, h1, h2⟩ := NextJobs_spec jobs hne hev
      rw [hnj] at h1
      injection h1 with h1
      subst h1
      have hge : ∀ p ∈ jobs.List, (jobs.mem (jobs.at 0)).nextRun ≤ (jobs.mem p).nextRun :=
        fun p hp => heapOrdered_top_min jobs ih.1 p hp
      exact ⟨(h2.heap ih.1 ih.2 hge).1, (h2.perm.nodup_iff).mpr ih.2⟩

/-- C2, as amended: from the empty queue, after any finite sequence of `Add` of jobs that are
not yet queued (and pairwise different), `heap.Remove` at a valid position and `NextJobs`
with evaluators that answer strictly later times, whenever the queue is not empty `Top`
returns a job whose `nextRun` is not after the `nextRun` of any queued job. -/
theorem Top_is_minimum (jobs : Jobs) (hr : Reachable NewJobs jobs) (hne : jobs.List ≠ []) :
    TopIsMin jobs :=
  ⟨jobs.at 0, Top_eq jobs hne,
    fun p hp => heapOrdered_top_min jobs (reachable_heapOrdered jobs hr).1 p hp⟩

/-- The witness of `Top_is_minimum`: the queue after `Add(0, [job0, job1])`. -/
theorem Top_is_minimum_witness :
    (Reachable NewJobs (Jobs.Add 0 [0, 1] twoJobs) ∧ (Jobs.Add 0 [0, 1] twoJobs).List ≠ []) ∧
    TopIsMin (Jobs.Add 0 [0, 1] twoJobs) :=
  ⟨⟨Reachable.add 0 [0, 1] (Reachable.empty _ _ _) ⟨by decide, by decide⟩, by decide⟩,
    Top_is_minimum (Jobs.Add 0 [0, 1] twoJobs)
      (Reachable.add 0 [0, 1] (Reachable.empty _ _ _) ⟨by decide, by decide⟩) (by decide)⟩

/-- C2 as stated fails: `addedTwice` is the queue after `Add(0, [job0, job1])` and
`Add(100, [job0])` from the empty queue; its list is `[job0, job1, job0]`, `Top` returns
the job 0 with `nextRun = 110`, and the queued job 1 has `nextRun = 20`. -/
theorem Top_not_minimum_after_second_Add :
    Reachable (fun _ _ => True) addedTwice ∧ addedTwice.List ≠ [] ∧ ¬ TopIsMin addedTwice := by
  refine ⟨Reachable.add 100 [0] (Reachable.add 0 [0, 1] (Reachable.empty _ _ _) trivial) trivial,
    by decide, ?_⟩
  rintro ⟨top, htop, hmin⟩
  have h0 : addedTwice.Top = .ok 0 := by decide
  rw [h0] at htop
  injection htop with htop
  subst htop
  have := hmin 1 (by decide)
  revert this
  decide

/-! ### The invariants of the data model -/

/-- Whatever every `Swap` of two positions below `n` preserves, the loop of `down` preserves. -/
theorem down_loop_preserves_below (P : Jobs → Prop) (n : Nat)
    (hP : ∀ (h : Jobs) (i j : Nat), n ≤ h.Len → i < n → j < n → P h → P (h.Swap i j)) :
    ∀ (fuel : Nat) (h : Jobs) (i : Nat), n ≤ h.Len → P h → P (heap.down.loop fuel h i n).1
  | 0, h, i, _, hp => hp
  | fuel + 1, h, i, hn, hp => by
    rw [down_loop_succ]
    split
    · exact hp
    · rename_i hj1
      split
      · exact hp
      · have hc := downChild_cases h i n (by omega)
        apply down_loop_preserves_below P n hP fuel _ _ (by simpa using hn)
        exact hP _ _ _ hn (by omega) (by omega) hp

theorem up_loop_preserves_below (P : Jobs → Prop) (n : Nat)
    (hP : ∀ (h : Jobs) (i j : Nat), n ≤ h.Len → i < n → j < n → P h → P (h.Swap i j)) :
    ∀ (fuel : Nat) (h : Jobs) (j : Nat), n ≤ h.Len → j < n → P h → P (heap.up.loop fuel h j)
  | 0, h, j, _, _, hp => hp
  | fuel + 1, h, j, hn, hj, hp => by
    rw [up_loop_succ]
    split
    · exact hp
    · apply up_loop_preserves_below P n hP fuel _ _ (by simpa using hn) (by omega)
      exact hP _ _ _ hn (by omega) hj hp

theorem fixAt_preserves_below (P : Jobs → Prop) (n : Nat)
    (hP : ∀ (h : Jobs) (i j : Nat), n ≤ h.Len → i < n → j < n → P h → P (h.Swap i j))
    (h : Jobs) (i : Nat) (hn : n ≤ h.Len) (hi : i < n) (hp : P h) : P (fixAt h i n) := by
  unfold fixAt
  have hd : P (heap.down h i n).1 := down_loop_preserves_below P n hP n h i hn hp
  split
  · exact up_loop_preserves_below P n hP i _ i (by rw [down_Len]; exact hn) hi hd
  · exact hd

theorem indexInv_nodup (jobs : Jobs) (hi : IndexInv jobs) : jobs.List.Nodup := by
  rw [List.nodup_iff_injective_get]
  intro a b hab
  have ha := hi a.1 a.2
  have hb := hi b.1 b.2
  have e1 : jobs.at a.1 = jobs.List.get a := by
    simp [Jobs.at, List.getD_eq_getElem?_getD, List.getElem?_eq_getElem a.2]
  have e2 : jobs.at b.1 = jobs.List.get b := by
    simp [Jobs.at, List.getD_eq_getElem?_getD, List.getElem?_eq_getElem b.2]
  rw [e1] at ha
  rw [e2, ← hab, ha] at hb
  exact Fin.ext (by exact_mod_cast hb)

theorem indexInv_at_inj (jobs : Jobs) (hi : IndexInv jobs) (a b : Nat) (ha : a < jobs.Len)
    (hb : b < jobs.Len) (hab : jobs.at a = jobs.at b) : a = b := by
  have h1 := hi a ha
  have h2 := hi b hb
  rw [hab, h2] at h1
  exact_mod_cast h1.symm

theorem setIndex_index (mem : Ptr → Job) (q p : Ptr) (i : Int) :
    (setIndex mem q i p).index = if p = q then i else (mem p).index := by
  unfold setIndex; split <;> rfl

/-- The method `Swap` keeps the queue-position invariant. -/
theorem IndexInv.swapped {h : Jobs} (hinv : IndexInv h) (i j : Nat) (hi : i < h.Len)
    (hj : j < h.Len) : IndexInv (h.Swap i j) := by
  intro k hk
  rw [Swap_Len] at hk
  have hmem : ∀ p, ((h.Swap i j).mem p).index =
      if p = (h.Swap i j).at j then (j : Int)
      else if p = (h.Swap i j).at i then (i : Int) else (h.mem p).index := by
    intro p
    show (setIndex (setIndex h.mem _ i) _ j p).index = _
    rw [setIndex_index, setIndex_index]
    rfl
  rw [hmem, Swap_at h i j k hi hj, Swap_at h i j j hi hj, Swap_at h i j i hi hj]
  have ej : swapIdx i j j = i := by unfold swapIdx; split <;> simp_all
  have ei : swapIdx i j i = j := by unfold swapIdx; simp
  rw [ej, ei]
  by_cases hkj : k = j
  · subst hkj; rw [ej, if_pos rfl]
  · by_cases hki : k = i
    · subst hki
      rw [ei]
      have hne : h.at j ≠ h.at k := fun he => hkj (indexInv_at_inj h hinv j k hj hi he).symm
      rw [if_neg hne, if_pos rfl]
    · have ek : swapIdx i j k = k := by unfold swapIdx; rw [if_neg hki, if_neg hkj]
      rw [ek]
      have hne1 : h.at k ≠ h.at i := fun he => hki (indexInv_at_inj h hinv k i hk hi he)
      have hne2 : h.at k ≠ h.at j := fun he => hkj (indexInv_at_inj h hinv k j hk hj he)
      rw [if_neg hne1, if_neg hne2]
      exact hinv k hk

/-- The parts of `WellFormed` other than the queue-position invariant depend only on what
`Reordered` keeps. -/
theorem wellFormed_of_reordered {h0 h : Jobs} (hr : Reordered h0 h) (hw : WellFormed h0)
    (hi : IndexInv h) : WellFormed h := by
  obtain ⟨hperm, hmap, hnext, _, hfld⟩ := hr
  obtain ⟨_, hm, hnd, hal⟩ := hw
  refine ⟨hi, ?_, ?_, ?_⟩
  · intro f p
    rw [hmap, hm f p, hperm.mem_iff, (hfld p).2.1]
  · intro f; rw [hmap]; exact hnd f
  · intro p hp; rw [hnext]; exact hal p (hperm.mem_iff.mp hp)


theorem getD_map_erase (o : Option (List Ptr)) (job : Ptr) :
    (o.map (fun set => set.erase job)).getD [] = (o.getD []).erase job := by
  cases o <;> simp

/-- The method `Pop` on a well-formed queue that is not empty removes the last job. -/
theorem Pop_spec (h : Jobs) (hlen : 0 < h.Len) (hw : WellFormed h) :
    h.Pop.2 = h.at (h.Len - 1) ∧ Removed h h.Pop.1 (h.at (h.Len - 1)) := by
  obtain ⟨hi, hm, hnd, hal⟩ := hw
  have hmem : ∀ p, p ∈ h.Pop.1.List ↔ (p ∈ h.List ∧ p ≠ h.at (h.Len - 1)) := by
    intro p
    rw [mem_iff_at, mem_iff_at, Pop_Len]
    constructor
    · rintro ⟨k, hk, rfl⟩
      rw [Pop_at h k hk]
      refine ⟨⟨k, by omega, rfl⟩, fun he => ?_⟩
      have := indexInv_at_inj h hi k (h.Len - 1) (by omega) (by omega) he
      omega
    · rintro ⟨⟨k, hk, rfl⟩, hne⟩
      have hk1 : k ≠ h.Len - 1 := fun he => hne (by rw [he])
      exact ⟨k, by omega, Pop_at h k (by omega)⟩
  have hfld : ∀ p, (h.Pop.1.mem p).nextRun = (h.mem p).nextRun ∧
      (h.Pop.1.mem p).crontab = (h.mem p).crontab ∧
      (h.Pop.1.mem p).Expression = (h.mem p).Expression ∧
      (h.Pop.1.mem p).script = (h.mem p).script ∧
      (h.Pop.1.mem p).environment = (h.mem p).environment :=
    fun p => setIndex_fields h.mem (h.at (h.Len - 1)) p (-1)
  have hidx : ∀ p, (h.Pop.1.mem p).index = if p = h.at (h.Len - 1) then -1 else (h.mem p).index :=
    fun p => setIndex_index h.mem (h.at (h.Len - 1)) p (-1)
  have hcm : ∀ f, h.Pop.1.CrontabMapping f =
      if f = (h.mem (h.at (h.Len - 1))).crontab then
        (h.CrontabMapping f).map (fun set => set.erase (h.at (h.Len - 1)))
      else h.CrontabMapping f := fun f => rfl
  refine ⟨rfl, ⟨⟨?_, ?_, ?_, ?_⟩, hmem, hfld, rfl, rfl, ?_, ?_⟩⟩
  · intro k hk
    rw [Pop_Len] at hk
    rw [Pop_at h k hk, hidx]
    have hne : h.at k ≠ h.at (h.Len - 1) := by
      intro he
      have := indexInv_at_inj h hi k (h.Len - 1) (by omega) (by omega) he
      omega
    rw [if_neg hne]
    exact hi k (by omega)
  · intro f p
    rw [hmem, (hfld p).2.1, hcm]
    split
    · rename_i hf
      rw [getD_map_erase, (hnd f).mem_erase_iff, hm f p]
      tauto
    · rename_i hf
      rw [hm f p]
      constructor
      · rintro ⟨h1, h2⟩
        exact ⟨⟨h1, fun he => hf (by rw [← h2, he])⟩, h2⟩
      · rintro ⟨⟨h1, _⟩, h2⟩
        exact ⟨h1, h2⟩
  · intro f
    rw [hcm]
    split
    · rw [getD_map_erase]; exact (hnd f).erase _
    · exact hnd f
  · intro p hp
    exact hal p ((hmem p).mp hp).1
  · intro f hf
    rw [hcm, if_neg hf]
  · rw [hidx, if_pos rfl]

theorem Removed.of_reordered {h0 h h' : Jobs} {job : Ptr} (hr : Reordered h0 h)
    (hrem : Removed h h' job) : Removed h0 h' job := by
  obtain ⟨hperm, hmap, hnext, henv, hfld⟩ := hr
  refine ⟨hrem.wf, ?_, ?_, hrem.next.trans hnext, hrem.envMem.trans henv, ?_, hrem.index⟩
  · intro p; rw [hrem.mem_iff, hperm.mem_iff]
  · intro p
    obtain ⟨a, b, c, d, e⟩ := hrem.fields p
    obtain ⟨a', b', c', d', e'⟩ := hfld p
    exact ⟨a.trans a', b.trans b', c.trans c', d.trans d', e.trans e'⟩
  · intro f hf
    rw [← (hfld job).2.1] at hf
    rw [hrem.mapping f hf, hmap]

/-- The function `heap.Remove` at a position `k` of a well-formed queue returns the job of
that position and removes it, and nothing else, from the queue. -/
theorem Remove_spec (h : Jobs) (k : Nat) (hk : k < h.Len) (hw : WellFormed h) :
    ∃ h', heap.Remove h (k : Int) = .ok (h', h.at k) ∧ Removed h h' (h.at k) := by
  rw [Remove_eq h k hk]
  have key : ∃ X, (if h.Len - 1 ≠ k then fixAt (h.Swap k (h.Len - 1)) k (h.Len - 1) else h) = X ∧
      Reordered h X ∧ IndexInv X ∧ X.Len = h.Len ∧ X.at (h.Len - 1) = h.at k := by
    refine ⟨_, rfl, ?_⟩
    split
    · rename_i hne
      have hs : Reordered h (h.Swap k (h.Len - 1)) := (Reordered.refl h).swap k _ hk (by omega)
      have hsi : IndexInv (h.Swap k (h.Len - 1)) := hw.1.swapped k _ hk (by omega)
      refine ⟨?_, ?_, ?_, ?_⟩
      · exact fixAt_preserves (Reordered h) (fun _ i j hi hj hp => hp.swap i j hi hj) _ k
          (h.Len - 1) (by simp) (by omega) hs
      · exact fixAt_preserves IndexInv (fun _ i j hi hj hp => hp.swapped i j hi hj) _ k
          (h.Len - 1) (by simp) (by omega) hsi
      · rw [fixAt_Len, Swap_Len]
      · apply fixAt_preserves_below (fun X => X.at (h.Len - 1) = h.at k) (h.Len - 1) _ _ k
          (by simp) (by omega)
        · rw [Swap_at h k (h.Len - 1) (h.Len - 1) hk (by omega)]
          have : swapIdx k (h.Len - 1) (h.Len - 1) = k := by
            unfold swapIdx; split <;> simp_all
          rw [this]
        · intro X i j hn hi hj hp
          rw [Swap_at X i j (h.Len - 1) (by omega) (by omega)]
          have : swapIdx i j (h.Len - 1) = h.Len - 1 := by
            unfold swapIdx; rw [if_neg (by omega), if_neg (by omega)]
          rw [this]; exact hp
    · rename_i he
      have he' : h.Len - 1 = k := by omega
      exact ⟨Reordered.refl h, hw.1, rfl, by rw [he']⟩
  obtain ⟨X, hX, hre, hxi, hxl, hxat⟩ := key
  rw [hX]
  have hxw : WellFormed X := wellFormed_of_reordered hre hw hxi
  obtain ⟨h2, h3⟩ := Pop_spec X (by omega) hxw
  rw [hxl, hxat] at h2 h3
  refine ⟨X.Pop.1, ?_, Removed.of_reordered hre h3⟩
  rw [← h2]


/-! ### `UpdateCrontab` -/

/-- The `range` loop of `UpdateCrontab` on a well-formed queue neither panics nor fails; it
removes the jobs of `order` that belong to the file, and nothing else. -/
theorem UpdateCrontab_loop_spec (file : Str) : ∀ (order : Crontab) (h : Jobs), WellFormed h →
    ∃ h', UpdateCrontab.loop file order h = .ok h' ∧ WellFormed h' ∧
      (∀ p, p ∈ h'.List ↔ (p ∈ h.List ∧ ¬ (p ∈ order ∧ (h.mem p).crontab = file))) ∧
      (∀ p, (h'.mem p).nextRun = (h.mem p).nextRun ∧ (h'.mem p).crontab = (h.mem p).crontab ∧
        (h'.mem p).Expression = (h.mem p).Expression ∧ (h'.mem p).script = (h.mem p).script ∧
        (h'.mem p).environment = (h.mem p).environment) ∧
      h'.next = h.next ∧ h'.envMem = h.envMem ∧
      (∀ f, f ≠ file → h'.CrontabMapping f = h.CrontabMapping f)
  | [], h, hw => ⟨h, rfl, hw, fun p => by simp, fun _ => ⟨rfl, rfl, rfl, rfl, rfl⟩, rfl, rfl,
      fun _ _ => rfl⟩
  | job :: order, h, hw => by
    rw [UpdateCrontab.loop]
    by_cases hin : job ∈ (h.CrontabMapping file).getD []
    · rw [if_pos hin]
      obtain ⟨hjl, hjc⟩ := (hw.2.1 file job).mp hin
      have hnp : ¬ ((h.mem job).crontab ≠ file) := fun hc => hc hjc
      rw [if_neg hnp]
      obtain ⟨k, hk, hkat⟩ := (mem_iff_at h job).mp hjl
      have hidx : (h.mem job).index = (k : Int) := by rw [← hkat]; exact hw.1 k hk
      obtain ⟨h1, hrem, hR⟩ := Remove_spec h k hk hw
      rw [hidx, hrem]
      simp only []
      obtain ⟨h', hl, hw', hmem, hfld, hnext, henv, hmap⟩ :=
        UpdateCrontab_loop_spec file order h1 hR.wf
      rw [hkat] at hR
      refine ⟨h', hl, hw', ?_, ?_, hnext.trans hR.next, henv.trans hR.envMem, ?_⟩
      · intro p
        rw [hmem, hR.mem_iff, (hR.fields p).2.1, List.mem_cons]
        constructor
        · rintro ⟨⟨h1, h2⟩, h3⟩
          refine ⟨h1, ?_⟩
          rintro ⟨h4 | h4, h5⟩
          · exact h2 h4
          · exact h3 ⟨h4, h5⟩
        · rintro ⟨h1, h2⟩
          refine ⟨⟨h1, fun he => h2 ⟨Or.inl he, he ▸ hjc⟩⟩, fun h3 => h2 ⟨Or.inr h3.1, h3.2⟩⟩
      · intro p
        obtain ⟨a, b, c, d, e⟩ := hfld p
        obtain ⟨a', b', c', d', e'⟩ := hR.fields p
        exact ⟨a.trans a', b.trans b', c.trans c', d.trans d', e.trans e'⟩
      · intro f hf
        rw [hmap f hf, hR.mapping f (by rw [hjc]; exact hf)]
    · rw [if_neg hin]
      obtain ⟨h', hl, hw', hmem, hfld, hnext, henv, hmap⟩ :=
        UpdateCrontab_loop_spec file order h hw
      refine ⟨h', hl, hw', ?_, hfld, hnext, henv, hmap⟩
      intro p
      rw [hmem, List.mem_cons]
      constructor
      · rintro ⟨h1, h2⟩
        refine ⟨h1, ?_⟩
        rintro ⟨h4 | h4, h5⟩
        · exact hin ((hw.2.1 file job).mpr ⟨h4 ▸ h1, h4 ▸ h5⟩)
        · exact h2 ⟨h4, h5⟩
      · rintro ⟨h1, h2⟩
        exact ⟨h1, fun h3 => h2 ⟨Or.inr h3.1, h3.2⟩⟩

/-- The objects that `allocAll` makes: the addresses from `next` on, in order, each holding its
job; nothing else changes. -/
theorem allocAll_spec : ∀ (c : List Job) (h : Jobs),
    (allocAll c h).1.List = h.List ∧ (allocAll c h).1.CrontabMapping = h.CrontabMapping ∧
    (allocAll c h).1.envMem = h.envMem ∧ (allocAll c h).1.next = h.next + c.length ∧
    (allocAll c h).2 = List.range' h.next c.length ∧
    (∀ p, p < h.next → (allocAll c h).1.mem p = h.mem p) ∧
    (∀ k, k < c.length → c.get? k = some ((allocAll c h).1.mem (h.next + k)))
  | [], h => ⟨rfl, rfl, rfl, rfl, rfl, fun _ _ => rfl, fun k hk => absurd hk (Nat.not_lt_zero _)⟩
  | job :: c, h => by
    obtain ⟨h1, h2, h3, h4, h5, h6, h7⟩ := allocAll_spec c (h.alloc job).1
    have hn : (h.alloc job).1.next = h.next + 1 := rfl
    have hm : ∀ p, (h.alloc job).1.mem p = if p = h.next then job else h.mem p := fun _ => rfl
    rw [hn] at h4 h5 h6 h7
    unfold Ptr at *
    refine ⟨h1, h2, h3, ?_, ?_, ?_, ?_⟩
    · show (allocAll c (h.alloc job).1).1.next = _
      rw [h4, List.length_cons]
      unfold Ptr
      omega
    · show (h.alloc job).2 :: (allocAll c (h.alloc job).1).2 = _
      rw [h5, List.length_cons, List.range'_succ]
      rfl
    · intro p hp
      show (allocAll c (h.alloc job).1).1.mem p = _
      rw [h6 p (by omega), hm, if_neg (by omega)]
    · intro k hk
      show (job :: c).get? k = some ((allocAll c (h.alloc job).1).1.mem (h.next + k))
      cases k with
      | zero =>
        rw [Nat.add_zero, h6 h.next (by omega), hm, if_pos rfl]
        rfl
      | succ k =>
        have := h7 k (by simpa using hk)
        rw [List.get?_cons_succ, this]
        congr 2
        unfold Ptr
        omega


theorem mem_setInsert (set : List Ptr) (job p : Ptr) :
    p ∈ setInsert set job ↔ (p ∈ set ∨ p = job) := by
  unfold setInsert
  split
  · rename_i h
    constructor
    · exact Or.inl
    · rintro (h1 | rfl)
      · exact h1
      · exact h
  · simp

theorem nodup_setInsert (set : List Ptr) (job : Ptr) (hnd : set.Nodup) :
    (setInsert set job).Nodup := by
  unfold setInsert
  split
  · exact hnd
  · rename_i h
    rw [List.nodup_append]
    refine ⟨hnd, List.nodup_singleton _, ?_⟩
    intro a ha hb
    rw [List.mem_singleton] at hb
    exact h (hb ▸ ha)

theorem withNextRun_wellFormed (h : Jobs) (job : Ptr) (t : Time) (hw : WellFormed h) :
    WellFormed (withNextRun h job t) := by
  obtain ⟨hi, hm, hnd, hal⟩ := hw
  refine ⟨?_, ?_, hnd, hal⟩
  · intro k hk
    show (setNextRun h.mem job t (h.at k)).index = _
    rw [(setNextRun_fields h.mem job (h.at k) t).2.2.2.2.1]
    exact hi k hk
  · intro f p
    show _ ↔ (p ∈ h.List ∧ (setNextRun h.mem job t p).crontab = f)
    rw [(setNextRun_fields h.mem job p t).1]
    exact hm f p

/-- The method `Push` of a job that is not queued keeps a well-formed queue well-formed. -/
theorem Push_wellFormed (h : Jobs) (x : Ptr) (hw : WellFormed h) (hx : x ∉ h.List)
    (hxn : x < h.next) : WellFormed (h.Push x) := by
  obtain ⟨hi, hm, hnd, hal⟩ := hw
  have hfld : ∀ p, ((h.Push x).mem p).crontab = (h.mem p).crontab :=
    fun p => (setIndex_fields h.mem x p _).2.1
  have hcm : ∀ f, (h.Push x).CrontabMapping f =
      if f = (h.mem x).crontab then
        some (setInsert ((h.CrontabMapping (h.mem x).crontab).getD []) x)
      else h.CrontabMapping f := fun f => rfl
  have hlist : (h.Push x).List = h.List ++ [x] := rfl
  refine ⟨?_, ?_, ?_, ?_⟩
  · intro k hk
    rw [Push_Len] at hk
    by_cases hkl : k < h.Len
    · rw [Push_at h x k hkl]
      show (setIndex h.mem x _ (h.at k)).index = _
      have hne : h.at k ≠ x := fun he => hx ((mem_iff_at h x).mpr ⟨k, hkl, he⟩)
      rw [setIndex_index, if_neg hne]
      exact hi k hkl
    · have hk' : k = h.Len := by omega
      subst hk'
      have hat : (h.Push x).at h.Len = x := by
        simp [Jobs.at, Jobs.Push, Jobs.Len, List.getD_eq_getElem?_getD]
      rw [hat]
      show (setIndex h.mem x _ x).index = _
      rw [setIndex_index, if_pos rfl]
      rfl
  · intro f p
    rw [hcm, hfld, hlist, List.mem_append, List.mem_singleton]
    split
    · rename_i hf
      subst hf
      simp only [Option.getD_some]
      rw [mem_setInsert, hm]
      constructor
      · rintro (⟨h1, h2⟩ | rfl)
        · exact ⟨Or.inl h1, h2⟩
        · exact ⟨Or.inr rfl, rfl⟩
      · rintro ⟨h1 | rfl, h2⟩
        · exact Or.inl ⟨h1, h2⟩
        · exact Or.inr rfl
    · rename_i hf
      rw [hm]
      constructor
      · rintro ⟨h1, h2⟩
        exact ⟨Or.inl h1, h2⟩
      · rintro ⟨h1 | rfl, h2⟩
        · exact ⟨h1, h2⟩
        · exact absurd h2.symm hf
  · intro f
    rw [hcm]
    split
    · simp only [Option.getD_some]
      exact nodup_setInsert _ _ (hnd _)
    · exact hnd f
  · intro p hp
    rw [hlist, List.mem_append, List.mem_singleton] at hp
    rcases hp with hp | rfl
    · exact hal p hp
    · exact hxn

/-- The function `heap.Push` of a job that is not queued keeps a well-formed queue
well-formed, adds the job to the list and touches no field but `index`. -/
theorem heapPush_spec (h : Jobs) (x : Ptr) (hw : WellFormed h) (hx : x ∉ h.List)
    (hxn : x < h.next) :
    WellFormed (heap.Push h x) ∧ (heap.Push h x).List.Perm (h.List ++ [x]) ∧
    (heap.Push h x).next = h.next ∧ (heap.Push h x).envMem = h.envMem ∧
    (∀ f, f ≠ (h.mem x).crontab → (heap.Push h x).CrontabMapping f = h.CrontabMapping f) ∧
    (x ∈ ((heap.Push h x).CrontabMapping (h.mem x).crontab).getD []) ∧
    (∀ p, ((heap.Push h x).mem p).nextRun = (h.mem p).nextRun ∧
      ((heap.Push h x).mem p).crontab = (h.mem p).crontab ∧
      ((heap.Push h x).mem p).Expression = (h.mem p).Expression ∧
      ((heap.Push h x).mem p).script = (h.mem p).script ∧
      ((heap.Push h x).mem p).environment = (h.mem p).environment) := by
  have hpw := Push_wellFormed h x hw hx hxn
  have hre : Reordered (h.Push x) (heap.Push h x) := up_reordered (h.Push x) _ (by simp)
  have hii : IndexInv (heap.Push h x) :=
    up_preserves IndexInv (fun _ i j hi hj hp => hp.swapped i j hi hj) (h.Push x) _ (by simp) hpw.1
  have hwf := wellFormed_of_reordered hre hpw hii
  obtain ⟨hperm, hmap, hnext, henv, hfld⟩ := hre
  refine ⟨hwf, hperm, hnext, henv, ?_, ?_, ?_⟩
  · intro f hf
    rw [hmap]
    show (if f = (h.mem x).crontab then _ else h.CrontabMapping f) = _
    rw [if_neg hf]
  · rw [hwf.2.1]
    refine ⟨hperm.mem_iff.mpr (by show x ∈ h.List ++ [x]; simp), ?_⟩
    rw [(hfld x).2.1]
    exact (setIndex_fields h.mem x x _).2.1
  · intro p
    obtain ⟨a, b, c, d, e⟩ := hfld p
    obtain ⟨a', b', c', d', e'⟩ := setIndex_fields h.mem x p (h.List.length : Int)
    exact ⟨a.trans a', b.trans b', c.trans c', d.trans d', e.trans e'⟩

/-- The method `Add` of jobs that are new to a well-formed queue: the queue stays well-formed,
the jobs join the list, each with `nextRun = Next(now)`, and no other job changes. -/
theorem Add_spec (now : Time) : ∀ (c : Crontab) (h : Jobs), WellFormed h → NewJobs h c →
    (∀ p ∈ c, p < h.next) →
    WellFormed (Jobs.Add now c h) ∧ (Jobs.Add now c h).List.Perm (h.List ++ c) ∧
    (Jobs.Add now c h).next = h.next ∧ (Jobs.Add now c h).envMem = h.envMem ∧
    (∀ f, (∀ p ∈ c, (h.mem p).crontab ≠ f) →
      (Jobs.Add now c h).CrontabMapping f = h.CrontabMapping f) ∧
    (∀ p, ((Jobs.Add now c h).mem p).nextRun =
        (if p ∈ c then (h.mem p).Next now else (h.mem p).nextRun) ∧
      ((Jobs.Add now c h).mem p).crontab = (h.mem p).crontab ∧
      ((Jobs.Add now c h).mem p).Expression = (h.mem p).Expression ∧
      ((Jobs.Add now c h).mem p).script = (h.mem p).script ∧
      ((Jobs.Add now c h).mem p).environment = (h.mem p).environment)
  | [], h, hw, _, _ => ⟨hw, by rw [List.append_nil]; exact List.Perm.refl _, rfl, rfl,
      fun _ _ => rfl, fun p => ⟨by rw [if_neg (List.not_mem_nil p)]; rfl, rfl, rfl, rfl, rfl⟩⟩
  | job :: c, h, hw, hnew, hal => by
    have hjob : job ∉ h.List := hnew.2 job (List.mem_cons_self _ _)
    have hw1 := withNextRun_wellFormed h job ((h.mem job).Next now) hw
    obtain ⟨hw2, hperm2, hnext2, henv2, hmap2, _, hfld2⟩ :=
      heapPush_spec (withNextRun h job ((h.mem job).Next now)) job hw1 hjob
        (hal job (List.mem_cons_self _ _))
    have hperm2' : (heap.Push (withNextRun h job ((h.mem job).Next now)) job).List.Perm
        (h.List ++ [job]) := hperm2
    have hnew2 : NewJobs (heap.Push (withNextRun h job ((h.mem job).Next now)) job) c := by
      refine ⟨(List.nodup_cons.mp hnew.1).2, fun p hp hin => ?_⟩
      rw [hperm2'.mem_iff, List.mem_append, List.mem_singleton] at hin
      rcases hin with hin | hin
      · exact hnew.2 p (List.mem_cons_of_mem _ hp) hin
      · exact (List.nodup_cons.mp hnew.1).1 (hin ▸ hp)
    have hal2 : ∀ p ∈ c,
        p < (heap.Push (withNextRun h job ((h.mem job).Next now)) job).next := by
      intro p hp
      rw [hnext2]
      exact hal p (List.mem_cons_of_mem _ hp)
    obtain ⟨hw3, hperm3, hnext3, henv3, hmap3, hfld3⟩ := Add_spec now c _ hw2 hnew2 hal2
    have hs : ∀ p, (setNextRun h.mem job ((h.mem job).Next now) p).crontab = (h.mem p).crontab ∧
        (setNextRun h.mem job ((h.mem job).Next now) p).Expression = (h.mem p).Expression ∧
        (setNextRun h.mem job ((h.mem job).Next now) p).script = (h.mem p).script ∧
        (setNextRun h.mem job ((h.mem job).Next now) p).environment = (h.mem p).environment ∧
        (setNextRun h.mem job ((h.mem job).Next now) p).index = (h.mem p).index ∧
        (setNextRun h.mem job ((h.mem job).Next now) p).nextRun =
          if p = job then (h.mem job).Next now else (h.mem p).nextRun :=
      fun p => setNextRun_fields h.mem job p _
    have hfldAll : ∀ p,
        ((heap.Push (withNextRun h job ((h.mem job).Next now)) job).mem p).nextRun =
          (if p = job then (h.mem job).Next now else (h.mem p).nextRun) ∧
        ((heap.Push (withNextRun h job ((h.mem job).Next now)) job).mem p).crontab =
          (h.mem p).crontab ∧
        ((heap.Push (withNextRun h job ((h.mem job).Next now)) job).mem p).Expression =
          (h.mem p).Expression ∧
        ((heap.Push (withNextRun h job ((h.mem job).Next now)) job).mem p).script =
          (h.mem p).script ∧
        ((heap.Push (withNextRun h job ((h.mem job).Next now)) job).mem p).environment =
          (h.mem p).environment := by
      intro p
      obtain ⟨a, b, c', d, e⟩ := hfld2 p
      obtain ⟨b', c'', d', e', _, a'⟩ := hs p
      exact ⟨a.trans a', b.trans b', c'.trans c'', d.trans d', e.trans e'⟩
    have hadd : Jobs.Add now (job :: c) h =
        Jobs.Add now c (heap.Push (withNextRun h job ((h.mem job).Next now)) job) := rfl
    rw [hadd]
    refine ⟨hw3, ?_, hnext3.trans hnext2, henv3.trans henv2, ?_, ?_⟩
    · refine hperm3.trans ?_
      have := hperm2'.append_right c
      simpa using this
    · intro f hf
      rw [hmap3 f (fun p hp => by
        rw [(hfldAll p).2.1]; exact hf p (List.mem_cons_of_mem _ hp))]
      apply hmap2 f
      intro he
      exact hf job (List.mem_cons_self _ _) ((hs job).1 ▸ he.symm)
    · intro p
      obtain ⟨a, b, c', d, e⟩ := hfld3 p
      obtain ⟨a', b', c'', d', e'⟩ := hfldAll p
      refine ⟨?_, b.trans b', c'.trans c'', d.trans d', e.trans e'⟩
      rw [a]
      by_cases hpc : p ∈ c
      · have hpj : p ≠ job := fun he => (List.nodup_cons.mp hnew.1).1 (he ▸ hpc)
        rw [if_pos hpc, if_pos (List.mem_cons_of_mem _ hpc)]
        show ((heap.Push (withNextRun h job ((h.mem job).Next now)) job).mem p).Expression.Next now
          = (h.mem p).Expression.Next now
        rw [c'']
      · rw [if_neg hpc, a']
        by_cases hpj : p = job
        · subst hpj
          rw [if_pos rfl, if_pos (List.mem_cons_self _ _)]
        · rw [if_neg hpj, if_neg (by simp [hpj, hpc])]


/-- A job that `ParseCronLine` returns carries the file name, the address of the map, the
index -1 and the zero time. -/
theorem ParseCronLine_job (Parse : ParseFn) (envRef : Ptr) (env : Env) (filename line : Str)
    (job : Job) (h : (ParseCronLine Parse envRef env filename line).1.1 = some job) :
    job.crontab = filename ∧ job.environment = envRef ∧ job.index = -1 ∧
    job.nextRun = zeroTime := by
  unfold ParseCronLine at h
  split at h
  · simp at h
  · split at h
    · simp at h
    · dsimp only at h
      split at h
      · simp at h
      · split at h
        · simp at h
        · simp only [Option.some.injEq] at h
          subst h
          exact ⟨rfl, rfl, rfl, rfl⟩

theorem ParseCron_loop_jobs (Parse : ParseFn) (envRef : Ptr) (filename : Str)
    (P : Job → Prop)
    (hP : ∀ env line job, (ParseCronLine Parse envRef env filename line).1.1 = some job → P job) :
    ∀ (input : List Str) (env : Env) (result : List Job), (∀ j ∈ result, P j) →
      ∀ j ∈ (ParseCron.loop Parse envRef filename input env result).1, P j
  | [], _, _, hres => hres
  | line :: rest, env, result, hres => by
    rw [ParseCron.loop]
    split
    · rename_i job hjob
      apply ParseCron_loop_jobs Parse envRef filename P hP rest
      intro j hj
      rw [List.mem_append, List.mem_singleton] at hj
      rcases hj with hj | rfl
      · exact hres j hj
      · exact hP env line _ hjob
    · exact ParseCron_loop_jobs Parse envRef filename P hP rest _ _ hres

/-- Every job that `ParseCron` returns carries the file name. -/
theorem ParseCron_crontab (Parse : ParseFn) (envRef : Ptr) (filename : Str)
    (input : List Str) : ∀ j ∈ (ParseCron Parse envRef filename input).1, j.crontab = filename :=
  ParseCron_loop_jobs Parse envRef filename (fun j => j.crontab = filename)
    (fun env line job h => (ParseCronLine_job Parse envRef env filename line job h).1)
    input _ [] (fun _ h => absurd h (List.not_mem_nil _))

/-- The eviction of `UpdateCrontab` on a well-formed queue: it returns, and the queue afterwards
is the queue before without the jobs of the file. -/
theorem evict_spec (file : Str) (jobs : Jobs) (hw : WellFormed jobs) :
    ∃ jobs1, (match jobs.CrontabMapping file with
        | some set => UpdateCrontab.loop file set jobs
        | none => .ok jobs) = .ok jobs1 ∧ WellFormed jobs1 ∧
      (∀ p, p ∈ jobs1.List ↔ (p ∈ jobs.List ∧ (jobs.mem p).crontab ≠ file)) ∧
      (∀ p, (jobs1.mem p).nextRun = (jobs.mem p).nextRun ∧
        (jobs1.mem p).crontab = (jobs.mem p).crontab ∧
        (jobs1.mem p).Expression = (jobs.mem p).Expression ∧
        (jobs1.mem p).script = (jobs.mem p).script ∧
        (jobs1.mem p).environment = (jobs.mem p).environment) ∧
      jobs1.next = jobs.next ∧ jobs1.envMem = jobs.envMem ∧
      (∀ f, f ≠ file → jobs1.CrontabMapping f = jobs.CrontabMapping f) := by
  cases hcm : jobs.CrontabMapping file with
  | none =>
    refine ⟨jobs, rfl, hw, ?_, fun _ => ⟨rfl, rfl, rfl, rfl, rfl⟩, rfl, rfl, fun _ _ => rfl⟩
    intro p
    constructor
    · intro hp
      refine ⟨hp, fun hc => ?_⟩
      have := (hw.2.1 file p).mpr ⟨hp, hc⟩
      rw [hcm] at this
      simp at this
    · exact fun hp => hp.1
  | some set =>
    obtain ⟨h', hl, hw', hmem, hfld, hnext, henv, hmap⟩ :=
      UpdateCrontab_loop_spec file set jobs hw
    refine ⟨h', hl, hw', ?_, hfld, hnext, henv, hmap⟩
    intro p
    rw [hmem]
    have hset : p ∈ set ↔ (p ∈ jobs.List ∧ (jobs.mem p).crontab = file) := by
      have := hw.2.1 file p
      rw [hcm] at this
      simpa using this
    rw [hset]
    tauto

/-- The function `ReadCrontab` on a well-formed queue: when the file can be read, the jobs that
`ParseCron` gives become new objects, and the queue is as before. -/
theorem ReadCrontab_spec (fs : FileSystem) (Parse : ParseFn) (file : Str) (jobs : Jobs)
    (hw : WellFormed jobs) (input : List Str) (hfs : fs file = some input) :
    ∃ jobs2 c, ReadCrontab fs Parse file jobs = some (jobs2, c) ∧
      c = List.range' (jobs.next + 1) (ParseCron Parse jobs.next file input).1.length ∧
      WellFormed jobs2 ∧ NewJobs jobs2 c ∧ (∀ p ∈ c, p < jobs2.next) ∧
      jobs2.List = jobs.List ∧ jobs2.CrontabMapping = jobs.CrontabMapping ∧
      (∀ p, p < jobs.next → jobs2.mem p = jobs.mem p) ∧
      (∀ k, k < (ParseCron Parse jobs.next file input).1.length →
        (ParseCron Parse jobs.next file input).1.get? k = some (jobs2.mem (jobs.next + 1 + k))) := by
  unfold ReadCrontab
  rw [hfs]
  simp only []
  generalize ParseCron Parse jobs.next file input = parsed
  have hn : (jobs.allocEnv parsed.2).next = jobs.next + 1 := rfl
  have hme : (jobs.allocEnv parsed.2).mem = jobs.mem := rfl
  have hle : (jobs.allocEnv parsed.2).List = jobs.List := rfl
  have hce : (jobs.allocEnv parsed.2).CrontabMapping = jobs.CrontabMapping := rfl
  obtain ⟨h1, h2, h3, h4, h5, h6, h7⟩ := allocAll_spec parsed.1 (jobs.allocEnv parsed.2)
  rw [hn] at h4 h5 h6 h7
  rw [hle] at h1
  rw [hce] at h2
  generalize allocAll parsed.1 (jobs.allocEnv parsed.2) = res at h1 h2 h3 h4 h5 h6 h7 ⊢
  obtain ⟨hi, hm, hnd, hal⟩ := hw
  have hmemold : ∀ p, p < jobs.next → res.1.mem p = jobs.mem p := by
    intro p hp
    rw [h6 p (by unfold Ptr at *; omega), hme]
  have hc : ∀ p, p ∈ List.range' (jobs.next + 1) parsed.1.length →
      jobs.next + 1 ≤ p ∧ p < jobs.next + 1 + parsed.1.length := by
    intro p hp
    rw [List.mem_range'_1] at hp
    exact hp
  refine ⟨res.1, res.2, rfl, h5, ⟨?_, ?_, ?_, ?_⟩, ⟨?_, ?_⟩, ?_, h1, h2, hmemold, h7⟩
  · intro k hk
    have hk' : k < jobs.Len := by
      have : res.1.Len = jobs.Len := by unfold Jobs.Len; rw [h1]
      rw [this] at hk; exact hk
    have hat : res.1.at k = jobs.at k := by
      unfold Jobs.at; rw [h1]
    rw [hat, hmemold _ (hal _ ((mem_iff_at jobs _).mpr ⟨k, hk', rfl⟩))]
    exact hi k hk'
  · intro f p
    rw [h2, h1, hm f p]
    constructor
    · rintro ⟨a, b⟩
      exact ⟨a, by rw [hmemold p (hal p a)]; exact b⟩
    · rintro ⟨a, b⟩
      exact ⟨a, by rw [hmemold p (hal p a)] at b; exact b⟩
  · intro f; rw [h2]; exact hnd f
  · intro p hp
    rw [h1] at hp
    rw [h4]
    have := hal p hp
    unfold Ptr at *
    omega
  · rw [h5]; exact List.nodup_range' _ _
  · intro p hp hin
    rw [h5] at hp
    rw [h1] at hin
    have h8 := hc p hp
    have h9 := hal p hin
    unfold Ptr at *
    omega
  · intro p hp
    rw [h5] at hp
    rw [h4]
    exact (hc p hp).2


theorem UpdateCrontab_eq (fs : FileSystem) (Parse : ParseFn) (when : Time) (file : Str)
    (jobs jobs1 : Jobs)
    (he : (match jobs.CrontabMapping file with
      | some set => UpdateCrontab.loop file set jobs
      | none => .ok jobs) = .ok jobs1) :
    jobs.UpdateCrontab fs Parse when file =
      match ReadCrontab fs Parse file jobs1 with
      | none => .ok jobs1
      | some r => .ok (Jobs.Add when r.2 r.1) := by
  unfold Jobs.UpdateCrontab
  simp only []
  rw [he]
  simp only []
  cases ReadCrontab fs Parse file jobs1 with
  | none => rfl
  | some r => rfl

theorem ReadCrontab_none (fs : FileSystem) (Parse : ParseFn) (file : Str) (jobs : Jobs)
    (hfs : fs file = none) : ReadCrontab fs Parse file jobs = none := by
  unfold ReadCrontab
  rw [hfs]

/-- C3: on a well-formed queue, for two different files `A` and `B`, `UpdateCrontab(when, A)`
returns, and every job of `B` that was queued before is still in `List` and in
`CrontabMapping[B]` afterwards, with the same `nextRun`; this holds whatever the file system
holds for `A`, also when `A` cannot be read. -/
theorem UpdateCrontab_keeps_other_files (fs : FileSystem) (Parse : ParseFn) (when : Time)
    (A B : Str) (jobs : Jobs) (hw : WellFormed jobs) (hAB : A ≠ B) :
    ∃ jobs', jobs.UpdateCrontab fs Parse when A = .ok jobs' ∧
      ∀ p, p ∈ jobs.List → (jobs.mem p).crontab = B →
        p ∈ jobs'.List ∧ p ∈ (jobs'.CrontabMapping B).getD [] ∧
        (jobs'.mem p).nextRun = (jobs.mem p).nextRun := by
  obtain ⟨jobs1, he, hw1, hmem1, hfld1, hnext1, _, hmap1⟩ := evict_spec A jobs hw
  rw [UpdateCrontab_eq fs Parse when A jobs jobs1 he]
  cases hfs : fs A with
  | none =>
    rw [ReadCrontab_none fs Parse A jobs1 hfs]
    refine ⟨jobs1, rfl, fun p hp hB => ?_⟩
    have hpA : (jobs.mem p).crontab ≠ A := fun h => hAB (h.symm.trans hB)
    have hp1 : p ∈ jobs1.List := (hmem1 p).mpr ⟨hp, hpA⟩
    refine ⟨hp1, ?_, (hfld1 p).1⟩
    rw [hw1.2.1 B p]
    exact ⟨hp1, (hfld1 p).2.1.trans hB⟩
  | some input =>
    obtain ⟨jobs2, c, hr, hc, hw2, hnew, hal, hl2, _, hmem2, _⟩ :=
      ReadCrontab_spec fs Parse A jobs1 hw1 input hfs
    rw [hr]
    obtain ⟨hw3, hperm3, _, _, _, hfld3⟩ := Add_spec when c jobs2 hw2 hnew hal
    refine ⟨_, rfl, fun p hp hB => ?_⟩
    have hpA : (jobs.mem p).crontab ≠ A := fun h => hAB (h.symm.trans hB)
    have hp1 : p ∈ jobs1.List := (hmem1 p).mpr ⟨hp, hpA⟩
    have hp2 : p ∈ jobs2.List := hl2 ▸ hp1
    have hp3 : p ∈ (Jobs.Add when c jobs2).List :=
      hperm3.mem_iff.mpr (List.mem_append_left _ hp2)
    have hpc : p ∉ c := fun h => hnew.2 p h hp2
    have hold : jobs2.mem p = jobs1.mem p := hmem2 p (hw1.2.2.2 p hp1)
    refine ⟨hp3, ?_, ?_⟩
    · rw [hw3.2.1 B p]
      refine ⟨hp3, ?_⟩
      rw [(hfld3 p).2.1, hold, (hfld1 p).2.1]
      exact hB
    · rw [(hfld3 p).1, if_neg hpc, hold]
      exact (hfld1 p).1

theorem twoFiles_wellFormed : WellFormed twoFiles := by
  refine ⟨?_, ?_, ?_, ?_⟩
  · intro k hk
    have : k < 4 := hk
    interval_cases k <;> rfl
  · intro f p
    by_cases hp : p < 4
    · unfold Ptr at *
      interval_cases p <;> by_cases ha : f = ['a'] <;> by_cases hb : f = ['b'] <;>
        simp_all [twoFiles, eq_comm]
    · have hnl : p ∉ twoFiles.List := by
        simp only [twoFiles, List.mem_cons, List.mem_singleton, List.not_mem_nil, or_false]
        unfold Ptr at *
        omega
      have hnm : p ∉ (twoFiles.CrontabMapping f).getD [] := by
        simp only [twoFiles]
        split
        · simp only [Option.getD_some, List.mem_cons, List.mem_singleton, List.not_mem_nil,
            or_false]
          unfold Ptr at *
          omega
        · split
          · simp only [Option.getD_some, List.mem_cons, List.mem_singleton, List.not_mem_nil,
              or_false]
            unfold Ptr at *
            omega
          · simp
      exact ⟨fun h => absurd h hnm, fun h => absurd h.1 hnl⟩
  · intro f
    simp only [twoFiles]
    split
    · decide
    · split
      · decide
      · simp
  · intro p hp
    simp only [twoFiles, List.mem_cons, List.mem_singleton, List.not_mem_nil, or_false] at hp
    rcases hp with rfl | rfl | rfl | rfl <;> decide

/-- The witness of `UpdateCrontab_keeps_other_files`: the file `a` of `twoFiles` is replaced. -/
theorem UpdateCrontab_keeps_other_files_witness :
    (WellFormed twoFiles ∧ ['a'] ≠ ['b']) ∧
    ∃ jobs', twoFiles.UpdateCrontab oneFile everyMinute 100 ['a'] = .ok jobs' ∧
      ∀ p, p ∈ twoFiles.List → (twoFiles.mem p).crontab = ['b'] →
        p ∈ jobs'.List ∧ p ∈ (jobs'.CrontabMapping ['b']).getD [] ∧
        (jobs'.mem p).nextRun = (twoFiles.mem p).nextRun :=
  ⟨⟨twoFiles_wellFormed, by decide⟩,
    UpdateCrontab_keeps_other_files oneFile everyMinute 100 ['a'] ['b'] twoFiles
      twoFiles_wellFormed (by decide)⟩

/-- C4: on a well-formed queue `UpdateCrontab(when, file)` returns, and afterwards: every job
of the file that was queued before is gone; when the file was no key of `CrontabMapping`, every
job queued before is still queued; when the file cannot be read, no queued job belongs to the
file; and when it can be read, the queued jobs of the file are exactly the new objects made
for the jobs that `ParseCron` returns, each once, the `k`-th of them holding the `k`-th job
with `nextRun = Next(when)`. -/
theorem UpdateCrontab_replaces_file (fs : FileSystem) (Parse : ParseFn) (when : Time)
    (file : Str) (jobs : Jobs) (hw : WellFormed jobs) :
    ∃ jobs', jobs.UpdateCrontab fs Parse when file = .ok jobs' ∧
      (∀ p ∈ jobs.List, (jobs.mem p).crontab = file → p ∉ jobs'.List) ∧
      (jobs.CrontabMapping file = none → ∀ p ∈ jobs.List, p ∈ jobs'.List) ∧
      (fs file = none → ∀ p ∈ jobs'.List, (jobs'.mem p).crontab ≠ file) ∧
      (∀ input, fs file = some input →
        (jobs'.List.filter (fun p => decide ((jobs'.mem p).crontab = file))).Perm
          (List.range' (jobs.next + 1) (ParseCron Parse jobs.next file input).1.length) ∧
        ∀ k, k < (ParseCron Parse jobs.next file input).1.length →
          ∃ job, (ParseCron Parse jobs.next file input).1.get? k = some job ∧
            (jobs'.mem (jobs.next + 1 + k)).script = job.script ∧
            (jobs'.mem (jobs.next + 1 + k)).Expression = job.Expression ∧
            (jobs'.mem (jobs.next + 1 + k)).environment = job.environment ∧
            (jobs'.mem (jobs.next + 1 + k)).crontab = file ∧
            (jobs'.mem (jobs.next + 1 + k)).nextRun = job.Next when) := by
  obtain ⟨jobs1, he, hw1, hmem1, hfld1, hnext1, _, hmap1⟩ := evict_spec file jobs hw
  rw [UpdateCrontab_eq fs Parse when file jobs jobs1 he]
  have hnokey : jobs.CrontabMapping file = none → ∀ p ∈ jobs.List,
      (jobs.mem p).crontab ≠ file := by
    intro hnone p hp hc
    have := (hw.2.1 file p).mpr ⟨hp, hc⟩
    rw [hnone] at this
    simp at this
  cases hfs : fs file with
  | none =>
    rw [ReadCrontab_none fs Parse file jobs1 hfs]
    refine ⟨jobs1, rfl, ?_, ?_, ?_, ?_⟩
    · intro p _ hc hin
      exact ((hmem1 p).mp hin).2 hc
    · intro hnone p hp
      exact (hmem1 p).mpr ⟨hp, hnokey hnone p hp⟩
    · intro _ p hp
      rw [(hfld1 p).2.1]
      exact ((hmem1 p).mp hp).2
    · intro input hi
      simp at hi
  | some input =>
    obtain ⟨jobs2, c, hr, hc, hw2, hnew, hal, hl2, _, hmem2, hget⟩ :=
      ReadCrontab_spec fs Parse file jobs1 hw1 input hfs
    rw [hr]
    rw [hnext1] at hc hget hmem2
    obtain ⟨hw3, hperm3, _, _, _, hfld3⟩ := Add_spec when c jobs2 hw2 hnew hal
    have hcmem : ∀ p, p ∈ c ↔ ∃ k, k < (ParseCron Parse jobs.next file input).1.length ∧
        p = jobs.next + 1 + k := by
      intro p
      rw [hc, List.mem_range'_1]
      constructor
      · rintro ⟨h1, h2⟩
        refine ⟨p - (jobs.next + 1), ?_, ?_⟩ <;> (unfold Ptr at *; omega)
      · rintro ⟨k, hk, rfl⟩
        constructor <;> (unfold Ptr at *; omega)
    have hnewjob : ∀ k, k < (ParseCron Parse jobs.next file input).1.length →
        (jobs2.mem (jobs.next + 1 + k)).crontab = file := by
      intro k hk
      have h1 := hget k hk
      exact ParseCron_crontab Parse jobs.next file input _ (List.get?_mem h1)
    have hold : ∀ p, p ∈ jobs1.List → jobs2.mem p = jobs1.mem p := by
      intro p hp
      apply hmem2 p
      rw [← hnext1]
      exact hw1.2.2.2 p hp
    refine ⟨_, rfl, ?_, ?_, ?_, ?_⟩
    · intro p hp hcr hin
      rw [hperm3.mem_iff, List.mem_append, hl2] at hin
      rcases hin with hin | hin
      · exact ((hmem1 p).mp hin).2 hcr
      · obtain ⟨k, _, rfl⟩ := (hcmem p).mp hin
        have := hw.2.2.2 _ hp
        unfold Ptr at *
        omega
    · intro hnone p hp
      rw [hperm3.mem_iff, List.mem_append, hl2]
      exact Or.inl ((hmem1 p).mpr ⟨hp, hnokey hnone p hp⟩)
    · intro hi
      simp at hi
    · intro input' hi
      simp only [Option.some.injEq] at hi
      subst hi
      constructor
      · refine (hperm3.filter _).trans ?_
        rw [List.filter_append]
        have e1 : List.filter (fun p => decide (((Jobs.Add when c jobs2).mem p).crontab = file))
            jobs2.List = [] := by
          rw [List.filter_eq_nil_iff]
          intro p hp
          rw [hl2] at hp
          simp only [decide_eq_true_eq]
          rw [(hfld3 p).2.1, hold p hp, (hfld1 p).2.1]
          exact ((hmem1 p).mp hp).2
        have e2 : List.filter (fun p => decide (((Jobs.Add when c jobs2).mem p).crontab = file))
            c = c := by
          rw [List.filter_eq_self]
          intro p hp
          obtain ⟨k, hk, rfl⟩ := (hcmem p).mp hp
          simp only [decide_eq_true_eq]
          rw [(hfld3 _).2.1]
          exact hnewjob k hk
        rw [e1, e2, List.nil_append, hc]
      · intro k hk
        have hin : jobs.next + 1 + k ∈ c := (hcmem _).mpr ⟨k, hk, rfl⟩
        obtain ⟨a, b, c', d, e⟩ := hfld3 (jobs.next + 1 + k)
        refine ⟨jobs2.mem (jobs.next + 1 + k), hget k hk, d, c', e, ?_, ?_⟩
        · rw [b]; exact hnewjob k hk
        · rw [a, if_pos hin]

/-- The witness of `UpdateCrontab_replaces_file`: the file `a` of `twoFiles` is replaced. -/
theorem UpdateCrontab_replaces_file_witness :
    WellFormed twoFiles ∧
    ∃ jobs', twoFiles.UpdateCrontab oneFile everyMinute 100 ['a'] = .ok jobs' ∧
      (∀ p ∈ twoFiles.List, (twoFiles.mem p).crontab = ['a'] → p ∉ jobs'.List) ∧
      (twoFiles.CrontabMapping ['a'] = none → ∀ p ∈ twoFiles.List, p ∈ jobs'.List) ∧
      (oneFile ['a'] = none → ∀ p ∈ jobs'.List, (jobs'.mem p).crontab ≠ ['a']) ∧
      (∀ input, oneFile ['a'] = some input →
        (jobs'.List.filter (fun p => decide ((jobs'.mem p).crontab = ['a']))).Perm
          (List.range' (twoFiles.next + 1)
            (ParseCron everyMinute twoFiles.next ['a'] input).1.length) ∧
        ∀ k, k < (ParseCron everyMinute twoFiles.next ['a'] input).1.length →
          ∃ job, (ParseCron everyMinute twoFiles.next ['a'] input).1.get? k = some job ∧
            (jobs'.mem (twoFiles.next + 1 + k)).script = job.script ∧
            (jobs'.mem (twoFiles.next + 1 + k)).Expression = job.Expression ∧
            (jobs'.mem (twoFiles.next + 1 + k)).environment = job.environment ∧
            (jobs'.mem (twoFiles.next + 1 + k)).crontab = ['a'] ∧
            (jobs'.mem (twoFiles.next + 1 + k)).nextRun = job.Next 100) :=
  ⟨twoFiles_wellFormed,
    UpdateCrontab_replaces_file oneFile everyMinute 100 ['a'] twoFiles twoFiles_wellFormed⟩


/-! ### `FieldsN` -/

theorem Fields_go_space (c : Char) (rest cur : Str) (hc : isSpace c = true) :
    Fields.go (c :: rest) cur = (if cur = [] then [] else [cur]) ++ Fields.go rest [] := by
  rw [Fields.go, if_pos hc]
  split <;> rfl

theorem Fields_go_char (c : Char) (rest cur : Str) (hc : isSpace c = false) :
    Fields.go (c :: rest) cur = Fields.go rest (cur ++ [c]) := by
  rw [Fields.go, if_neg (by simp [hc])]

/-- A field that has begun is the head of the result. -/
theorem Fields_go_cur : ∀ (rest cur : Str), cur ≠ [] →
    ∃ more, Fields.go rest cur = (cur ++ rest.takeWhile (fun c => !isSpace c)) :: more
  | [], cur, hcur => ⟨[], by simp [Fields.go, hcur]⟩
  | c :: rest, cur, hcur => by
    cases hc : isSpace c
    · obtain ⟨more, hm⟩ := Fields_go_cur rest (cur ++ [c]) (by simp)
      refine ⟨more, ?_⟩
      rw [Fields_go_char c rest cur hc, hm]
      simp [List.takeWhile_cons, hc]
    · refine ⟨Fields.go rest [], ?_⟩
      rw [Fields_go_space c rest cur hc, if_neg hcur]
      simp [List.takeWhile_cons, hc]

/-- The fields of a string hold no whitespace and are not empty. -/
theorem Fields_go_isField : ∀ (rest cur : Str), (∀ c ∈ cur, isSpace c = false) →
    ∀ t ∈ Fields.go rest cur, IsField t
  | [], cur, hcur, t, ht => by
    rw [Fields.go] at ht
    split at ht
    · simp at ht
    · rename_i hne
      rw [List.mem_singleton] at ht
      subst ht
      exact ⟨hne, hcur⟩
  | c :: rest, cur, hcur, t, ht => by
    cases hc : isSpace c
    · rw [Fields_go_char c rest cur hc] at ht
      refine Fields_go_isField rest (cur ++ [c]) ?_ t ht
      intro d hd
      rw [List.mem_append, List.mem_singleton] at hd
      rcases hd with hd | rfl
      · exact hcur d hd
      · exact hc
    · rw [Fields_go_space c rest cur hc, List.mem_append] at ht
      rcases ht with ht | ht
      · split at ht
        · simp at ht
        · rename_i hne
          rw [List.mem_singleton] at ht
          subst ht
          exact ⟨hne, hcur⟩
      · exact Fields_go_isField rest [] (fun _ h => absurd h (List.not_mem_nil _)) t ht

theorem Fields_isField (s : Str) : ∀ t ∈ Fields s, IsField t :=
  Fields_go_isField s [] (fun _ h => absurd h (List.not_mem_nil _))

theorem slice_eq (pre0 cur rest : Str) :
    slice (pre0 ++ cur ++ rest) pre0.length (pre0 ++ cur).length = cur := by
  unfold slice
  rw [List.append_assoc, List.drop_left, List.length_append, Nat.add_sub_cancel_left,
    List.take_left]

/-- The loop of `FieldsN`, started after the text `pre` with the fields `a` complete and the
field `cur` begun: it either reaches the end, and then the string has fewer than `max` fields,
or stops at the first character of the field number `max`. -/
theorem FieldsN_loop_spec (s : Str) (max : Int) (hmax : 1 ≤ max) :
    ∀ (rest pre : Str) (a : List Str) (fieldStart : Int) (cur : Str), s = pre ++ rest →
    (∀ t, Fields.go (pre ++ t) [] = a ++ Fields.go t cur) →
    ((cur = [] ∧ fieldStart = -1 ∧ (a.length : Int) ≤ max - 1 ∧ EndsInSpace pre) ∨
      (cur ≠ [] ∧ (a.length : Int) < max - 1 ∧
        ∃ pre0, pre = pre0 ++ cur ∧ fieldStart = (pre0.length : Int))) →
    ((FieldsN.loop s max rest pre.length a fieldStart).2 = -1 ∧
        ((Fields s).length : Int) < max) ∨
    (∃ pre' c rest', s = pre' ++ c :: rest' ∧ isSpace c = false ∧
      (FieldsN.loop s max rest pre.length a fieldStart).2 = (pre'.length : Int) ∧
      ((FieldsN.loop s max rest pre.length a fieldStart).1.length : Int) = max - 1 ∧
      Fields s = (FieldsN.loop s max rest pre.length a fieldStart).1 ++ Fields.go (c :: rest') [] ∧
      Fields pre' = (FieldsN.loop s max rest pre.length a fieldStart).1 ∧ EndsInSpace pre')
  | [], pre, a, fieldStart, cur, hs, hinv, hst => by
    left
    refine ⟨rfl, ?_⟩
    have hF : Fields s = a ++ Fields.go [] cur := by
      rw [hs]; exact hinv []
    rw [hF, Fields.go]
    rcases hst with ⟨hc, _, hlen, _⟩ | ⟨hc, hlen, _⟩
    · rw [if_pos hc]; simp only [List.append_nil]; omega
    · rw [if_neg hc]; simp only [List.length_append, List.length_singleton]; push_cast; omega
  | c :: rest, pre, a, fieldStart, cur, hs, hinv, hst => by
    have hs' : s = (pre ++ [c]) ++ rest := by rw [hs]; simp
    have hlen' : (pre ++ [c]).length = pre.length + 1 := by simp
    rw [FieldsN.loop]
    cases hc : isSpace c
    · -- a character of a field
      simp only [Bool.false_eq_true, if_false]
      rcases hst with ⟨hcur, hfs, hlen, hend⟩ | ⟨hcur, hlen, pre0, hpre, hfs⟩
      · rw [if_pos hfs]
        by_cases hge : (a.length : Int) ≥ max - 1
        · rw [if_pos hge]
          right
          subst hcur
          refine ⟨pre, c, rest, hs, hc, rfl, by show (a.length : Int) = max - 1; omega, ?_, ?_, hend⟩
          · rw [hs]; exact hinv (c :: rest)
          · have := hinv []
            rw [List.append_nil] at this
            rw [Fields, this, Fields.go]; simp
        · rw [if_neg hge]
          have ih := FieldsN_loop_spec s max hmax rest (pre ++ [c]) a (pre.length : Int)
            [c] hs' (fun t => by
              have := hinv (c :: t)
              rw [Fields_go_char c t cur hc, hcur] at this
              rw [List.append_assoc]; exact this)
            (Or.inr ⟨by simp, by omega, pre, rfl, rfl⟩)
          rw [hlen'] at ih
          exact ih
      · have hne : ¬ fieldStart = -1 := by omega
        rw [if_neg hne]
        have ih := FieldsN_loop_spec s max hmax rest (pre ++ [c]) a fieldStart
          (cur ++ [c]) hs' (fun t => by
            have := hinv (c :: t)
            rw [Fields_go_char c t cur hc] at this
            rw [List.append_assoc]; exact this)
          (Or.inr ⟨by simp, hlen, pre0, by rw [hpre, List.append_assoc], hfs⟩)
        rw [hlen'] at ih
        exact ih
    · -- a whitespace character
      simp only [if_true]
      have hend' : EndsInSpace (pre ++ [c]) := Or.inr ⟨pre, c, rfl, hc⟩
      rcases hst with ⟨hcur, hfs, hlen, _⟩ | ⟨hcur, hlen, pre0, hpre, hfs⟩
      · have hneg : ¬ fieldStart ≥ 0 := by omega
        rw [if_neg hneg]
        have ih := FieldsN_loop_spec s max hmax rest (pre ++ [c]) a fieldStart
          [] hs' (fun t => by
            have := hinv (c :: t)
            rw [Fields_go_space c t cur hc, if_pos hcur, List.nil_append] at this
            rw [List.append_assoc]; exact this)
          (Or.inl ⟨rfl, hfs, hlen, hend'⟩)
        rw [hlen'] at ih
        exact ih
      · have hpos : fieldStart ≥ 0 := by omega
        rw [if_pos hpos]
        have hsl : slice s fieldStart.toNat pre.length = cur := by
          rw [hfs, Int.toNat_ofNat, hs, hpre]
          exact slice_eq pre0 cur (c :: rest)
        rw [hsl]
        have ih := FieldsN_loop_spec s max hmax rest (pre ++ [c]) (a ++ [cur]) (-1)
          [] hs' (fun t => by
            have := hinv (c :: t)
            rw [Fields_go_space c t cur hc, if_neg hcur] at this
            rw [List.append_assoc, List.append_assoc]; exact this)
          (Or.inl ⟨rfl, rfl, by simp only [List.length_append, List.length_singleton]; push_cast; omega,
            hend'⟩)
        rw [hlen'] at ih
        exact ih


/-- The function `FieldsN`, for `max ≥ 1`: either the string has fewer than `max` fields and
the result is the error, or the string is `pre ++ c :: rest'`, where `pre` holds exactly the
first `max - 1` fields and `c` is the first character of the next field, and the result is
these fields and the remainder `c :: rest'`. -/
theorem FieldsN_spec (s : Str) (max : Int) (hmax : 1 ≤ max) :
    ((FieldsN s max).2 = some Error.ErrNotEnoughFields ∧ ((Fields s).length : Int) < max) ∨
    (∃ pre c rest', s = pre ++ c :: rest' ∧ isSpace c = false ∧
      FieldsN s max = (Fields pre ++ [c :: rest'], none) ∧
      ((Fields pre).length : Int) = max - 1 ∧
      Fields s = Fields pre ++ Fields.go (c :: rest') [] ∧ EndsInSpace pre) := by
  have h := FieldsN_loop_spec s max hmax s [] [] (-1) [] rfl (fun t => rfl)
    (Or.inl ⟨rfl, rfl, by simp only [List.length_nil]; push_cast; omega, Or.inl rfl⟩)
  simp only [List.length_nil] at h
  unfold FieldsN
  simp only []
  generalize FieldsN.loop s max s 0 [] (-1) = r at h ⊢
  rcases h with ⟨h1, h2⟩ | ⟨pre, c, rest', hs, hc, h1, h2, h3, h4, h5⟩
  · left
    rw [if_pos h1]
    exact ⟨rfl, h2⟩
  · right
    have hne : ¬ r.2 = -1 := by omega
    rw [if_neg hne]
    refine ⟨pre, c, rest', hs, hc, ?_, by rw [h4]; exact h2, by rw [h4]; exact h3, h5⟩
    rw [h4, h1, Int.toNat_ofNat]
    have : List.drop pre.length s = c :: rest' := by
      rw [hs, List.drop_left]
    rw [this]

theorem Fields_go_nonempty (c : Char) (rest : Str) (hc : isSpace c = false) :
    ∃ more, Fields.go (c :: rest) [] =
      ((c :: rest).takeWhile (fun d => !isSpace d)) :: more := by
  obtain ⟨more, hm⟩ := Fields_go_cur rest [c] (by simp)
  refine ⟨more, ?_⟩
  rw [Fields_go_char c rest [] hc, List.nil_append, hm]
  simp [List.takeWhile_cons, hc]

theorem Fields_of_spaces : ∀ (s : Str), (∀ c ∈ s, isSpace c = true) → Fields s = []
  | [], _ => rfl
  | c :: rest, h => by
    have hc := h c (List.mem_cons_self _ _)
    have ih := Fields_of_spaces rest (fun d hd => h d (List.mem_cons_of_mem _ hd))
    unfold Fields at ih ⊢
    rw [Fields_go_space c rest [] hc, if_pos rfl, ih]
    rfl

/-- C7: for `max ≥ 1`, `FieldsN(s, max)` fails with `ErrNotEnoughFields` exactly when `s` has
fewer than `max` whitespace-delimited fields, and otherwise returns no error; in particular
it fails for the empty string and for a string of whitespace only. -/
theorem FieldsN_error_iff (s : Str) (max : Int) (hmax : 1 ≤ max) :
    ((FieldsN s max).2 = some Error.ErrNotEnoughFields ↔ ((Fields s).length : Int) < max) ∧
    (¬ ((Fields s).length : Int) < max → (FieldsN s max).2 = none) ∧
    ((∀ c ∈ s, isSpace c = true) → (FieldsN s max).2 = some Error.ErrNotEnoughFields) := by
  have key : ((FieldsN s max).2 = some Error.ErrNotEnoughFields ∧
        ((Fields s).length : Int) < max) ∨
      ((FieldsN s max).2 = none ∧ ¬ ((Fields s).length : Int) < max) := by
    rcases FieldsN_spec s max hmax with h | ⟨pre, c, rest', _, hc, h1, h2, h3, _⟩
    · exact Or.inl h
    · right
      obtain ⟨more, hm⟩ := Fields_go_nonempty c rest' hc
      refine ⟨by rw [h1], ?_⟩
      rw [h3, hm]
      simp only [List.length_append, List.length_cons]
      push_cast
      omega
  have hiff : (FieldsN s max).2 = some Error.ErrNotEnoughFields ↔
      ((Fields s).length : Int) < max := by
    rcases key with ⟨h1, h2⟩ | ⟨h1, h2⟩
    · exact ⟨fun _ => h2, fun _ => h1⟩
    · exact ⟨fun h => by rw [h1] at h; simp at h, fun h => absurd h h2⟩
  refine ⟨hiff, ?_, ?_⟩
  · intro hn
    rcases key with ⟨_, h2⟩ | ⟨h1, _⟩
    · exact absurd h2 hn
    · exact h1
  · intro hsp
    rw [hiff, Fields_of_spaces s hsp]
    simp only [List.length_nil]
    push_cast
    omega

/-- The witness of `FieldsN_error_iff`: a line of five fields, split into six. -/
theorem FieldsN_error_iff_witness :
    (1 : Int) ≤ 6 ∧
    (((FieldsN "* * * * *".toList 6).2 = some Error.ErrNotEnoughFields ↔
        ((Fields "* * * * *".toList).length : Int) < 6) ∧
      (¬ ((Fields "* * * * *".toList).length : Int) < 6 → (FieldsN "* * * * *".toList 6).2 = none) ∧
      ((∀ c ∈ "* * * * *".toList, isSpace c = true) →
        (FieldsN "* * * * *".toList 6).2 = some Error.ErrNotEnoughFields)) :=
  ⟨by decide, FieldsN_error_iff "* * * * *".toList 6 (by decide)⟩

/-- C8: for `max ≥ 1` and a string `s` with at least `max` whitespace-delimited fields,
`FieldsN(s, max)` returns, without error, exactly `max` fields. The first `max - 1` are the
first `max - 1` fields of `s` (not empty, without whitespace). The last is a suffix `rest` of
`s = pre ++ rest` that starts at the first character of the field number `max`: the text `pre`
before it holds exactly the first `max - 1` fields and is empty or ends with whitespace, and
the field number `max` is the run of `rest` up to its first whitespace. -/
theorem FieldsN_fields (s : Str) (max : Int) (hmax : 1 ≤ max)
    (hlen : max ≤ ((Fields s).length : Int)) :
    ∃ pre rest, s = pre ++ rest ∧
      FieldsN s max = ((Fields s).take (max - 1).toNat ++ [rest], none) ∧
      ((FieldsN s max).1.length : Int) = max ∧
      (∀ t ∈ (Fields s).take (max - 1).toNat, IsField t) ∧
      Fields pre = (Fields s).take (max - 1).toNat ∧ EndsInSpace pre ∧
      (Fields s).get? (max - 1).toNat = some (rest.takeWhile (fun c => !isSpace c)) ∧
      (∃ c rest', rest = c :: rest' ∧ isSpace c = false) := by
  rcases FieldsN_spec s max hmax with ⟨_, h⟩ | ⟨pre, c, rest', hs, hc, h1, h2, h3, h5⟩
  · omega
  · obtain ⟨more, hm⟩ := Fields_go_nonempty c rest' hc
    have hn : (max - 1).toNat = (Fields pre).length := by omega
    have htake : (Fields s).take (max - 1).toNat = Fields pre := by
      rw [hn, h3, List.take_left]
    refine ⟨pre, c :: rest', hs, ?_, ?_, ?_, htake.symm, h5, ?_, c, rest', rfl, hc⟩
    · rw [h1, htake]
    · rw [h1]
      simp only [List.length_append, List.length_singleton]
      push_cast
      omega
    · intro t ht
      exact Fields_isField s t (List.mem_of_mem_take ht)
    · rw [hn, h3, hm, List.get?_eq_getElem?, List.getElem?_append_right (le_refl _)]
      simp

/-- The witness of `FieldsN_fields`: a line of seven fields with whitespace everywhere. -/
theorem FieldsN_fields_witness :
    ((1 : Int) ≤ 6 ∧ (6 : Int) ≤ ((Fields "  * *   * * *     hello  world ".toList).length : Int)) ∧
    ∃ pre rest, "  * *   * * *     hello  world ".toList = pre ++ rest ∧
      FieldsN "  * *   * * *     hello  world ".toList 6 =
        ((Fields "  * *   * * *     hello  world ".toList).take (6 - 1 : Int).toNat ++ [rest], none) ∧
      ((FieldsN "  * *   * * *     hello  world ".toList 6).1.length : Int) = 6 ∧
      (∀ t ∈ (Fields "  * *   * * *     hello  world ".toList).take (6 - 1 : Int).toNat, IsField t) ∧
      Fields pre = (Fields "  * *   * * *     hello  world ".toList).take (6 - 1 : Int).toNat ∧
      EndsInSpace pre ∧
      (Fields "  * *   * * *     hello  world ".toList).get? (6 - 1 : Int).toNat =
        some (rest.takeWhile (fun c => !isSpace c)) ∧
      (∃ c rest', rest = c :: rest' ∧ isSpace c = false) :=
  ⟨⟨by decide, by decide⟩,
    FieldsN_fields "  * *   * * *     hello  world ".toList 6 (by decide) (by decide)⟩

/-! ### `SplitCron` and whitespace -/

theorem Fields_go_field : ∀ (tok t cur : Str), (∀ c ∈ tok, isSpace c = false) →
    Fields.go (tok ++ t) cur = Fields.go t (cur ++ tok)
  | [], t, cur, _ => by simp
  | c :: tok, t, cur, h => by
    rw [List.cons_append, Fields_go_char c _ cur (h c (List.mem_cons_self _ _)),
      Fields_go_field tok t (cur ++ [c]) (fun d hd => h d (List.mem_cons_of_mem _ hd))]
    simp

theorem Fields_go_append : ∀ (q : Str) (d : Char), isSpace d = true → ∀ (cur y : Str),
    Fields.go ((q ++ [d]) ++ y) cur = Fields.go (q ++ [d]) cur ++ Fields.go y []
  | [], d, hd, cur, y => by
    simp only [List.nil_append, List.singleton_append]
    rw [Fields_go_space d y cur hd, Fields_go_space d [] cur hd]
    simp [Fields.go]
  | c :: q, d, hd, cur, y => by
    simp only [List.cons_append]
    cases hc : isSpace c
    · rw [Fields_go_char c _ cur hc, Fields_go_char c _ cur hc]
      have := Fields_go_append q d hd (cur ++ [c]) y
      simpa using this
    · rw [Fields_go_space c _ cur hc, Fields_go_space c _ cur hc]
      rw [Fields_go_append q d hd [] y, List.append_assoc]

/-- After a text that is empty or ends with whitespace the fields start afresh. -/
theorem Fields_append (p y : Str) (hp : EndsInSpace p) : Fields (p ++ y) = Fields p ++ Fields y := by
  rcases hp with rfl | ⟨q, d, rfl, hd⟩
  · rfl
  · exact Fields_go_append q d hd [] y

theorem Fields_cons_ne_nil (c : Char) (rest : Str) (hc : isSpace c = false) :
    Fields (c :: rest) ≠ [] := by
  obtain ⟨more, hm⟩ := Fields_go_nonempty c rest hc
  unfold Fields
  rw [hm]
  simp

/-- The place where a field starts is determined by the number of fields before it. -/
theorem field_start_unique_aux (p1 x r2 : Str) (c : Char) (r1' : Str)
    (hr1 : c :: r1' = x ++ r2) (hc : isSpace c = false) (h1 : EndsInSpace p1)
    (hlen : (Fields p1).length = (Fields (p1 ++ x)).length) : x = [] := by
  cases x with
  | nil => rfl
  | cons d x' =>
    exfalso
    rw [List.cons_append] at hr1
    injection hr1 with hd _
    subst hd
    rw [Fields_append p1 _ h1, List.length_append] at hlen
    have := List.length_pos.mpr (Fields_cons_ne_nil c x' hc)
    omega

theorem field_start_unique (p1 p2 r1' r2' : Str) (c1 c2 : Char)
    (h : p1 ++ c1 :: r1' = p2 ++ c2 :: r2') (hc1 : isSpace c1 = false) (hc2 : isSpace c2 = false)
    (h1 : EndsInSpace p1) (h2 : EndsInSpace p2)
    (hlen : (Fields p1).length = (Fields p2).length) : p1 = p2 := by
  rcases List.append_eq_append_iff.mp h with ⟨x, hp, hr⟩ | ⟨x, hp, hr⟩
  · have hx := field_start_unique_aux p1 x (c2 :: r2') c1 r1' hr hc1 h1 (by rw [← hp]; exact hlen)
    rw [hp, hx, List.append_nil]
  · have hx := field_start_unique_aux p2 x (c1 :: r1') c2 r2' hr hc2 h2 (by rw [← hp]; exact hlen.symm)
    rw [hp, hx, List.append_nil]


theorem Join_nil (sep : Str) : Join [] sep = [] := rfl

theorem Join_singleton (a sep : Str) : Join [a] sep = a := by
  simp [Join, List.intercalate]

theorem Join_cons_cons (a b : Str) (l : List Str) (sep : Str) :
    Join (a :: b :: l) sep = a ++ sep ++ Join (b :: l) sep := by
  simp [Join, List.intercalate]

theorem Join_append_singleton : ∀ (toks : List Str) (r : Str),
    Join (toks ++ [r]) [' '] = spaced toks ++ r
  | [], r => by simp [Join_singleton, spaced]
  | [t], r => by
    rw [List.singleton_append, Join_cons_cons, Join_singleton]
    simp [spaced]
  | t :: u :: toks, r => by
    have ih := Join_append_singleton (u :: toks) r
    rw [List.cons_append, List.cons_append, Join_cons_cons, ← List.cons_append, ih]
    simp [spaced]

theorem Join_split : ∀ (l1 l2 : List Str), l2 ≠ [] →
    Join (l1 ++ l2) [' '] = Join (l1 ++ [Join l2 [' ']]) [' ']
  | [], l2, _ => by simp [Join_singleton]
  | [t], l2, h => by
    cases l2 with
    | nil => exact absurd rfl h
    | cons b l => simp [Join_cons_cons, Join_singleton]
  | t :: u :: l1, l2, h => by
    have ih := Join_split (u :: l1) l2 h
    rw [List.cons_append, List.cons_append, Join_cons_cons, ← List.cons_append, ih]
    exact (Join_cons_cons t u (l1 ++ [Join l2 [' ']]) [' ']).symm

theorem isSpace_blank : isSpace ' ' = true := by decide

theorem spaced_endsInSpace : ∀ (toks : List Str), EndsInSpace (spaced toks)
  | [] => Or.inl rfl
  | t :: toks => by
    right
    rcases spaced_endsInSpace toks with h | ⟨q, d, h, hd⟩
    · refine ⟨t, ' ', ?_, isSpace_blank⟩
      have : spaced (t :: toks) = t ++ [' '] ++ spaced toks := by simp [spaced]
      rw [this, h, List.append_nil]
    · refine ⟨t ++ [' '] ++ q, d, ?_, hd⟩
      have : spaced (t :: toks) = t ++ [' '] ++ spaced toks := by simp [spaced]
      rw [this, h]
      simp

theorem Fields_spaced : ∀ (toks : List Str), (∀ t ∈ toks, IsField t) → Fields (spaced toks) = toks
  | [], _ => rfl
  | t :: toks, h => by
    have ht := h t (List.mem_cons_self _ _)
    have ih := Fields_spaced toks (fun u hu => h u (List.mem_cons_of_mem _ hu))
    have e : spaced (t :: toks) = (t ++ [' ']) ++ spaced toks := by simp [spaced]
    have he : EndsInSpace (t ++ [' ']) := Or.inr ⟨t, ' ', rfl, isSpace_blank⟩
    rw [e, Fields_append _ _ he, ih]
    have : Fields (t ++ [' ']) = [t] := by
      unfold Fields
      rw [Fields_go_field t [' '] [] ht.2, List.nil_append,
        Fields_go_space ' ' [] t isSpace_blank, if_neg ht.1]
      rfl
    rw [this]
    rfl

/-- The function `FieldsN` on fields that single spaces separate from each other and from a
remainder: the result is the fields and the remainder. -/
theorem FieldsN_joined (toks : List Str) (c : Char) (r : Str) (htoks : ∀ t ∈ toks, IsField t)
    (hc : isSpace c = false) :
    FieldsN (Join (toks ++ [c :: r]) [' ']) (toks.length + 1) = (toks ++ [c :: r], none) := by
  rw [Join_append_singleton]
  have hF := Fields_spaced toks htoks
  have hE := spaced_endsInSpace toks
  rcases FieldsN_spec (spaced toks ++ c :: r) (toks.length + 1) (by omega) with
    ⟨_, h⟩ | ⟨pre, c', rest', hs, hc', h1, h2, _, h5⟩
  · exfalso
    rw [Fields_append _ _ hE, hF, List.length_append] at h
    have := List.length_pos.mpr (Fields_cons_ne_nil c r hc)
    push_cast at h
    omega
  · have hp : spaced toks = pre := by
      apply field_start_unique _ _ _ _ _ _ hs hc hc' hE h5
      rw [hF]
      omega
    subst hp
    have hr := List.append_cancel_left hs
    rw [h1, hF, ← hr]


theorem SplitCron_of_FieldsN (s : Str) (toks : List Str) (cmd : Str) (hlen : toks.length = 5)
    (h : FieldsN s 6 = (toks ++ [cmd], none)) :
    SplitCron s false = .ok (RemoveLeadingZeroes (Join toks [' ']), cmd) := by
  unfold SplitCron
  simp only [Bool.false_eq_true, if_false, Nat.cast_ofNat, h]
  have h1 : List.take 5 (toks ++ [cmd]) = toks := by
    rw [← hlen, List.take_left]
  have h2 : (toks ++ [cmd]).getD 5 [] = cmd := by
    rw [← hlen]
    simp [List.getD_eq_getElem?_getD]
  simp only [Nat.add_one_sub_one, h1, h2]

theorem Join_cons_head (c : Char) (tok : Str) (more : List Str) :
    ∃ r, Join ((c :: tok) :: more) [' '] = c :: r := by
  cases more with
  | nil => exact ⟨tok, by rw [Join_singleton]⟩
  | cons b l => exact ⟨tok ++ [' '] ++ Join (b :: l) [' '], by rw [Join_cons_cons]; rfl⟩

/-- C6, as amended: whitespace before the command makes no difference to splitting. For a line
`s = pre ++ command` with at least six fields, `SplitCron(s, false)` returns the first five
fields joined by single spaces (and normalized) and, as the command, the rest of the line from
the sixth field on, verbatim. This is also the result for the line in which single spaces
separate the five fields and that command. The canonical form gives the same schedule, and as
its command the fields of the command joined by single spaces; so the two results agree when the
command is in canonical form itself. -/
theorem SplitCron_whitespace (s : Str) (h6 : 6 ≤ (Fields s).length) :
    ∃ pre command, s = pre ++ command ∧
      SplitCron s false =
        .ok (RemoveLeadingZeroes (Join ((Fields s).take 5) [' ']), command) ∧
      SplitCron (Join ((Fields s).take 5 ++ [command]) [' ']) false = SplitCron s false ∧
      Fields command = (Fields s).drop 5 ∧
      SplitCron (canonical s) false =
        .ok (RemoveLeadingZeroes (Join ((Fields s).take 5) [' ']),
          Join ((Fields s).drop 5) [' ']) ∧
      (command = Join ((Fields s).drop 5) [' '] →
        SplitCron (canonical s) false = SplitCron s false) := by
  obtain ⟨pre, rest, hs, hF, _, htok, hpre, hend, _, c, rest', hr, hc⟩ :=
    FieldsN_fields s 6 (by decide) (by exact_mod_cast h6)
  have h5 : ((6 : Int) - 1).toNat = 5 := by decide
  rw [h5] at hF htok hpre
  have hlen5 : ((Fields s).take 5).length = 5 := by
    rw [List.length_take]; omega
  have hS := SplitCron_of_FieldsN s _ rest hlen5 hF
  have hcmd : Fields rest = (Fields s).drop 5 := by
    have : Fields s = Fields pre ++ Fields rest := by
      conv_lhs => rw [hs]
      exact Fields_append pre rest hend
    have hl : (Fields pre).length = 5 := by rw [hpre]; exact hlen5
    calc Fields rest = List.drop (Fields pre).length (Fields pre ++ Fields rest) :=
          (List.drop_left _ _).symm
      _ = (Fields s).drop 5 := by rw [hl, ← this]
  have hJ : SplitCron (Join ((Fields s).take 5 ++ [rest]) [' ']) false =
      .ok (RemoveLeadingZeroes (Join ((Fields s).take 5) [' ']), rest) := by
    apply SplitCron_of_FieldsN _ _ rest hlen5
    have := FieldsN_joined ((Fields s).take 5) c rest' htok hc
    rw [hlen5, ← hr] at this
    exact this
  have hC : SplitCron (canonical s) false =
      .ok (RemoveLeadingZeroes (Join ((Fields s).take 5) [' ']),
        Join ((Fields s).drop 5) [' ']) := by
    have hdrop : (Fields s).drop 5 ≠ [] := by
      intro h
      have := congrArg List.length h
      rw [List.length_drop, List.length_nil] at this
      omega
    obtain ⟨tok, more, hd⟩ := List.exists_cons_of_ne_nil hdrop
    have htokF : IsField tok :=
      Fields_isField s tok (List.mem_of_mem_drop (by rw [hd]; exact List.mem_cons_self _ _))
    obtain ⟨d, tok', rfl⟩ := List.exists_cons_of_ne_nil htokF.1
    obtain ⟨r, hjr⟩ := Join_cons_head d tok' more
    have hcan : canonical s = Join ((Fields s).take 5 ++ [Join ((Fields s).drop 5) [' ']]) [' '] := by
      unfold canonical
      conv_lhs => rw [← List.take_append_drop 5 (Fields s)]
      exact Join_split _ _ hdrop
    rw [hcan]
    apply SplitCron_of_FieldsN _ _ _ hlen5
    have := FieldsN_joined ((Fields s).take 5) d r htok (htokF.2 d (List.mem_cons_self _ _))
    rw [hlen5, ← hjr, ← hd] at this
    exact this
  refine ⟨pre, rest, hs, hS, hJ.trans hS.symm, hcmd, hC, fun he => ?_⟩
  rw [hC, hS, he]

/-- The witness of `SplitCron_whitespace`: a line with whitespace everywhere. -/
theorem SplitCron_whitespace_witness :
    6 ≤ (Fields "  * *   * * *       hello  world ".toList).length ∧
    ∃ pre command, "  * *   * * *       hello  world ".toList = pre ++ command ∧
      SplitCron "  * *   * * *       hello  world ".toList false =
        .ok (RemoveLeadingZeroes
          (Join ((Fields "  * *   * * *       hello  world ".toList).take 5) [' ']), command) ∧
      SplitCron (Join ((Fields "  * *   * * *       hello  world ".toList).take 5 ++ [command])
        [' ']) false = SplitCron "  * *   * * *       hello  world ".toList false ∧
      Fields command = (Fields "  * *   * * *       hello  world ".toList).drop 5 ∧
      SplitCron (canonical "  * *   * * *       hello  world ".toList) false =
        .ok (RemoveLeadingZeroes
          (Join ((Fields "  * *   * * *       hello  world ".toList).take 5) [' ']),
          Join ((Fields "  * *   * * *       hello  world ".toList).drop 5) [' ']) ∧
      (command = Join ((Fields "  * *   * * *       hello  world ".toList).drop 5) [' '] →
        SplitCron (canonical "  * *   * * *       hello  world ".toList) false =
          SplitCron "  * *   * * *       hello  world ".toList false) :=
  ⟨by decide, SplitCron_whitespace "  * *   * * *       hello  world ".toList (by decide)⟩

/-- C6 as stated fails: the line `* * * * * hello ` with a trailing blank has six fields, and its
canonical form is `* * * * * hello`; `SplitCron` returns the command `hello ` for the line and
the command `hello` for the canonical form. The three lines of the test give the same result. -/
theorem SplitCron_keeps_trailing_whitespace :
    6 ≤ (Fields "* * * * * hello ".toList).length ∧
    canonical "* * * * * hello ".toList = "* * * * * hello".toList ∧
    SplitCron "* * * * * hello ".toList false = .ok ("* * * * *".toList, "hello ".toList) ∧
    SplitCron (canonical "* * * * * hello ".toList) false =
      .ok ("* * * * *".toList, "hello".toList) ∧
    SplitCron "* * * * * hello ".toList false ≠
      SplitCron (canonical "* * * * * hello ".toList) false ∧
    SplitCron "  * *   * * *       hello world".toList false =
      .ok ("* * * * *".toList, "hello world".toList) ∧
    SplitCron "* * * * * hello world".toList false =
      .ok ("* * * * *".toList, "hello world".toList) := by
  decide


/-! ### `RemoveLeadingZeroes` -/

theorem isDigit_zero : isDigit '0' = true := by decide

theorem isWordChar_of_isDigit (c : Char) (h : isDigit c = true) : isWordChar c = true := by
  unfold isDigit at h
  unfold isWordChar
  simp only [Bool.and_eq_true, decide_eq_true_eq] at h
  simp [h.1, h.2]

theorem leadingZerosAt_cons (c : Char) (rest : Str) :
    leadingZerosAt (c :: rest) =
      if c == '0' then
        match leadingZerosAt rest with
        | some (m, after) => some (c :: m, after)
        | none =>
          match rest with
          | d :: after => if isDigit d then some ([c, d], after) else none
          | [] => none
      else none := rfl

theorem normalize_cons (b : Bool) (mode : NumeralMode) (pw : Bool) (c : Char) (rest : Str) :
    normalizeNumerals b mode pw (c :: rest) =
      if isDigit c then
        match mode with
        | .drop => normalizeNumerals b .drop true rest
        | .keep => c :: normalizeNumerals b .keep true rest
        | .outside =>
          if hasLeadingZero ((c :: rest).takeWhile isDigit) && !(b && pw) then
            stripZeros ((c :: rest).takeWhile isDigit) ++ normalizeNumerals b .drop true rest
          else c :: normalizeNumerals b .keep true rest
      else c :: normalizeNumerals b .outside (isWordChar c) rest := by
  cases mode <;> rfl

/-- What a match of `0+[0-9]` looks like: zeros and one more digit, and when that digit is
a zero too, no digit follows the match. -/
theorem leadingZerosAt_spec : ∀ (s m after : Str), leadingZerosAt s = some (m, after) →
    s = m ++ after ∧ ∃ zs d, m = '0' :: zs ++ [d] ∧ (∀ z ∈ zs, z = '0') ∧ isDigit d = true ∧
      (d = '0' → ∀ x r, after = x :: r → isDigit x = false)
  | [], m, after, h => by simp [leadingZerosAt] at h
  | c :: rest, m, after, h => by
    rw [leadingZerosAt_cons] at h
    split at h
    · rename_i hc
      have hc0 : c = '0' := by simpa using hc
      subst hc0
      split at h
      · rename_i m' after' hrec
        simp only [Option.some.injEq, Prod.mk.injEq] at h
        obtain ⟨rfl, rfl⟩ := h
        obtain ⟨hs, zs, d, hm, hz, hd, hx⟩ := leadingZerosAt_spec rest m' after' hrec
        refine ⟨by rw [hs]; rfl, '0' :: zs, d, by rw [hm]; rfl, ?_, hd, hx⟩
        intro z hz'
        rcases List.mem_cons.mp hz' with rfl | hz'
        · rfl
        · exact hz z hz'
      · rename_i hrec
        split at h
        · rename_i d after'
          split at h
          · rename_i hd
            simp only [Option.some.injEq, Prod.mk.injEq] at h
            obtain ⟨rfl, rfl⟩ := h
            refine ⟨rfl, [], d, rfl, fun _ hz => absurd hz (List.not_mem_nil _), hd, ?_⟩
            intro hd0 x r hr
            subst hd0
            subst hr
            rw [leadingZerosAt_cons] at hrec
            simp only [beq_self_eq_true, if_true] at hrec
            split at hrec
            · simp at hrec
            · split at hrec
              · simp at hrec
              · rename_i heq
                simpa using heq
          · simp at h
        · simp at h
    · simp at h

theorem leadingZerosAt_none (c : Char) (rest : Str) (h : leadingZerosAt (c :: rest) = none) :
    hasLeadingZero ((c :: rest).takeWhile isDigit) = false := by
  rw [leadingZerosAt_cons] at h
  split at h
  · rename_i hc
    have hc0 : c = '0' := by simpa using hc
    subst hc0
    split at h
    · simp at h
    · cases rest with
      | nil => rfl
      | cons d after =>
        simp only [] at h
        split at h
        · simp at h
        · rename_i hd
          simp [List.takeWhile_cons, isDigit_zero, hd, hasLeadingZero]
  · rename_i hc
    by_cases hd : isDigit c = true
    · rw [List.takeWhile_cons, if_pos hd]
      cases List.takeWhile isDigit rest with
      | nil => rfl
      | cons a l =>
        simp only [hasLeadingZero]
        simpa using hc
    · rw [List.takeWhile_cons, if_neg hd]
      rfl

theorem replaceAll_skip : ∀ (pre after : Str),
    replaceAllLeadingZeros true pre.length (pre ++ after) = replaceAllLeadingZeros true 0 after
  | [], after => rfl
  | c :: pre, after => by
    rw [List.length_cons, List.cons_append, replaceAllLeadingZeros]
    exact replaceAll_skip pre after

theorem replaceAll_digits : ∀ (ds t : Str), (∀ c ∈ ds, isDigit c = true) →
    replaceAllLeadingZeros true 0 (ds ++ t) = ds ++ replaceAllLeadingZeros true 0 t
  | [], t, _ => rfl
  | c :: ds, t, h => by
    rw [List.cons_append, replaceAllLeadingZeros]
    simp only [if_true]
    rw [isWordChar_of_isDigit c (h c (List.mem_cons_self _ _)),
      replaceAll_digits ds t (fun d hd => h d (List.mem_cons_of_mem _ hd))]
    rfl

theorem normalize_drop_digits (b : Bool) : ∀ (ds t : Str), (∀ c ∈ ds, isDigit c = true) →
    normalizeNumerals b .drop true (ds ++ t) = normalizeNumerals b .drop true t
  | [], t, _ => rfl
  | c :: ds, t, h => by
    rw [List.cons_append, normalize_cons, if_pos (h c (List.mem_cons_self _ _))]
    exact normalize_drop_digits b ds t (fun d hd => h d (List.mem_cons_of_mem _ hd))

theorem normalize_nondigit (b : Bool) (mode : NumeralMode) (pw : Bool) (x : Char) (r : Str)
    (hx : isDigit x = false) :
    normalizeNumerals b mode pw (x :: r) = x :: normalizeNumerals b .outside (isWordChar x) r := by
  rw [normalize_cons, if_neg (by simp [hx])]

theorem normalize_keep_eq_outside (s : Str) :
    normalizeNumerals true .keep true s = normalizeNumerals true .outside true s := by
  cases s with
  | nil => simp [normalizeNumerals]
  | cons c rest =>
    by_cases hc : isDigit c = true
    · rw [normalize_cons, normalize_cons, if_pos hc, if_pos hc]
      simp
    · have hc' : isDigit c = false := by simpa using hc
      rw [normalize_nondigit true _ _ c rest hc', normalize_nondigit true _ _ c rest hc']

theorem dropWhile_head (p : Char → Bool) : ∀ (l : Str) (x : Char) (r : Str),
    l.dropWhile p = x :: r → p x = false
  | [], x, r, h => by simp at h
  | c :: l, x, r, h => by
    rw [List.dropWhile_cons] at h
    split at h
    · exact dropWhile_head p l x r h
    · rename_i hc
      injection h with h1 _
      subst h1
      simpa using hc


theorem replaceAll_cons (pw : Bool) (c : Char) (rest : Str) :
    replaceAllLeadingZeros pw 0 (c :: rest) =
      match (if pw then none else leadingZerosAt (c :: rest)) with
      | some (m, _) => replace m ++ replaceAllLeadingZeros true (m.length - 1) rest
      | none => c :: replaceAllLeadingZeros (isWordChar c) 0 rest := rfl

theorem replaceAll_nomatch (pw : Bool) (c : Char) (rest : Str)
    (h : (if pw then none else leadingZerosAt (c :: rest)) = none) :
    replaceAllLeadingZeros pw 0 (c :: rest) = c :: replaceAllLeadingZeros (isWordChar c) 0 rest := by
  rw [replaceAll_cons, h]

theorem takeWhile_append_all (p : Char → Bool) : ∀ (m l : Str), (∀ c ∈ m, p c = true) →
    (m ++ l).takeWhile p = m ++ l.takeWhile p
  | [], l, _ => rfl
  | c :: m, l, h => by
    rw [List.cons_append, List.takeWhile_cons, if_pos (h c (List.mem_cons_self _ _)),
      takeWhile_append_all p m l (fun d hd => h d (List.mem_cons_of_mem _ hd))]
    rfl

theorem dropWhile_zeros : ∀ (zs t : Str), (∀ z ∈ zs, z = '0') →
    (zs ++ t).dropWhile (fun c => c == '0') = t.dropWhile (fun c => c == '0')
  | [], t, _ => rfl
  | z :: zs, t, h => by
    have hz : z = '0' := h z (List.mem_cons_self _ _)
    subst hz
    rw [List.cons_append, List.dropWhile_cons]
    simp only [beq_self_eq_true, if_true]
    exact dropWhile_zeros zs t (fun d hd => h d (List.mem_cons_of_mem _ hd))

/-- The replacement of a match, followed by the digits after it, is the stripped numeral. -/
theorem stripZeros_match (zs : Str) (d : Char) (ta : Str) (hz : ∀ z ∈ zs, z = '0')
    (hd : d = '0' → ta = []) :
    stripZeros ('0' :: zs ++ [d] ++ ta) = replace ('0' :: zs ++ [d]) ++ ta := by
  have hz' : ∀ z ∈ '0' :: zs, z = '0' := by
    intro z hz1
    rcases List.mem_cons.mp hz1 with rfl | h
    · rfl
    · exact hz z h
  unfold stripZeros replace TrimLeftZero
  have e1 : ('0' :: zs ++ [d] ++ ta).dropWhile (fun c => c == '0') =
      (d :: ta).dropWhile (fun c => c == '0') := by
    have := dropWhile_zeros ('0' :: zs) (d :: ta) hz'
    simpa using this
  have e2 : ('0' :: zs ++ [d]).dropWhile (fun c => c == '0') =
      [d].dropWhile (fun c => c == '0') := by
    have := dropWhile_zeros ('0' :: zs) [d] hz'
    simpa using this
  simp only [e1, e2]
  by_cases hd0 : d = '0'
  · rw [hd hd0, hd0]
    simp
  · have hb : (d == '0') = false := by simpa using hd0
    simp [List.dropWhile_cons, hb]

/-- The code of `RemoveLeadingZeroes` computes the normalization of the numerals that stand at
a word boundary. -/
theorem replaceAll_eq_normalize : ∀ (n : Nat) (s : Str) (pw : Bool), s.length ≤ n →
    replaceAllLeadingZeros pw 0 s = normalizeNumerals true .outside pw s
  | _, [], _, _ => by cases ‹Bool› <;> rfl
  | 0, c :: rest, _, h => by simp at h
  | n + 1, c :: rest, pw, h => by
    have hlen : rest.length ≤ n := by simpa using h
    have ih := replaceAll_eq_normalize n
    -- the case without a match at this place
    have hno : (if pw then none else leadingZerosAt (c :: rest)) = none →
        replaceAllLeadingZeros pw 0 (c :: rest) =
          normalizeNumerals true .outside pw (c :: rest) := by
      intro hnone
      rw [replaceAll_nomatch pw c rest hnone, normalize_cons]
      by_cases hc : isDigit c = true
      · have hcond : (hasLeadingZero ((c :: rest).takeWhile isDigit) && !(true && pw)) = false := by
          cases pw with
          | true => simp
          | false =>
            simp only [Bool.false_eq_true, if_false] at hnone
            rw [leadingZerosAt_none c rest hnone]
            rfl
        rw [if_pos hc]
        simp only [hcond, Bool.false_eq_true, if_false]
        rw [isWordChar_of_isDigit c hc, normalize_keep_eq_outside, ih rest true hlen]
      · rw [if_neg hc, ih rest _ hlen]
    cases hm : (if pw then none else leadingZerosAt (c :: rest)) with
    | none => exact hno hm
    | some ma =>
      obtain ⟨m, after⟩ := ma
      have hpw : pw = false := by
        cases pw with
        | true => simp at hm
        | false => rfl
      subst hpw
      simp only [Bool.false_eq_true, if_false] at hm
      obtain ⟨hs, zs, d, hmz, hz, hd, hx⟩ := leadingZerosAt_spec (c :: rest) m after hm
      subst hmz
      rw [List.cons_append, List.cons_append] at hs
      injection hs with hc hrest
      subst hc
      -- the digits after the match, and what follows the numeral
      have hsplit : after = after.takeWhile isDigit ++ after.dropWhile isDigit :=
        (List.takeWhile_append_dropWhile isDigit after).symm
      generalize hta : after.takeWhile isDigit = ta at hsplit
      generalize haf : after.dropWhile isDigit = after' at hsplit
      have htad : ∀ x ∈ ta, isDigit x = true := by
        intro x hx'
        rw [← hta] at hx'
        exact List.mem_takeWhile_imp hx'
      have hzd : ∀ x ∈ zs ++ [d], isDigit x = true := by
        intro x hx'
        rw [List.mem_append, List.mem_singleton] at hx'
        rcases hx' with hx' | rfl
        · rw [hz x hx']; exact isDigit_zero
        · exact hd
      have hd0 : d = '0' → ta = [] := by
        intro h0
        cases hafter : after with
        | nil => rw [← hta, hafter]; rfl
        | cons x r =>
          have := hx h0 x r hafter
          rw [← hta, hafter, List.takeWhile_cons, if_neg (by simp [this])]
      -- the code
      have hcode : replaceAllLeadingZeros false 0 ('0' :: rest) =
          replace ('0' :: zs ++ [d]) ++ ta ++ replaceAllLeadingZeros true 0 after' := by
        rw [replaceAll_cons]
        simp only [Bool.false_eq_true, if_false, hm]
        have hl : ('0' :: zs ++ [d]).length - 1 = (zs ++ [d]).length := by simp
        rw [hl, hrest, List.append_assoc zs [d] after, ← List.append_assoc zs [d] after,
          replaceAll_skip, hsplit, replaceAll_digits ta after' htad, List.append_assoc]
      -- the specification
      have hnum : ('0' :: rest).takeWhile isDigit = '0' :: zs ++ [d] ++ ta := by
        rw [hrest, hsplit, ← List.append_assoc, ← List.cons_append, ← List.cons_append,
          takeWhile_append_all isDigit ('0' :: (zs ++ [d]) ++ ta) after' (by
            intro x hx'
            rw [List.mem_append] at hx'
            rcases hx' with hx' | hx'
            · rcases List.mem_cons.mp hx' with rfl | hx'
              · exact isDigit_zero
              · exact hzd x hx'
            · exact htad x hx')]
        have : after'.takeWhile isDigit = [] := by
          cases haf' : after' with
          | nil => rfl
          | cons x r =>
            have := dropWhile_head isDigit after x r (by rw [haf, haf'])
            rw [List.takeWhile_cons, if_neg (by simp [this])]
        rw [this, List.append_nil]
        simp
      have hlead : hasLeadingZero ('0' :: zs ++ [d] ++ ta) = true := by
        cases zs with
        | nil => rfl
        | cons z zs' => rfl
      have hspec : normalizeNumerals true .outside false ('0' :: rest) =
          replace ('0' :: zs ++ [d]) ++ ta ++ normalizeNumerals true .drop true after' := by
        rw [normalize_cons, if_pos isDigit_zero]
        simp only [hnum, hlead, Bool.and_false, Bool.not_false, Bool.and_self, if_true]
        rw [stripZeros_match zs d ta hz hd0]
        congr 1
        rw [hrest, hsplit, ← List.append_assoc]
        exact normalize_drop_digits true (zs ++ [d] ++ ta) after' (by
          intro x hx'
          rw [List.mem_append] at hx'
          rcases hx' with hx' | hx'
          · exact hzd x hx'
          · exact htad x hx')
      rw [hcode, hspec]
      congr 1
      -- after the numeral
      cases haf' : after' with
      | nil => rfl
      | cons x r =>
        have hxd := dropWhile_head isDigit after x r (by rw [haf, haf'])
        have hrlen : r.length ≤ n := by
          have e : rest.length = (zs ++ [d]).length + (ta.length + (r.length + 1)) := by
            rw [hrest, hsplit, haf']
            simp only [List.length_append, List.length_cons]
          omega
        rw [replaceAll_nomatch true x r rfl, normalize_nondigit true _ _ x r hxd, ih r _ hrlen]

/-- The function `RemoveLeadingZeroes` is the normalization of the numerals at a word boundary. -/
theorem RemoveLeadingZeroes_eq (s : Str) :
    RemoveLeadingZeroes s = normalizeNumerals true .outside false s :=
  replaceAll_eq_normalize s.length s false (le_refl _)


/-- C9, as amended: `RemoveLeadingZeroes` replaces every numeral (maximal run of decimal
digits) that has a leading zero followed by another digit and does not come right after a letter
or an underscore by the numeral with its leading zeros stripped, down to a single `0` when the
numeral is all zeros, and changes nothing else; and `SplitCron("00 01 * * * test", false)`
returns the schedule `0 1 * * *` and the command `test`. -/
theorem RemoveLeadingZeroes_normalizes (s : Str) :
    RemoveLeadingZeroes s = normalizeNumerals true .outside false s ∧
    SplitCron "00 01 * * * test".toList false = .ok ("0 1 * * *".toList, "test".toList) :=
  ⟨RemoveLeadingZeroes_eq s, by decide⟩

/-- C9 as stated fails: in `a01` the numeral `01` has a leading zero followed by another digit,
and `RemoveLeadingZeroes` leaves it, because the pattern asks for a word boundary before the
zeros; the normalization of every numeral would give `a1`. -/
theorem RemoveLeadingZeroes_keeps_numeral_after_letter :
    RemoveLeadingZeroes "a01".toList = "a01".toList ∧
    normalizeNumerals false .outside false "a01".toList = "a1".toList ∧
    RemoveLeadingZeroes "a01".toList ≠ normalizeNumerals false .outside false "a01".toList ∧
    RemoveLeadingZeroes "x_007 */05".toList = "x_007 */5".toList := by
  decide

/-! ### `ParseCron` and the environment -/

theorem ParseCronLine_env (Parse : ParseFn) (envRef : Ptr) (env : Env) (filename line : Str) :
    (ParseCronLine Parse envRef env filename line).2 =
      match assigns line with
      | some (left, right) => env.set left right
      | none => env := by
  unfold ParseCronLine assigns
  split
  · rfl
  · split
    · rfl
    · rename_i hnone
      simp only [hnone]
      split
      · rfl
      · split <;> rfl

theorem ParseCron_loop_env (Parse : ParseFn) (envRef : Ptr) (filename : Str) :
    ∀ (input : List Str) (env : Env) (result : List Job),
      (ParseCron.loop Parse envRef filename input env result).2 = applyAssignments input env
  | [], _, _ => rfl
  | line :: rest, env, result => by
    rw [ParseCron.loop, applyAssignments]
    have he := ParseCronLine_env Parse envRef env filename line
    split
    · rw [ParseCron_loop_env Parse envRef filename rest, he]
      split <;> rfl
    · rw [ParseCron_loop_env Parse envRef filename rest, he]
      split <;> rfl

theorem applyAssignments_append : ∀ (l1 l2 : List Str) (env : Env),
    applyAssignments (l1 ++ l2) env = applyAssignments l2 (applyAssignments l1 env)
  | [], _, _ => rfl
  | line :: l1, l2, env => by
    rw [List.cons_append, applyAssignments, applyAssignments]
    split <;> exact applyAssignments_append l1 l2 _

theorem applyAssignments_other (name : Str) : ∀ (lines : List Str) (env : Env),
    (∀ line ∈ lines, ∀ value, assigns line ≠ some (name, value)) →
    applyAssignments lines env name = env name
  | [], _, _ => rfl
  | line :: rest, env, h => by
    rw [applyAssignments]
    have hrest : ∀ l ∈ rest, ∀ value, assigns l ≠ some (name, value) :=
      fun l hl => h l (List.mem_cons_of_mem _ hl)
    cases heq : assigns line with
    | none => exact applyAssignments_other name rest env hrest
    | some lr =>
      obtain ⟨left, right⟩ := lr
      show applyAssignments rest (env.set left right) name = env name
      rw [applyAssignments_other name rest _ hrest]
      unfold Env.set
      have : name ≠ left := by
        intro hn
        subst hn
        exact h line (List.mem_cons_self _ _) right heq
      rw [if_neg this]

theorem applyAssignments_bound (name : Str) : ∀ (lines : List Str) (env : Env),
    env name ≠ none → applyAssignments lines env name ≠ none
  | [], _, h => h
  | line :: rest, env, h => by
    rw [applyAssignments]
    cases heq : assigns line with
    | none => exact applyAssignments_bound name rest env h
    | some lr =>
      obtain ⟨left, right⟩ := lr
      show applyAssignments rest (env.set left right) name ≠ none
      apply applyAssignments_bound name rest
      unfold Env.set
      split
      · simp
      · exact h

/-- C10, as amended: every Job that `ParseCron` returns holds the one mapping of the file by
reference. For a crontab in which a schedule line comes before an assignment line
`NAME=VALUE`, with `NAME` not assigned on any earlier line, the mapping does not have `NAME`
while the schedule line is parsed; but when `ParseCron` has returned, the environment of every
Job of the result has `NAME`, bound to `VALUE` when no later line assigns `NAME` again. -/
theorem ParseCron_environment_shared (Parse : ParseFn) (envRef : Ptr) (filename : Str)
    (before mid after : List Str) (schedule assign name value : Str)
    (hbefore : ∀ line ∈ before, ∀ v, assigns line ≠ some (name, v))
    (hassign : assigns assign = some (name, value)) :
    applyAssignments before (fun _ => none) name = none ∧
    (ParseCron.loop Parse envRef filename before (fun _ => none) []).2 name = none ∧
    (∀ job ∈ (ParseCron Parse envRef filename
        (before ++ schedule :: mid ++ assign :: after)).1,
      job.environment = envRef ∧
      job.env (envMemAfter envRef (ParseCron Parse envRef filename
        (before ++ schedule :: mid ++ assign :: after))) name ≠ none ∧
      ((∀ line ∈ after, ∀ v, assigns line ≠ some (name, v)) →
        job.env (envMemAfter envRef (ParseCron Parse envRef filename
          (before ++ schedule :: mid ++ assign :: after))) name = some value)) := by
  have h1 : applyAssignments before (fun _ => none) name = none :=
    applyAssignments_other name before _ hbefore
  refine ⟨h1, by rw [ParseCron_loop_env]; exact h1, fun job hjob => ?_⟩
  have hj : job.environment = envRef :=
    ParseCron_loop_jobs Parse envRef filename (fun j => j.environment = envRef)
      (fun env line j h => (ParseCronLine_job Parse envRef env filename line j h).2.1)
      _ _ [] (fun _ h => absurd h (List.not_mem_nil _)) job hjob
  have henv : job.env (envMemAfter envRef (ParseCron Parse envRef filename
        (before ++ schedule :: mid ++ assign :: after))) =
      applyAssignments after ((applyAssignments (before ++ schedule :: mid)
        (fun _ => none)).set name value) := by
    unfold Job.env envMemAfter
    rw [hj, if_pos rfl]
    unfold ParseCron
    rw [ParseCron_loop_env]
    have e : before ++ schedule :: mid ++ assign :: after =
        (before ++ schedule :: mid) ++ (assign :: after) := by simp
    rw [e, applyAssignments_append]
    conv_lhs => rw [applyAssignments, hassign]
  refine ⟨hj, ?_, ?_⟩
  · rw [henv]
    apply applyAssignments_bound
    unfold Env.set
    rw [if_pos rfl]
    simp
  · intro hafter
    rw [henv, applyAssignments_other name after _ hafter]
    unfold Env.set
    rw [if_pos rfl]


/-- The witness of `ParseCron_environment_shared`: a schedule line, then `A=1`. -/
theorem ParseCron_environment_shared_witness :
    ((∀ line ∈ ([] : List Str), ∀ v, assigns line ≠ some (['A'], v)) ∧
      assigns "A=1".toList = some (['A'], ['1'])) ∧
    (applyAssignments [] (fun _ => none) ['A'] = none ∧
    (ParseCron.loop everyMinute 0 ['f'] [] (fun _ => none) []).2 ['A'] = none ∧
    (∀ job ∈ (ParseCron everyMinute 0 ['f']
        ([] ++ "* * * * * cmd".toList :: [] ++ "A=1".toList :: [])).1,
      job.environment = 0 ∧
      job.env (envMemAfter 0 (ParseCron everyMinute 0 ['f']
        ([] ++ "* * * * * cmd".toList :: [] ++ "A=1".toList :: []))) ['A'] ≠ none ∧
      ((∀ line ∈ ([] : List Str), ∀ v, assigns line ≠ some (['A'], v)) →
        job.env (envMemAfter 0 (ParseCron everyMinute 0 ['f']
          ([] ++ "* * * * * cmd".toList :: [] ++ "A=1".toList :: []))) ['A'] = some ['1']))) :=
  ⟨⟨fun _ h => absurd h (List.not_mem_nil _), by decide⟩,
    ParseCron_environment_shared everyMinute 0 ['f'] [] [] [] "* * * * * cmd".toList
      "A=1".toList ['A'] ['1'] (fun _ h => absurd h (List.not_mem_nil _)) (by decide)⟩

/-- C10 as stated fails: for the crontab `scheduleThenAssignment` the schedule line comes before
the assignment `A=1`, and `A` is assigned on no earlier line; `ParseCron` returns one Job, for
the schedule line, and when it has returned the environment of this Job has `A`, bound to `1`. -/
theorem ParseCron_later_assignment_reaches_job :
    assigns "A=1".toList = some (['A'], ['1']) ∧
    ((ParseCron everyMinute 0 ['f'] scheduleThenAssignment).1.map (fun job => job.script)) =
      ["cmd".toList] ∧
    (∀ job ∈ (ParseCron everyMinute 0 ['f'] scheduleThenAssignment).1,
      job.env (envMemAfter 0 (ParseCron everyMinute 0 ['f'] scheduleThenAssignment)) ['A'] =
        some ['1']) ∧
    ¬ (∀ job ∈ (ParseCron everyMinute 0 ['f'] scheduleThenAssignment).1,
      job.env (envMemAfter 0 (ParseCron everyMinute 0 ['f'] scheduleThenAssignment)) ['A'] =
        none) := by
  have hall : ∀ job ∈ (ParseCron everyMinute 0 ['f'] scheduleThenAssignment).1,
      job.env (envMemAfter 0 (ParseCron everyMinute 0 ['f'] scheduleThenAssignment)) ['A'] =
        some ['1'] := by
    intro job hjob
    have hj : job.environment = 0 :=
      ParseCron_loop_jobs everyMinute 0 ['f'] (fun j => j.environment = 0)
        (fun env line j h => (ParseCronLine_job everyMinute 0 env ['f'] line j h).2.1)
        _ _ [] (fun _ h => absurd h (List.not_mem_nil _)) job hjob
    unfold Job.env envMemAfter
    rw [hj, if_pos rfl]
    decide
  refine ⟨by decide, by decide, hall, fun hnone => ?_⟩
  have hlen : ((ParseCron everyMinute 0 ['f'] scheduleThenAssignment).1.map
      (fun job => job.script)) = ["cmd".toList] := by decide
  cases hres : (ParseCron everyMinute 0 ['f'] scheduleThenAssignment).1 with
  | nil => rw [hres] at hlen; simp at hlen
  | cons job rest =>
    have hin : job ∈ (ParseCron everyMinute 0 ['f'] scheduleThenAssignment).1 := by
      rw [hres]; exact List.mem_cons_self _ _
    have h1 := hall job hin
    have h2 := hnone job hin
    rw [h1] at h2
    simp at h2

/-! ### The step bounds of the loops of `container/heap` are enough

The loops of `up` and `down` are written with a bound on the number of rounds. The
following equations are those of the loops of `container/heap` themselves: the bound is
never what stops them. -/

theorem up_loop_bound : ∀ (fuel1 fuel2 : Nat) (h : Jobs) (j : Nat), j ≤ fuel1 → j ≤ fuel2 →
    heap.up.loop fuel1 h j = heap.up.loop fuel2 h j
  | 0, 0, _, _, _, _ => rfl
  | 0, m + 1, h, j, h1, _ => by
    have hj : j = 0 := by omega
    subst hj
    rw [up_loop_succ, if_pos (Or.inl rfl)]
    rfl
  | n + 1, 0, h, j, _, h2 => by
    have hj : j = 0 := by omega
    subst hj
    rw [up_loop_succ, if_pos (Or.inl rfl)]
    rfl
  | n + 1, m + 1, h, j, h1, h2 => by
    rw [up_loop_succ, up_loop_succ]
    split
    · rfl
    · rename_i hb
      have hlt : (j - 1) / 2 < j := by
        have : (j - 1) / 2 ≠ j := fun he => hb (Or.inl he)
        omega
      exact up_loop_bound n m _ _ (by omega) (by omega)

/-- The function `up` satisfies the equation of the loop of `up` in `container/heap`. -/
theorem heap_up_unfold (h : Jobs) (j : Nat) :
    heap.up h j =
      if (j - 1) / 2 = j ∨ ¬ h.Less j ((j - 1) / 2) then h
      else heap.up (h.Swap ((j - 1) / 2) j) ((j - 1) / 2) := by
  unfold heap.up
  cases j with
  | zero => simp [heap.up.loop]
  | succ k =>
    rw [up_loop_succ]
    split
    · rfl
    · exact up_loop_bound k _ _ _ (by omega) (le_refl _)

theorem down_loop_bound : ∀ (fuel1 fuel2 : Nat) (h : Jobs) (i n : Nat), n - i ≤ fuel1 →
    n - i ≤ fuel2 → heap.down.loop fuel1 h i n = heap.down.loop fuel2 h i n
  | 0, 0, _, _, _, _, _ => rfl
  | 0, m + 1, h, i, n, h1, _ => by
    rw [down_loop_succ, if_pos (by omega)]
    rfl
  | k + 1, 0, h, i, n, _, h2 => by
    rw [down_loop_succ, if_pos (by omega)]
    rfl
  | k + 1, m + 1, h, i, n, h1, h2 => by
    rw [down_loop_succ, down_loop_succ]
    split
    · rfl
    · rename_i hj1
      split
      · rfl
      · have hc := (downChild_cases h i n (by omega)).1
        exact down_loop_bound k m _ _ n (by omega) (by omega)

/-- The loop of `down` satisfies the equation of the loop of `down` in `container/heap`. -/
theorem heap_down_unfold (h : Jobs) (i n : Nat) :
    heap.down.loop n h i n =
      if 2 * i + 1 ≥ n then (h, i)
      else if ¬ h.Less (downChild h i n) i then (h, i)
      else heap.down.loop n (h.Swap i (downChild h i n)) (downChild h i n) n := by
  cases n with
  | zero => simp [heap.down.loop]
  | succ k =>
    rw [down_loop_succ]
    split
    · rfl
    · rename_i hj1
      split
      · rfl
      · have hc := (downChild_cases h i (k + 1) (by omega)).1
        exact down_loop_bound k (k + 1) _ _ (k + 1) (by omega) (by omega)


/-! ### The classification of lines by `ParseCronLine` -/

theorem isReSpace_cases (c : Char) (h : isReSpace c = true) :
    c = '\t' ∨ c = '\n' ∨ c = Char.ofNat 12 ∨ c = '\r' ∨ c = ' ' := by
  unfold isReSpace at h
  simp only [Bool.or_eq_true, beq_iff_eq] at h
  tauto

theorem isReSpace_not_word (c : Char) (h : isReSpace c = true) : isWordChar c = false := by
  rcases isReSpace_cases c h with rfl | rfl | rfl | rfl | rfl <;> decide

theorem takeWhile_stop (p : Char → Bool) : ∀ (a b : Str), (∀ c ∈ a, p c = true) →
    (∀ c rest, b = c :: rest → p c = false) →
    (a ++ b).takeWhile p = a ∧ (a ++ b).dropWhile p = b
  | [], [], _, _ => ⟨rfl, rfl⟩
  | [], c :: rest, _, hb => by
    have := hb c rest rfl
    simp [List.takeWhile_cons, List.dropWhile_cons, this]
  | c :: a, b, ha, hb => by
    have hc := ha c (List.mem_cons_self _ _)
    obtain ⟨h1, h2⟩ := takeWhile_stop p a b (fun d hd => ha d (List.mem_cons_of_mem _ hd)) hb
    rw [List.cons_append, List.takeWhile_cons, List.dropWhile_cons, if_pos hc, if_pos hc, h1, h2]
    exact ⟨rfl, rfl⟩

theorem blank_line_iff (line : Str) : blank_line line = true ↔ IsBlank line := by
  unfold blank_line IsBlank
  rw [List.all_eq_true]

theorem starts_with_hash_iff (line : Str) : starts_with_hash line = true ↔ IsComment line := by
  unfold starts_with_hash IsComment firstNonSpace
  cases line.dropWhile isReSpace with
  | nil => simp
  | cons c rest => simp

theorem starts_with_at_iff (line : Str) :
    starts_with_at line = true ↔ firstNonSpace line = some '@' := by
  unfold starts_with_at firstNonSpace
  cases line.dropWhile isReSpace with
  | nil => simp
  | cons c rest => simp

/-- The regular expression `assignment` matches exactly the lines of the form `NAME=VALUE`,
and its groups are the name and the value. -/
theorem assignment_iff (line name value : Str) :
    assignment line = some (name, value) ↔ AssignmentForm line name value := by
  constructor
  · intro h
    unfold assignment at h
    simp only [] at h
    split at h
    · simp at h
    · rename_i hne
      split at h
      · rename_i c rest hd
        split at h
        · rename_i hc
          have hc' : c = '=' := by simpa using hc
          subst hc'
          split at h
          · rename_i hall
            simp only [Option.some.injEq, Prod.mk.injEq] at h
            obtain ⟨rfl, rfl⟩ := h
            refine ⟨(line.dropWhile isWordChar).takeWhile isReSpace, rest.takeWhile isReSpace,
              ?_, hne, ?_, ?_, ?_, ?_, ?_⟩
            · have e1 := (List.takeWhile_append_dropWhile isWordChar line).symm
              have e2 := (List.takeWhile_append_dropWhile isReSpace
                (line.dropWhile isWordChar)).symm
              have e3 := (List.takeWhile_append_dropWhile isReSpace rest).symm
              rw [hd] at e2
              conv_lhs => rw [e1, e2]
              conv_lhs => rw [e3]
              simp
            · intro c hc
              exact List.mem_takeWhile_imp hc
            · intro c hc
              exact List.mem_takeWhile_imp hc
            · intro c hc
              exact List.mem_takeWhile_imp hc
            · intro c hc
              rw [List.all_eq_true] at hall
              have := hall c hc
              simpa using this
            · intro c r hcr
              exact dropWhile_head isReSpace rest c r hcr
          · simp at h
        · simp at h
      · simp at h
  · rintro ⟨ws1, ws2, hl, hne, hname, hws1, hws2, hval, hhead⟩
    have h1 := takeWhile_stop isWordChar name (ws1 ++ '=' :: ws2 ++ value) hname (by
      intro c rest hcr
      cases ws1 with
      | nil =>
        simp only [List.nil_append, List.cons_append] at hcr
        injection hcr with hc _
        subst hc
        decide
      | cons w ws =>
        simp only [List.cons_append] at hcr
        injection hcr with hc _
        subst hc
        exact isReSpace_not_word _ (hws1 _ (List.mem_cons_self _ _)))
    have h2 := takeWhile_stop isReSpace ws1 ('=' :: ws2 ++ value) hws1 (by
      intro c rest hcr
      simp only [List.cons_append] at hcr
      injection hcr with hc _
      subst hc
      decide)
    have h3 := takeWhile_stop isReSpace ws2 value hws2 hhead
    have hl' : line = name ++ (ws1 ++ '=' :: ws2 ++ value) := by
      rw [hl]; simp
    unfold assignment
    simp only []
    rw [hl', h1.1, h1.2, if_neg hne]
    have h2' : (ws1 ++ '=' :: ws2 ++ value).dropWhile isReSpace = '=' :: (ws2 ++ value) := by
      have := h2.2
      simpa using this
    rw [h2']
    simp only [beq_self_eq_true, if_true]
    rw [h3.2]
    have hall : value.all (fun d => d != '\n') = true := by
      rw [List.all_eq_true]
      intro c hc
      simpa using hval c hc
    rw [if_pos hall]


theorem ParseCronLine_skip (Parse : ParseFn) (envRef : Ptr) (env : Env) (filename line : Str)
    (h : (starts_with_hash line || blank_line line) = true) :
    ParseCronLine Parse envRef env filename line = ((none, none), env) := by
  unfold ParseCronLine
  rw [if_pos h]

/-- C12, as amended: for every environment and every line that is blank (empty or only of
characters of the class `\s`: tab, newline, form feed, carriage return and space) or whose
first character outside of that class is `#`, `ParseCronLine` returns no job and no error and
leaves the environment as it is. -/
theorem ParseCronLine_blank_or_comment (Parse : ParseFn) (envRef : Ptr) (env : Env)
    (filename line : Str) (h : IsBlank line ∨ IsComment line) :
    ParseCronLine Parse envRef env filename line = ((none, none), env) := by
  apply ParseCronLine_skip
  rcases h with h | h
  · rw [(blank_line_iff line).mpr h, Bool.or_true]
  · rw [(starts_with_hash_iff line).mpr h, Bool.true_or]

/-- The witness of `ParseCronLine_blank_or_comment`: the comment line of the test. -/
theorem ParseCronLine_blank_or_comment_witness :
    (IsBlank "# hello world".toList ∨ IsComment "# hello world".toList) ∧
    ParseCronLine everyMinute 0 (fun _ => none) "TestParseCronLine".toList "# hello world".toList =
      ((none, none), fun _ => none) :=
  ⟨Or.inr ((starts_with_hash_iff _).mp (by decide)),
    ParseCronLine_blank_or_comment everyMinute 0 (fun _ => none) "TestParseCronLine".toList
      "# hello world".toList (Or.inr ((starts_with_hash_iff _).mp (by decide)))⟩

theorem assignmentForm_not_skipped (line name value : Str) (h : AssignmentForm line name value) :
    (starts_with_hash line || blank_line line) = false := by
  obtain ⟨ws1, ws2, hl, hne, hname, _⟩ := h
  obtain ⟨c, name', rfl⟩ := List.exists_cons_of_ne_nil hne
  have hw : isWordChar c = true := hname c (List.mem_cons_self _ _)
  have hs : isReSpace c = false := by
    cases hsp : isReSpace c with
    | false => rfl
    | true =>
      have := isReSpace_not_word c hsp
      rw [hw] at this
      exact absurd this (by decide)
  have hl' : line = c :: (name' ++ ws1 ++ '=' :: ws2 ++ value) := by rw [hl]; simp
  have hhash : c ≠ '#' := by
    intro he
    subst he
    exact absurd hw (by decide)
  rw [hl']
  simp [starts_with_hash, blank_line, List.dropWhile_cons, hs, hhash]

theorem ParseCronLine_assign (Parse : ParseFn) (envRef : Ptr) (env : Env) (filename line : Str)
    (name value : Str) (h : AssignmentForm line name value) :
    ParseCronLine Parse envRef env filename line = ((none, none), env.set name value) := by
  unfold ParseCronLine
  rw [assignmentForm_not_skipped line name value h, (assignment_iff line name value).mpr h]
  rfl

/-- A line of which `ParseCronLine` makes a job leaves the environment as it is. -/
theorem ParseCronLine_job_env (Parse : ParseFn) (envRef : Ptr) (env : Env) (filename line : Str)
    (job : Job) (h : (ParseCronLine Parse envRef env filename line).1.1 = some job) :
    (ParseCronLine Parse envRef env filename line).2 = env := by
  unfold ParseCronLine at h ⊢
  split
  · rfl
  · rename_i hskip
    rw [if_neg hskip] at h
    split
    · rename_i heq
      rw [heq] at h
      simp at h
    · dsimp only
      split
      · rfl
      · split <;> rfl

/-- C11: for every environment and every line of the form `NAME=VALUE`, `ParseCronLine` returns
no job and no error and sets `env[NAME] = VALUE`, leaving every other key as it is; and a
schedule line that is parsed afterwards with the same environment gives a Job whose
environment maps `NAME` to `VALUE`. -/
theorem ParseCronLine_assignment (Parse : ParseFn) (envRef : Ptr) (env : Env)
    (filename line name value : Str) (h : AssignmentForm line name value) :
    (ParseCronLine Parse envRef env filename line).1 = (none, none) ∧
    (ParseCronLine Parse envRef env filename line).2 name = some value ∧
    (∀ key, key ≠ name → (ParseCronLine Parse envRef env filename line).2 key = env key) ∧
    (∀ schedule job,
      (ParseCronLine Parse envRef (ParseCronLine Parse envRef env filename line).2 filename
        schedule).1.1 = some job →
      job.env (envMemWith envRef
        (ParseCronLine Parse envRef (ParseCronLine Parse envRef env filename line).2 filename
          schedule).2) name = some value) := by
  rw [ParseCronLine_assign Parse envRef env filename line name value h]
  have hset : env.set name value name = some value := by
    unfold Env.set; rw [if_pos rfl]
  refine ⟨rfl, hset, ?_, ?_⟩
  · intro key hk
    show env.set name value key = env key
    unfold Env.set; rw [if_neg hk]
  · intro schedule job hjob
    have hj := (ParseCronLine_job Parse envRef _ filename schedule job hjob).2.1
    have he := ParseCronLine_job_env Parse envRef _ filename schedule job hjob
    unfold Job.env envMemWith
    rw [hj, if_pos rfl, he]
    exact hset

/-- The witness of `ParseCronLine_assignment`: the assignment line of the test. -/
theorem ParseCronLine_assignment_witness :
    AssignmentForm "ASSIGN=a/value".toList "ASSIGN".toList "a/value".toList ∧
    ((ParseCronLine everyMinute 0 (fun _ => none) ['f'] "ASSIGN=a/value".toList).1 = (none, none) ∧
    (ParseCronLine everyMinute 0 (fun _ => none) ['f'] "ASSIGN=a/value".toList).2
      "ASSIGN".toList = some "a/value".toList ∧
    (∀ key, key ≠ "ASSIGN".toList →
      (ParseCronLine everyMinute 0 (fun _ => none) ['f'] "ASSIGN=a/value".toList).2 key =
        (fun _ => none) key) ∧
    (∀ schedule job,
      (ParseCronLine everyMinute 0
        (ParseCronLine everyMinute 0 (fun _ => none) ['f'] "ASSIGN=a/value".toList).2 ['f']
        schedule).1.1 = some job →
      job.env (envMemWith 0
        (ParseCronLine everyMinute 0
          (ParseCronLine everyMinute 0 (fun _ => none) ['f'] "ASSIGN=a/value".toList).2 ['f']
          schedule).2) "ASSIGN".toList = some "a/value".toList)) :=
  ⟨(assignment_iff _ _ _).mp (by decide),
    ParseCronLine_assignment everyMinute 0 (fun _ => none) ['f'] "ASSIGN=a/value".toList
      "ASSIGN".toList "a/value".toList ((assignment_iff _ _ _).mp (by decide))⟩


theorem SplitCron_error (s : Str) (at_ : Bool) (e : Error)
    (h : (FieldsN s ((if at_ then 2 else 6 : Nat) : Int)).2 = some e) :
    SplitCron s at_ = .error e := by
  unfold SplitCron
  dsimp only
  generalize FieldsN s ((if at_ then 2 else 6 : Nat) : Int) = r at h
  obtain ⟨fields, err⟩ := r
  dsimp only at h
  subst h
  rfl

theorem SplitCron_fields (s : Str) (at_ : Bool) (toks : List Str) (cmd : Str)
    (hlen : toks.length = (if at_ then 2 else 6) - 1)
    (h : FieldsN s ((if at_ then 2 else 6 : Nat) : Int) = (toks ++ [cmd], none)) :
    SplitCron s at_ = .ok (RemoveLeadingZeroes (Join toks [' ']), cmd) := by
  unfold SplitCron
  dsimp only
  rw [h]
  dsimp only
  have h1 : List.take ((if at_ then 2 else 6) - 1) (toks ++ [cmd]) = toks := by
    rw [← hlen, List.take_left]
  have h2 : (toks ++ [cmd]).getD ((if at_ then 2 else 6) - 1) [] = cmd := by
    rw [← hlen]
    simp [List.getD_eq_getElem?_getD]
  rw [h1, h2]

theorem not_isAssignment (line : Str) (h : ¬ IsAssignment line) : assignment line = none := by
  cases ha : assignment line with
  | none => rfl
  | some p =>
    obtain ⟨name, value⟩ := p
    exact absurd ⟨name, value, (assignment_iff line name value).mp ha⟩ h

theorem isAssignment_of_some (line : Str) (h : IsAssignment line) : assignment line ≠ none := by
  obtain ⟨name, value, hf⟩ := h
  rw [(assignment_iff line name value).mpr hf]
  exact Option.some_ne_none _

theorem fieldCount_eq (line : Str) :
    fieldCount line = if starts_with_at line then 2 else 6 := by
  unfold fieldCount
  by_cases h : starts_with_at line = true
  · rw [if_pos h, if_pos ((starts_with_at_iff line).mp h)]
  · rw [if_neg h, if_neg (fun h' => h ((starts_with_at_iff line).mpr h'))]

theorem fieldCount_pos (line : Str) : 1 ≤ fieldCount line := by
  unfold fieldCount
  split <;> omega

/-- The schedule branch of `ParseCronLine`: on a line that is not skipped and is no assignment,
the result is made of the result of `SplitCron` and of the evaluator. -/
theorem ParseCronLine_schedule_eq (Parse : ParseFn) (envRef : Ptr) (env : Env)
    (filename line : Str) (hskip : (starts_with_hash line || blank_line line) = false)
    (ha : assignment line = none) :
    ParseCronLine Parse envRef env filename line =
      match SplitCron line (starts_with_at line) with
      | .error err => ((none, some err), env)
      | .ok (scheduleText, script) =>
        match Parse scheduleText with
        | .error err => ((none, some err), env)
        | .ok schedule => ((some ⟨schedule, envRef, script, filename, -1, zeroTime⟩, none), env) := by
  unfold ParseCronLine
  rw [hskip, ha]
  rfl

theorem not_skipped (line : Str) (hb : ¬ IsBlank line) (hc : ¬ IsComment line) :
    (starts_with_hash line || blank_line line) = false := by
  have h1 : starts_with_hash line = false := by
    cases h : starts_with_hash line with
    | false => rfl
    | true => exact absurd ((starts_with_hash_iff line).mp h) hc
  have h2 : blank_line line = false := by
    cases h : blank_line line with
    | false => rfl
    | true => exact absurd ((blank_line_iff line).mp h) hb
  rw [h1, h2]
  rfl

/-- C14, as amended: for every line that is not blank, no comment and no assignment (with the
whitespace of the class `\s`: tab, newline, form feed, carriage return and space),
`ParseCronLine` splits the line with `FieldsN` into exactly `fieldCount line` fields, 2 when the
first character outside of the class `\s` is `@` and 6 otherwise: the first fields of the line
and, as the last one, the rest of the line; the fields are delimited by the whitespace of
`unicode.IsSpace`. If the line has fewer fields, the result is no job and `ErrNotEnoughFields`. If not
and the evaluator rejects the normalized schedule, the result is no job and the error of the
evaluator; otherwise it is, with no error, a Job that holds the schedule, the command, the given
file name, the given environment, the index -1 and the zero `nextRun`. The environment is left
as it is in each case. -/
theorem ParseCronLine_schedule (Parse : ParseFn) (envRef : Ptr) (env : Env)
    (filename line : Str) (hb : ¬ IsBlank line) (hc : ¬ IsComment line)
    (ha : ¬ IsAssignment line) :
    ((Fields line).length < fieldCount line →
      ParseCronLine Parse envRef env filename line =
        ((none, some Error.ErrNotEnoughFields), env)) ∧
    (fieldCount line ≤ (Fields line).length →
      ∃ pre command, line = pre ++ command ∧
        FieldsN line (fieldCount line) =
          ((Fields line).take (fieldCount line - 1) ++ [command], none) ∧
        (FieldsN line (fieldCount line)).1.length = fieldCount line ∧
        (∀ e, Parse (RemoveLeadingZeroes
              (Join ((Fields line).take (fieldCount line - 1)) [' '])) = .error e →
          ParseCronLine Parse envRef env filename line = ((none, some e), env)) ∧
        (∀ schedule, Parse (RemoveLeadingZeroes
              (Join ((Fields line).take (fieldCount line - 1)) [' '])) = .ok schedule →
          ParseCronLine Parse envRef env filename line =
            ((some ⟨schedule, envRef, command, filename, -1, zeroTime⟩, none), env))) := by
  have heq := ParseCronLine_schedule_eq Parse envRef env filename line (not_skipped line hb hc)
    (not_isAssignment line ha)
  have hpos := fieldCount_pos line
  have hfc := fieldCount_eq line
  constructor
  · intro hlt
    have herr := ((FieldsN_error_iff line (fieldCount line) (by omega)).1).mpr (by omega)
    rw [hfc] at herr
    rw [heq, SplitCron_error line (starts_with_at line) _ herr]
  · intro hle
    obtain ⟨pre, rest, hs, hF, hlen, -⟩ :=
      FieldsN_fields line (fieldCount line) (by omega) (by omega)
    have hn : ((fieldCount line : Int) - 1).toNat = fieldCount line - 1 := by omega
    rw [hn] at hF
    refine ⟨pre, rest, hs, hF, by omega, ?_⟩
    have hlen' : ((Fields line).take (fieldCount line - 1)).length =
        (if starts_with_at line then 2 else 6) - 1 := by
      rw [List.length_take, ← hfc]
      omega
    have hF' := hF
    rw [hfc] at hF'
    have hsplit := SplitCron_fields line (starts_with_at line) _ rest hlen'
      (by rw [hF', hfc])
    rw [heq, hsplit]
    dsimp only
    constructor
    · intro e he
      rw [he]
    · intro schedule he
      rw [he]

/-- The witness of `ParseCronLine_schedule`: the schedule line of the test. -/
theorem ParseCronLine_schedule_witness :
    (¬ IsBlank "@midnight hello world".toList ∧ ¬ IsComment "@midnight hello world".toList ∧
      ¬ IsAssignment "@midnight hello world".toList) ∧
    (((Fields "@midnight hello world".toList).length < fieldCount "@midnight hello world".toList →
      ParseCronLine everyMinute 7 (fun _ => none) ['f'] "@midnight hello world".toList =
        ((none, some Error.ErrNotEnoughFields), fun _ => none)) ∧
    (fieldCount "@midnight hello world".toList ≤ (Fields "@midnight hello world".toList).length →
      ∃ pre command, "@midnight hello world".toList = pre ++ command ∧
        FieldsN "@midnight hello world".toList (fieldCount "@midnight hello world".toList) =
          ((Fields "@midnight hello world".toList).take
            (fieldCount "@midnight hello world".toList - 1) ++ [command], none) ∧
        (FieldsN "@midnight hello world".toList
          (fieldCount "@midnight hello world".toList)).1.length =
            fieldCount "@midnight hello world".toList ∧
        (∀ e, everyMinute (RemoveLeadingZeroes
              (Join ((Fields "@midnight hello world".toList).take
                (fieldCount "@midnight hello world".toList - 1)) [' '])) = .error e →
          ParseCronLine everyMinute 7 (fun _ => none) ['f'] "@midnight hello world".toList =
            ((none, some e), fun _ => none)) ∧
        (∀ schedule, everyMinute (RemoveLeadingZeroes
              (Join ((Fields "@midnight hello world".toList).take
                (fieldCount "@midnight hello world".toList - 1)) [' '])) = .ok schedule →
          ParseCronLine everyMinute 7 (fun _ => none) ['f'] "@midnight hello world".toList =
            ((some ⟨schedule, 7, command, ['f'], -1, zeroTime⟩, none), fun _ => none)))) :=
  ⟨⟨fun h => absurd ((blank_line_iff _).mpr h) (by decide),
      fun h => absurd ((starts_with_hash_iff _).mpr h) (by decide),
      fun h => isAssignment_of_some _ h (by decide)⟩,
    ParseCronLine_schedule everyMinute 7 (fun _ => none) ['f'] "@midnight hello world".toList
      (fun h => absurd ((blank_line_iff _).mpr h) (by decide))
      (fun h => absurd ((starts_with_hash_iff _).mpr h) (by decide))
      (fun h => isAssignment_of_some _ h (by decide))⟩


/-- The job and the error of `ParseCronLine` do not depend on the contents of the environment,
and the error depends neither on its address nor on the file name. -/
theorem ParseCronLine_result_eq (Parse : ParseFn) (envRef : Ptr) (env : Env)
    (filename line : Str) :
    (ParseCronLine Parse envRef env filename line).1.1 = lineJob Parse envRef filename line ∧
    (ParseCronLine Parse envRef env filename line).1.2 = lineError Parse line := by
  unfold lineJob lineError ParseCronLine
  split
  · exact ⟨rfl, rfl⟩
  · split
    · exact ⟨rfl, rfl⟩
    · dsimp only
      split
      · exact ⟨rfl, rfl⟩
      · split <;> exact ⟨rfl, rfl⟩

/-- A line with an error gives no job and makes no assignment. -/
theorem lineError_some (Parse : ParseFn) (envRef : Ptr) (filename line : Str) (e : Error)
    (h : lineError Parse line = some e) :
    lineJob Parse envRef filename line = none ∧ assigns line = none := by
  unfold lineError ParseCronLine at h
  unfold lineJob ParseCronLine assigns
  split
  · rename_i hskip
    rw [if_pos hskip] at h
    simp at h
  · rename_i hskip
    rw [if_neg hskip] at h
    split
    · rename_i heq
      rw [heq] at h
      simp at h
    · rename_i heq
      rw [heq] at h
      dsimp only at h ⊢
      refine ⟨?_, heq⟩
      split
      · rfl
      · rename_i hsplit
        rw [hsplit] at h
        dsimp only at h
        split
        · rfl
        · rename_i hp
          rw [hp] at h
          simp at h

theorem ParseCron_loop_eq (Parse : ParseFn) (envRef : Ptr) (filename : Str) :
    ∀ (input : List Str) (env : Env) (result : List Job),
      ParseCron.loop Parse envRef filename input env result =
        (result ++ input.filterMap (lineJob Parse envRef filename), applyAssignments input env)
  | [], _, _ => by simp [ParseCron.loop, applyAssignments]
  | line :: rest, env, result => by
    have hj := (ParseCronLine_result_eq Parse envRef env filename line).1
    have he := ParseCronLine_env Parse envRef env filename line
    rw [ParseCron.loop, applyAssignments, hj, he]
    cases hl : lineJob Parse envRef filename line with
    | none =>
      dsimp only
      rw [ParseCron_loop_eq Parse envRef filename rest, List.filterMap_cons_none hl]
      split <;> rfl
    | some job =>
      dsimp only
      rw [ParseCron_loop_eq Parse envRef filename rest, List.filterMap_cons_some hl,
        List.append_assoc]
      split <;> rfl

theorem filterMap_good (Parse : ParseFn) (envRef : Ptr) (filename : Str) :
    ∀ input : List Str,
      (input.filter (fun line => (lineError Parse line).isNone)).filterMap
        (lineJob Parse envRef filename) = input.filterMap (lineJob Parse envRef filename)
  | [] => rfl
  | line :: rest => by
    cases he : lineError Parse line with
    | none =>
      rw [List.filter_cons_of_pos (by rw [he]; rfl)]
      cases hl : lineJob Parse envRef filename line with
      | none =>
        rw [List.filterMap_cons_none hl, List.filterMap_cons_none hl,
          filterMap_good Parse envRef filename rest]
      | some job =>
        rw [List.filterMap_cons_some hl, List.filterMap_cons_some hl,
          filterMap_good Parse envRef filename rest]
    | some e =>
      rw [List.filter_cons_of_neg (by rw [he]; simp),
        List.filterMap_cons_none (lineError_some Parse envRef filename line e he).1,
        filterMap_good Parse envRef filename rest]

theorem applyAssignments_good (Parse : ParseFn) :
    ∀ (input : List Str) (env : Env),
      applyAssignments (input.filter (fun line => (lineError Parse line).isNone)) env =
        applyAssignments input env
  | [], _ => rfl
  | line :: rest, env => by
    cases he : lineError Parse line with
    | none =>
      rw [List.filter_cons_of_pos (by rw [he]; rfl), applyAssignments, applyAssignments]
      split
      · exact applyAssignments_good Parse rest _
      · exact applyAssignments_good Parse rest _
    | some e =>
      rw [List.filter_cons_of_neg (by rw [he]; simp)]
      conv => rhs; rw [applyAssignments]
      rw [(lineError_some Parse 0 [] line e he).2]
      exact applyAssignments_good Parse rest env

/-- C15: for every sequence of input lines, `ParseCron` returns, in the order of the lines,
exactly the Jobs of the lines for which `ParseCronLine` returns a job; the job and the error of
a line do not depend on the lines before it; and the result, jobs and environment, is that for
the same input without the lines that fail to parse. -/
theorem ParseCron_skips_bad_lines (Parse : ParseFn) (envRef : Ptr) (filename : Str)
    (input : List Str) :
    (ParseCron Parse envRef filename input).1 =
      input.filterMap (lineJob Parse envRef filename) ∧
    (∀ env line,
      (ParseCronLine Parse envRef env filename line).1.1 = lineJob Parse envRef filename line ∧
      (ParseCronLine Parse envRef env filename line).1.2 = lineError Parse line) ∧
    (∀ line e, lineError Parse line = some e → lineJob Parse envRef filename line = none) ∧
    ParseCron Parse envRef filename
      (input.filter (fun line => (lineError Parse line).isNone)) =
        ParseCron Parse envRef filename input := by
  refine ⟨?_, fun env line => ParseCronLine_result_eq Parse envRef env filename line,
    fun line e h => (lineError_some Parse envRef filename line e h).1, ?_⟩
  · unfold ParseCron
    rw [ParseCron_loop_eq]
    rfl
  · unfold ParseCron
    rw [ParseCron_loop_eq, ParseCron_loop_eq, filterMap_good, applyAssignments_good]


/-- C18: `NextJobs` never removes a job. For every queue whose evaluators answer strictly later
times, heap-ordered or not, `NextJobs` returns; the list of the queue afterwards is a
permutation of the list before, so the queue holds the same jobs and has the same length;
`CrontabMapping` is as before; and every job that is not in the returned batch keeps its
`nextRun`. On the empty queue the batch is empty and the queue is as before. -/
theorem NextJobs_keeps_jobs (jobs : Jobs) (hev : NextAfter jobs) :
    ∃ jobs' batch, jobs.NextJobs = .ok (jobs', batch) ∧
      jobs'.List.Perm jobs.List ∧ (∀ p, p ∈ jobs'.List ↔ p ∈ jobs.List) ∧
      jobs'.Len = jobs.Len ∧ jobs'.CrontabMapping = jobs.CrontabMapping ∧
      (∀ p, p ∉ batch → (jobs'.mem p).nextRun = (jobs.mem p).nextRun) ∧
      (jobs.Len = 0 → jobs' = jobs ∧ batch = []) := by
  by_cases hne : jobs.List = []
  · have hlen : jobs.Len = 0 := by unfold Jobs.Len; rw [hne]; rfl
    refine ⟨jobs, [], ?_, List.Perm.refl _, fun _ => Iff.rfl, rfl, rfl, fun _ _ => rfl,
      fun _ => ⟨rfl, rfl⟩⟩
    unfold Jobs.NextJobs
    rw [if_pos hlen]
  · obtain ⟨jobs', batch, h1, h2⟩ := NextJobs_spec jobs hne hev
    refine ⟨jobs', batch, h1, h2.perm, fun p => h2.perm.mem_iff, h2.perm.length_eq, h2.mapping,
      h2.others, fun hlen => ?_⟩
    exact absurd (List.length_eq_zero.mp hlen) hne

/-- The witness of `NextJobs_keeps_jobs`: the queue of the dispatch-batching example. -/
theorem NextJobs_keeps_jobs_witness :
    NextAfter batchExample ∧
    ∃ jobs' batch, batchExample.NextJobs = .ok (jobs', batch) ∧
      jobs'.List.Perm batchExample.List ∧ (∀ p, p ∈ jobs'.List ↔ p ∈ batchExample.List) ∧
      jobs'.Len = batchExample.Len ∧ jobs'.CrontabMapping = batchExample.CrontabMapping ∧
      (∀ p, p ∉ batch → (jobs'.mem p).nextRun = (batchExample.mem p).nextRun) ∧
      (batchExample.Len = 0 → jobs' = batchExample ∧ batch = []) :=
  ⟨batchExample_nextAfter, NextJobs_keeps_jobs batchExample batchExample_nextAfter⟩


theorem fix_wellFormed (h : Jobs) (i : Nat) (hi : i < h.Len) (hw : WellFormed h) :
    WellFormed (heap.Fix h i) := by
  rw [Fix_eq]
  exact wellFormed_of_reordered (fixAt_reordered h i h.Len (le_refl _) hi) hw
    (fixAt_preserves IndexInv (fun _ a b ha hb hp => hp.swapped a b ha hb) h i h.Len (le_refl _)
      hi hw.1)

/-- The loop of `NextJobs` keeps a well-formed queue well-formed, whatever the evaluators
answer. -/
theorem NextJobs_loop_wellFormed (T : Time) : ∀ (fuel : Nat) (jobs : Jobs) (acc : Crontab)
    (r : Jobs × Crontab), WellFormed jobs → NextJobs.loop T fuel jobs acc = .ok r →
    WellFormed r.1
  | 0, _, _, _, _, h => by
    rw [NextJobs.loop] at h
    exact absurd h (by simp)
  | fuel + 1, jobs, acc, r, hw, h => by
    by_cases hne : jobs.List = []
    · rw [NextJobs.loop] at h
      unfold Jobs.Top at h
      rw [hne] at h
      exact absurd h (by simp)
    · rw [NextJobs_loop_succ T fuel jobs acc hne] at h
      split at h
      · dsimp only at h
        split at h
        · exact absurd h (by simp)
        · have hlen : 0 < (withNextRun jobs (jobs.at 0)
              ((jobs.mem (jobs.at 0)).Next (T + epsilon))).Len := List.length_pos.mpr hne
          exact NextJobs_loop_wellFormed T fuel _ _ r
            (fix_wellFormed _ 0 hlen (withNextRun_wellFormed jobs _ _ hw)) h
      · injection h with h
        rw [← h]
        exact hw

theorem NextJobs_wellFormed (jobs : Jobs) (r : Jobs × Crontab) (hw : WellFormed jobs)
    (h : jobs.NextJobs = .ok r) : WellFormed r.1 := by
  by_cases hne : jobs.List = []
  · unfold Jobs.NextJobs Jobs.Len at h
    rw [hne] at h
    simp only [List.length_nil, if_true] at h
    injection h with h
    rw [← h]
    exact hw
  · rw [NextJobs_nonempty jobs hne] at h
    exact NextJobs_loop_wellFormed _ _ jobs [] r hw h

theorem UpdateCrontab_wellFormed (fs : FileSystem) (Parse : ParseFn) (when : Time) (file : Str)
    (jobs jobs' : Jobs) (hw : WellFormed jobs)
    (h : jobs.UpdateCrontab fs Parse when file = .ok jobs') : WellFormed jobs' := by
  obtain ⟨jobs1, he, hw1, -⟩ := evict_spec file jobs hw
  rw [UpdateCrontab_eq fs Parse when file jobs jobs1 he] at h
  cases hfs : fs file with
  | none =>
    rw [ReadCrontab_none fs Parse file jobs1 hfs] at h
    injection h with h
    rw [← h]
    exact hw1
  | some input =>
    obtain ⟨jobs2, c, hr, -, hw2, hnew, hal, -⟩ := ReadCrontab_spec fs Parse file jobs1 hw1 input hfs
    rw [hr] at h
    injection h with h
    rw [← h]
    exact (Add_spec when c jobs2 hw2 hnew hal).1

theorem freshJobs_newJobs {jobs : Jobs} {crontab : Crontab} (h : FreshJobs jobs crontab) :
    NewJobs jobs crontab ∧ ∀ p ∈ crontab, p < jobs.next :=
  ⟨⟨h.1, fun p hp => (h.2 p hp).1⟩, fun p hp => (h.2 p hp).2⟩

/-- Every queue that the operations make from the empty queue, with only jobs inserted that
are not queued, is well-formed. -/
theorem reached_wellFormed (jobs : Jobs) (hr : Reached FreshJobs jobs) : WellFormed jobs := by
  induction hr with
  | empty mem envMem next =>
    refine ⟨fun k hk => absurd hk (Nat.not_lt_zero _), fun f p => ?_, fun f => List.nodup_nil,
      fun p hp => absurd hp (List.not_mem_nil _)⟩
    simp
  | push job _ hal ih =>
    have hf := hal.2 job (List.mem_singleton.mpr rfl)
    exact (heapPush_spec _ job ih hf.1 hf.2).1
  | add now crontab _ hal ih =>
    exact (Add_spec now crontab _ ih (freshJobs_newJobs hal).1 (freshJobs_newJobs hal).2).1
  | remove i r _ hrem ih =>
    obtain ⟨k, rfl, hk⟩ := Remove_ok_index _ i r hrem
    obtain ⟨h', hrem', hR⟩ := Remove_spec _ k hk ih
    rw [hrem'] at hrem
    injection hrem with hrem
    rw [← hrem]
    exact hR.wf
  | reschedule job t _ ih => exact withNextRun_wellFormed _ job t ih
  | fix i _ hi ih => exact fix_wellFormed _ i hi ih
  | nextJobs r _ hnj ih => exact NextJobs_wellFormed _ r ih hnj
  | updateCrontab fs Parse when file jobs' _ hu ih =>
    exact UpdateCrontab_wellFormed fs Parse when file _ jobs' ih hu

/-- C16: the queue-position invariant. Starting from the empty queue and inserting only jobs
that are not already members, after any sequence of `heap.Push`, `Add`, `heap.Remove`,
`heap.Fix` (also after `job.nextRun = t`), `NextJobs` and `UpdateCrontab`, every queued job has
its position of `List` in its field `index`; and `heap.Remove` at any position of the list
returns, the job it removes has `index = -1` and is no member afterwards, and the invariant
holds for the jobs that stay. -/
theorem index_invariant (jobs : Jobs) (hr : Reached FreshJobs jobs) :
    (∀ i, i < jobs.Len → (jobs.mem (jobs.at i)).index = (i : Int)) ∧
    (∀ i, i < jobs.Len → ∃ jobs', heap.Remove jobs (i : Int) = .ok (jobs', jobs.at i) ∧
      (jobs'.mem (jobs.at i)).index = -1 ∧ jobs.at i ∉ jobs'.List ∧ IndexInv jobs') := by
  have hw := reached_wellFormed jobs hr
  refine ⟨hw.1, fun i hi => ?_⟩
  obtain ⟨h', hrem, hR⟩ := Remove_spec jobs i hi hw
  exact ⟨h', hrem, hR.index, fun hin => ((hR.mem_iff _).mp hin).2 rfl, hR.wf.1⟩

/-- The witness of `index_invariant`: the queue after `Add(0, [job0, job1])`. -/
theorem index_invariant_witness :
    Reached FreshJobs (Jobs.Add 0 [0, 1] twoJobs) ∧
    ((∀ i, i < (Jobs.Add 0 [0, 1] twoJobs).Len →
      ((Jobs.Add 0 [0, 1] twoJobs).mem ((Jobs.Add 0 [0, 1] twoJobs).at i)).index = (i : Int)) ∧
    (∀ i, i < (Jobs.Add 0 [0, 1] twoJobs).Len →
      ∃ jobs', heap.Remove (Jobs.Add 0 [0, 1] twoJobs) (i : Int) =
          .ok (jobs', (Jobs.Add 0 [0, 1] twoJobs).at i) ∧
        (jobs'.mem ((Jobs.Add 0 [0, 1] twoJobs).at i)).index = -1 ∧
        (Jobs.Add 0 [0, 1] twoJobs).at i ∉ jobs'.List ∧ IndexInv jobs')) :=
  ⟨Reached.add 0 [0, 1] (Reached.empty _ _ _) ⟨by decide, by decide⟩,
    index_invariant (Jobs.Add 0 [0, 1] twoJobs)
      (Reached.add 0 [0, 1] (Reached.empty _ _ _) ⟨by decide, by decide⟩)⟩

/-- C17, as amended: the file-index invariant. Starting from the empty queue and inserting only
jobs that are not already members, after any sequence of `heap.Push`, `Add`, `heap.Remove`,
`heap.Fix`, `NextJobs` and `UpdateCrontab`, a job is a member of `CrontabMapping[f]` if and
only if it is in `List` and its `crontab` is `f`. -/
theorem mapping_invariant (jobs : Jobs) (hr : Reached FreshJobs jobs) (f : Str) (p : Ptr) :
    p ∈ (jobs.CrontabMapping f).getD [] ↔ (p ∈ jobs.List ∧ (jobs.mem p).crontab = f) :=
  (reached_wellFormed jobs hr).2.1 f p

/-- The witness of `mapping_invariant`: the queue after `Add(0, [job0, job1])`. -/
theorem mapping_invariant_witness :
    Reached FreshJobs (Jobs.Add 0 [0, 1] twoJobs) ∧
    (1 ∈ ((Jobs.Add 0 [0, 1] twoJobs).CrontabMapping ['f']).getD [] ↔
      (1 ∈ (Jobs.Add 0 [0, 1] twoJobs).List ∧ ((Jobs.Add 0 [0, 1] twoJobs).mem 1).crontab = ['f'])) :=
  ⟨Reached.add 0 [0, 1] (Reached.empty _ _ _) ⟨by decide, by decide⟩,
    mapping_invariant (Jobs.Add 0 [0, 1] twoJobs)
      (Reached.add 0 [0, 1] (Reached.empty _ _ _) ⟨by decide, by decide⟩) ['f'] 1⟩

/-- C17 as stated fails: `removedAfterTwice` is the queue after `Add(0, [job0])`, once more
`Add(0, [job0])` and `heap.Remove` at position 0, from the empty queue. The job 0 of the file
`f` is still in its list, and the set `CrontabMapping[f]` is empty. -/
theorem mapping_lost_after_second_Add :
    Reached (fun _ _ => True) removedAfterTwice ∧
    0 ∈ removedAfterTwice.List ∧ (removedAfterTwice.mem 0).crontab = ['f'] ∧
    0 ∉ (removedAfterTwice.CrontabMapping ['f']).getD [] ∧ ¬ MappingInv removedAfterTwice := by
  have h : heap.Remove (Jobs.Add 0 [0] (Jobs.Add 0 [0] twoJobs)) 0 =
      .ok (removedAfterTwice, 0) := by
    unfold removedAfterTwice
    rfl
  refine ⟨Reached.remove 0 (removedAfterTwice, 0)
    (Reached.add 0 [0] (Reached.add 0 [0] (Reached.empty _ _ _) trivial) trivial) h,
    by decide, by decide, by decide, fun hm => ?_⟩
  exact absurd ((hm ['f'] 0).mpr ⟨by decide, by decide⟩) (by decide)


/-- The method `Add` gives every job that it inserts a `nextRun` strictly after `now`, when
the evaluator of the job answers strictly later times: no such job has `nextRun = now`. -/
theorem Add_nextRun_after (now : Time) (c : Crontab) (h : Jobs) (hw : WellFormed h)
    (hnew : NewJobs h c) (hal : ∀ p ∈ c, p < h.next)
    (hev : ∀ p ∈ c, ∀ t : Time, t < (h.mem p).Next t) :
    ∀ p ∈ c, p ∈ (Jobs.Add now c h).List ∧ now < ((Jobs.Add now c h).mem p).nextRun ∧
      ((Jobs.Add now c h).mem p).nextRun ≠ now := by
  intro p hp
  obtain ⟨-, hperm, -, -, -, hfld⟩ := Add_spec now c h hw hnew hal
  have hrun := (hfld p).1
  rw [if_pos hp] at hrun
  have hlt : now < ((Jobs.Add now c h).mem p).nextRun := by
    rw [hrun]
    exact hev p hp now
  exact ⟨hperm.mem_iff.mpr (List.mem_append.mpr (Or.inr hp)), hlt, ne_of_gt hlt⟩

/-- C13, the code at a concrete input. The jobs of the queue `twoFiles` are all due at the time
60, so the wait target of the loop is `runTime = 60`, and the evaluator `everyMinute` answers
strictly later times. `UpdateCrontab(60, a)` with the new contents of the file `a` inserts the
new jobs 5 and 6 with `nextRun = Next(60) = 120`, not `runTime`; and the batch of the next
`NextJobs` is the jobs 3 and 2 of the other file, without the new jobs. -/
theorem UpdateCrontab_new_jobs_miss_next_batch :
    MinNextRun twoFiles 60 ∧
    twoFiles.UpdateCrontab oneFile everyMinute 60 ['a'] = .ok afterUpdate ∧
    afterUpdate.List = [3, 2, 5, 6] ∧
    (afterUpdate.mem 5).crontab = ['a'] ∧ (afterUpdate.mem 6).crontab = ['a'] ∧
    (afterUpdate.mem 5).nextRun = 120 ∧ (afterUpdate.mem 6).nextRun = 120 ∧
    batchOf afterUpdate.NextJobs = some [3, 2] :=
  ⟨⟨⟨0, by decide, by decide⟩, fun _ _ => le_refl _⟩, rfl, by decide, by decide, by decide,
    by decide, by decide, by decide⟩

/-! ### `RemoveLeadingZeroes` is idempotent -/

theorem stops_takeWhile (t : Str) (h : Stops t) : t.takeWhile isDigit = [] := by
  cases t with
  | nil => rfl
  | cons x r => rw [List.takeWhile_cons, h x r rfl]; rfl

theorem stops_dropWhile (s : Str) : Stops (s.dropWhile isDigit) :=
  fun x r h => dropWhile_head isDigit s x r h

theorem mem_takeWhile_digit (s : Str) : ∀ c ∈ s.takeWhile isDigit, isDigit c = true :=
  fun _ hc => (List.mem_takeWhile_imp hc)

/-- What `normalizeNumerals` makes of a string at which a numeral ends depends neither on the
mode nor on the character before, and a numeral ends at the result too. -/
theorem normalize_stops (b : Bool) (mode : NumeralMode) (pw : Bool) (t : Str) (h : Stops t) :
    normalizeNumerals b mode pw t = normalizeNumerals b .outside true t ∧
    Stops (normalizeNumerals b mode pw t) := by
  cases t with
  | nil =>
    refine ⟨by cases mode <;> rfl, fun x r hx => ?_⟩
    have : normalizeNumerals b mode pw [] = [] := by cases mode <;> rfl
    rw [this] at hx
    exact absurd hx (by simp)
  | cons x r =>
    have hx := h x r rfl
    rw [normalize_nondigit b mode pw x r hx, normalize_nondigit b .outside true x r hx]
    refine ⟨rfl, fun y r' hy => ?_⟩
    injection hy with hy _
    rw [← hy]
    exact hx

theorem normalize_true_digits : ∀ (ds t : Str), (∀ c ∈ ds, isDigit c = true) →
    normalizeNumerals true .outside true (ds ++ t) = ds ++ normalizeNumerals true .outside true t
  | [], t, _ => rfl
  | c :: ds, t, h => by
    rw [List.cons_append, normalize_cons, if_pos (h c (List.mem_cons_self _ _))]
    simp only [Bool.and_self, Bool.not_true, Bool.and_false, Bool.false_eq_true, if_false]
    rw [normalize_keep_eq_outside,
      normalize_true_digits ds t (fun d hd => h d (List.mem_cons_of_mem _ hd))]
    rfl

/-- A numeral that is not replaced stays as it is. -/
theorem normalize_numeral_kept (d : Char) (ds t : Str) (pw : Bool)
    (hd : ∀ c ∈ d :: ds, isDigit c = true) (ht : Stops t)
    (hc : (hasLeadingZero (d :: ds) && !pw) = false) :
    normalizeNumerals true .outside pw (d :: ds ++ t) =
      d :: ds ++ normalizeNumerals true .outside true t := by
  have htw : (d :: (ds ++ t)).takeWhile isDigit = d :: ds := by
    have := takeWhile_append_all isDigit (d :: ds) t hd
    rw [stops_takeWhile t ht, List.append_nil] at this
    exact this
  rw [List.cons_append, normalize_cons, if_pos (hd d (List.mem_cons_self _ _))]
  simp only [htw, Bool.true_and, hc, Bool.false_eq_true, if_false]
  rw [normalize_keep_eq_outside,
    normalize_true_digits ds t (fun c hc' => hd c (List.mem_cons_of_mem _ hc'))]
  rfl

theorem stripZeros_facts (n : Str) (hn : ∀ c ∈ n, isDigit c = true) :
    ∃ d ds, stripZeros n = d :: ds ∧ (∀ c ∈ d :: ds, isDigit c = true) ∧
      hasLeadingZero (d :: ds) = false := by
  unfold stripZeros
  dsimp only
  cases hr : n.dropWhile (fun c => c == '0') with
  | nil =>
    refine ⟨'0', [], by simp, fun c hc => ?_, rfl⟩
    rw [List.mem_singleton] at hc
    rw [hc]
    exact isDigit_zero
  | cons x r =>
    refine ⟨x, r, by simp, fun c hc => ?_, ?_⟩
    · apply hn
      have : c ∈ n.dropWhile (fun c => c == '0') := by rw [hr]; exact hc
      exact (List.dropWhile_sublist _).subset this
    · have hx := dropWhile_head (fun c => c == '0') n x r hr
      cases r with
      | nil => rfl
      | cons y r' => exact hx

theorem takeWhile_dropWhile_digits (s : Str) :
    s = s.takeWhile isDigit ++ s.dropWhile isDigit := (List.takeWhile_append_dropWhile _ _).symm

/-- The normalization of the numerals that do not follow a word character is idempotent. -/
theorem normalize_idem : ∀ (n : Nat) (s : Str) (pw : Bool), s.length ≤ n →
    normalizeNumerals true .outside pw (normalizeNumerals true .outside pw s) =
      normalizeNumerals true .outside pw s
  | _, [], pw, _ => by cases pw <;> rfl
  | 0, c :: rest, _, h => by simp at h
  | n + 1, c :: rest, pw, h => by
    have hlen : rest.length ≤ n := by simpa using h
    cases hc : isDigit c with
    | false =>
      rw [normalize_nondigit true .outside pw c rest hc,
        normalize_nondigit true .outside pw c _ hc, normalize_idem n rest _ hlen]
    | true =>
      have hsplit := takeWhile_dropWhile_digits rest
      have hds : ∀ x ∈ c :: rest.takeWhile isDigit, isDigit x = true := by
        intro x hx
        rcases List.mem_cons.mp hx with rfl | hx
        · exact hc
        · exact mem_takeWhile_digit rest x hx
      have hstop := stops_dropWhile rest
      have htl : (rest.dropWhile isDigit).length ≤ n :=
        le_trans (List.dropWhile_sublist _).length_le hlen
      have hT := normalize_stops true .outside true _ hstop
      have hidem := normalize_idem n (rest.dropWhile isDigit) true htl
      cases hcond : (hasLeadingZero (c :: rest.takeWhile isDigit) && !pw) with
      | false =>
        have h1 : normalizeNumerals true .outside pw (c :: rest) =
            c :: rest.takeWhile isDigit ++
              normalizeNumerals true .outside true (rest.dropWhile isDigit) := by
          conv => lhs; rw [hsplit]
          exact normalize_numeral_kept c _ _ pw hds hstop hcond
        rw [h1, normalize_numeral_kept c _ _ pw hds hT.2 hcond, hidem]
      | true =>
        have hpw : pw = false := by
          cases pw with
          | false => rfl
          | true => simp at hcond
        subst hpw
        have h1 : normalizeNumerals true .outside false (c :: rest) =
            stripZeros (c :: rest.takeWhile isDigit) ++
              normalizeNumerals true .outside true (rest.dropWhile isDigit) := by
          have htw : (c :: rest).takeWhile isDigit = c :: rest.takeWhile isDigit := by
            rw [List.takeWhile_cons, hc]; rfl
          have hlz1 : hasLeadingZero (c :: rest.takeWhile isDigit) = true := by
            simpa using hcond
          have hdrop : normalizeNumerals true .drop true rest =
              normalizeNumerals true .drop true (rest.dropWhile isDigit) := by
            conv => lhs; rw [hsplit]
            exact normalize_drop_digits true _ _ (mem_takeWhile_digit rest)
          rw [normalize_cons, if_pos hc]
          dsimp only
          rw [htw, hlz1, hdrop, (normalize_stops true .drop true _ hstop).1]
          rfl
        obtain ⟨d, ds, hsz, hdig, hlz⟩ := stripZeros_facts (c :: rest.takeWhile isDigit) hds
        rw [h1, hsz, normalize_numeral_kept d ds _ false hdig hT.2 (by rw [hlz]; rfl), hidem]


theorem RemoveLeadingZeroes_twice (s : Str) :
    RemoveLeadingZeroes (RemoveLeadingZeroes s) = RemoveLeadingZeroes s := by
  rw [RemoveLeadingZeroes_eq (RemoveLeadingZeroes s), RemoveLeadingZeroes_eq s]
  exact normalize_idem _ s false (le_refl _)

theorem replace_length (zs : Str) (d : Char) (hz : ∀ z ∈ zs, z = '0') :
    (replace ('0' :: zs ++ [d])).length ≤ zs.length + 1 := by
  unfold replace TrimLeftZero
  have e : ('0' :: zs ++ [d]).dropWhile (fun c => c == '0') =
      [d].dropWhile (fun c => c == '0') := by
    have := dropWhile_zeros ('0' :: zs) [d] (by
      intro z hz1
      rcases List.mem_cons.mp hz1 with rfl | h
      · rfl
      · exact hz z h)
    simpa using this
  simp only [e]
  split
  · simp
  · have := (List.dropWhile_sublist (fun c => c == '0') (l := [d])).length_le
    simp only [List.length_singleton] at this
    omega

/-- The replacement never makes a string longer, and it makes a string shorter when the
pattern matches somewhere in it. -/
theorem replaceAll_length : ∀ (n : Nat) (s : Str) (pw : Bool), s.length ≤ n →
    (replaceAllLeadingZeros pw 0 s).length ≤ s.length ∧
    (hasLeadingZerosMatch pw s = true → (replaceAllLeadingZeros pw 0 s).length < s.length)
  | _, [], pw, _ => by
    have e : replaceAllLeadingZeros pw 0 [] = [] := by cases pw <;> rfl
    rw [e]
    exact ⟨le_refl _, fun h => by simp [hasLeadingZerosMatch] at h⟩
  | 0, c :: rest, _, h => by simp at h
  | n + 1, c :: rest, pw, h => by
    have hlen : rest.length ≤ n := by simpa using h
    cases hm : (if pw then none else leadingZerosAt (c :: rest)) with
    | none =>
      rw [replaceAll_nomatch pw c rest hm]
      obtain ⟨ih1, ih2⟩ := replaceAll_length n rest (isWordChar c) hlen
      have hhere : (!pw && (leadingZerosAt (c :: rest)).isSome) = false := by
        cases pw with
        | true => rfl
        | false =>
          simp only [Bool.false_eq_true, if_false] at hm
          rw [hm]
          rfl
      refine ⟨by simp only [List.length_cons]; omega, fun hmatch => ?_⟩
      rw [hasLeadingZerosMatch, hhere, Bool.false_or] at hmatch
      have := ih2 hmatch
      simp only [List.length_cons]
      omega
    | some ma =>
      obtain ⟨m, after⟩ := ma
      have hpw : pw = false := by
        cases pw with
        | true => simp at hm
        | false => rfl
      subst hpw
      simp only [Bool.false_eq_true, if_false] at hm
      obtain ⟨hs, zs, d, hmz, hz, -, -⟩ := leadingZerosAt_spec (c :: rest) m after hm
      subst hmz
      rw [List.cons_append, List.cons_append] at hs
      injection hs with hc hrest
      have hafter : after.length ≤ n := by
        rw [hrest] at hlen
        simp only [List.length_append] at hlen
        omega
      have hskip : replaceAllLeadingZeros true (('0' :: zs ++ [d]).length - 1) rest =
          replaceAllLeadingZeros true 0 after := by
        have := replaceAll_skip (zs ++ [d]) after
        rw [hrest]
        simpa using this
      have hout : replaceAllLeadingZeros false 0 (c :: rest) =
          replace ('0' :: zs ++ [d]) ++ replaceAllLeadingZeros true 0 after := by
        rw [replaceAll_cons]
        simp only [Bool.false_eq_true, if_false, hm]
        rw [hskip]
      have h1 := replace_length zs d hz
      have h2 := (replaceAll_length n after true hafter).1
      have hl : (c :: rest).length = zs.length + 2 + after.length := by
        rw [List.length_cons, hrest]
        simp only [List.length_append, List.length_singleton]
        omega
      rw [hout, List.length_append, hl]
      exact ⟨by omega, fun _ => by omega⟩

/-- C20: `RemoveLeadingZeroes` is idempotent, and its output holds no match of the pattern of
`leading_zeros` (a word boundary, one or more `0`, a digit). -/
theorem RemoveLeadingZeroes_idempotent (s : Str) :
    RemoveLeadingZeroes (RemoveLeadingZeroes s) = RemoveLeadingZeroes s ∧
    hasLeadingZerosMatch false (RemoveLeadingZeroes s) = false := by
  have hid := RemoveLeadingZeroes_twice s
  refine ⟨hid, ?_⟩
  cases hm : hasLeadingZerosMatch false (RemoveLeadingZeroes s) with
  | false => rfl
  | true =>
    have := (replaceAll_length _ (RemoveLeadingZeroes s) false (le_refl _)).2 hm
    have hid' : replaceAllLeadingZeros false 0 (RemoveLeadingZeroes s) = RemoveLeadingZeroes s := hid
    rw [hid'] at this
    exact absurd this (lt_irrefl _)


/-! ### Splitting the canonical form again -/

theorem takeWhile_append_stop (p : Char → Bool) (x : Char) (r : Str) (hx : p x = false) :
    ∀ a : Str, (a ++ x :: r).takeWhile p = a.takeWhile p
  | [] => by rw [List.nil_append, List.takeWhile_cons, hx]; rfl
  | c :: a => by
    rw [List.cons_append, List.takeWhile_cons, List.takeWhile_cons,
      takeWhile_append_stop p x r hx a]

/-- The normalization of a string works on the parts before and after a character that is no
digit. -/
theorem normalize_append (b : Bool) (x : Char) (r : Str) (hx : isDigit x = false) :
    ∀ (t : Str) (mode : NumeralMode) (pw : Bool),
      normalizeNumerals b mode pw (t ++ x :: r) =
        normalizeNumerals b mode pw t ++ x :: normalizeNumerals b .outside (isWordChar x) r
  | [], mode, pw => by
    have e : normalizeNumerals b mode pw [] = [] := by cases mode <;> rfl
    rw [List.nil_append, normalize_nondigit b mode pw x r hx, e, List.nil_append]
  | c :: t, mode, pw => by
    have htw : ((c :: t) ++ x :: r).takeWhile isDigit = (c :: t).takeWhile isDigit :=
      takeWhile_append_stop isDigit x r hx (c :: t)
    rw [List.cons_append] at htw
    rw [List.cons_append, normalize_cons, normalize_cons, htw]
    by_cases hc : isDigit c = true
    · rw [if_pos hc, if_pos hc]
      cases mode with
      | drop => exact normalize_append b x r hx t .drop true
      | keep =>
        dsimp only
        rw [normalize_append b x r hx t .keep true]
        rfl
      | outside =>
        dsimp only
        split
        · rw [normalize_append b x r hx t .drop true, List.append_assoc]
        · rw [normalize_append b x r hx t .keep true]
          rfl
    · rw [if_neg hc, if_neg hc, normalize_append b x r hx t .outside (isWordChar c)]
      rfl

theorem isDigit_blank : isDigit ' ' = false := by decide

theorem isWordChar_blank : isWordChar ' ' = false := by decide

/-- The function `RemoveLeadingZeroes` works field by field on fields joined by single spaces. -/
theorem RemoveLeadingZeroes_Join : ∀ toks : List Str,
    RemoveLeadingZeroes (Join toks [' ']) = Join (toks.map RemoveLeadingZeroes) [' ']
  | [] => rfl
  | [t] => by rw [Join_singleton, List.map_singleton, Join_singleton]
  | t :: u :: toks => by
    have ih := RemoveLeadingZeroes_Join (u :: toks)
    rw [List.map_cons, List.map_cons, Join_cons_cons, Join_cons_cons, ← List.map_cons, ← ih]
    rw [RemoveLeadingZeroes_eq, RemoveLeadingZeroes_eq t, RemoveLeadingZeroes_eq (Join _ _)]
    have := normalize_append true ' ' (Join (u :: toks) [' ']) isDigit_blank t .outside false
    rw [isWordChar_blank] at this
    simpa using this

theorem stripZeros_all (P : Char → Prop) (h0 : P '0') (n : Str) (hn : ∀ c ∈ n, P c) :
    ∀ c ∈ stripZeros n, P c := by
  intro c hc
  unfold stripZeros at hc
  dsimp only at hc
  split at hc
  · rw [List.mem_singleton] at hc
    rw [hc]
    exact h0
  · exact hn c ((List.dropWhile_sublist _).subset hc)

/-- The characters of a normalized string are characters of the string, or `0`. -/
theorem normalize_all (b : Bool) (P : Char → Prop) (h0 : P '0') :
    ∀ (s : Str) (mode : NumeralMode) (pw : Bool), (∀ c ∈ s, P c) →
      ∀ c ∈ normalizeNumerals b mode pw s, P c
  | [], mode, pw, _, c, hc => by
    have e : normalizeNumerals b mode pw [] = [] := by cases mode <;> rfl
    rw [e] at hc
    exact absurd hc (List.not_mem_nil _)
  | d :: s, mode, pw, hs, c, hc => by
    have hd : P d := hs d (List.mem_cons_self _ _)
    have hs' : ∀ c ∈ s, P c := fun c hc => hs c (List.mem_cons_of_mem _ hc)
    have hcons : ∀ (m : NumeralMode) (q : Bool), c ∈ d :: normalizeNumerals b m q s → P c := by
      intro m q h
      rcases List.mem_cons.mp h with rfl | h
      · exact hd
      · exact normalize_all b P h0 s m q hs' c h
    rw [normalize_cons] at hc
    split at hc
    · cases mode with
      | drop => exact normalize_all b P h0 s .drop true hs' c hc
      | keep => exact hcons _ _ hc
      | outside =>
        dsimp only at hc
        split at hc
        · rcases List.mem_append.mp hc with h | h
          · exact stripZeros_all P h0 _
              (fun x hx => hs x ((List.takeWhile_sublist _).subset hx)) c h
          · exact normalize_all b P h0 s .drop true hs' c h
        · exact hcons _ _ hc
    · exact hcons _ _ hc

theorem normalize_ne_nil (b : Bool) (pw : Bool) (c : Char) (s : Str) :
    normalizeNumerals b .outside pw (c :: s) ≠ [] := by
  rw [normalize_cons]
  split
  · dsimp only
    split
    · intro h
      have hd : ∀ x ∈ (c :: s).takeWhile isDigit, isDigit x = true :=
        fun x hx => List.mem_takeWhile_imp hx
      obtain ⟨d, ds, hsz, -⟩ := stripZeros_facts _ hd
      rw [hsz] at h
      simp at h
    · simp
  · simp

theorem RemoveLeadingZeroes_isField (t : Str) (ht : IsField t) :
    IsField (RemoveLeadingZeroes t) := by
  rw [RemoveLeadingZeroes_eq]
  obtain ⟨hne, hsp⟩ := ht
  constructor
  · obtain ⟨c, s, rfl⟩ := List.exists_cons_of_ne_nil hne
    exact normalize_ne_nil true false c s
  · exact normalize_all true (fun c => isSpace c = false) (by decide) t .outside false hsp

theorem Fields_field (t : Str) (ht : IsField t) : Fields t = [t] := by
  have := Fields_go_field t [] [] ht.2
  rw [List.append_nil, List.nil_append] at this
  unfold Fields
  rw [this, Fields.go, if_neg ht.1]

theorem spaced_eq_Join : ∀ toks : List Str, toks ≠ [] →
    spaced toks = Join toks [' '] ++ [' ']
  | [], h => absurd rfl h
  | [t], _ => by rw [Join_singleton]; simp [spaced]
  | t :: u :: toks, _ => by
    have ih := spaced_eq_Join (u :: toks) (List.cons_ne_nil _ _)
    have e : spaced (t :: u :: toks) = t ++ [' '] ++ spaced (u :: toks) := by simp [spaced]
    rw [e, ih, Join_cons_cons]
    simp

theorem Fields_Join (toks : List Str) (h : ∀ t ∈ toks, IsField t) :
    Fields (Join toks [' ']) = toks := by
  rcases List.eq_nil_or_concat toks with rfl | ⟨init, last, rfl⟩
  · rfl
  · rw [List.concat_eq_append] at h ⊢
    have hinit : ∀ t ∈ init, IsField t := fun t ht => h t (List.mem_append_left _ ht)
    have hlast : IsField last := h last (List.mem_append_right _ (List.mem_singleton.mpr rfl))
    rw [Join_append_singleton, Fields_append _ _ (spaced_endsInSpace init), Fields_spaced init hinit,
      Fields_field last hlast]


/-- C19: splitting the canonical form again is the identity. When `SplitCron(input, at)`
succeeds with `(schedule, command)`, then `SplitCron(schedule + " " + command, at)` succeeds
with the same `(schedule, command)`. The schedule has 5 fields, or 1 for an at-shortcut,
separated by single spaces, and is normalized; the command is the rest of the input from its
last field on, as it stands. -/
theorem SplitCron_resplit (input : Str) (at_ : Bool) (schedule command : Str)
    (h : SplitCron input at_ = .ok (schedule, command)) :
    SplitCron (schedule ++ ' ' :: command) at_ = .ok (schedule, command) ∧
    (Fields schedule).length = (if at_ then 1 else 5) ∧
    schedule = Join (Fields schedule) [' '] ∧
    RemoveLeadingZeroes schedule = schedule ∧
    (∃ pre, input = pre ++ command) := by
  have hn1 : (1 : Int) ≤ ((if at_ then 2 else 6 : Nat) : Int) := by cases at_ <;> simp
  rcases FieldsN_spec input ((if at_ then 2 else 6 : Nat) : Int) hn1 with
    ⟨herr, -⟩ | ⟨pre, c, rest', hs, hc, hF, hlen, -, -⟩
  · rw [SplitCron_error input at_ _ herr] at h
    exact absurd h (by simp)
  · have hlen1 : (Fields pre).length = (if at_ then 2 else 6) - 1 := by
      cases at_ <;> simp at hlen ⊢ <;> omega
    rw [SplitCron_fields input at_ (Fields pre) (c :: rest') hlen1 hF] at h
    injection h with h
    injection h with hsch hcmd
    have hfld : ∀ t ∈ (Fields pre).map RemoveLeadingZeroes, IsField t := by
      intro t ht
      obtain ⟨u, hu, rfl⟩ := List.mem_map.mp ht
      exact RemoveLeadingZeroes_isField u (Fields_isField pre u hu)
    have hlen2 : ((Fields pre).map RemoveLeadingZeroes).length = (if at_ then 2 else 6) - 1 := by
      rw [List.length_map, hlen1]
    have hne : (Fields pre).map RemoveLeadingZeroes ≠ [] := by
      intro hnil
      rw [hnil] at hlen2
      cases at_ <;> simp at hlen2
    have hsched : schedule = Join ((Fields pre).map RemoveLeadingZeroes) [' '] := by
      rw [← hsch, RemoveLeadingZeroes_Join]
    have hfix : RemoveLeadingZeroes schedule = schedule := by
      rw [← hsch, RemoveLeadingZeroes_twice]
    have hinput : schedule ++ ' ' :: command =
        Join ((Fields pre).map RemoveLeadingZeroes ++ [c :: rest']) [' '] := by
      rw [Join_append_singleton, spaced_eq_Join _ hne, ← hsched, ← hcmd]
      simp
    have hF2 := FieldsN_joined ((Fields pre).map RemoveLeadingZeroes) c rest' hfld hc
    have hcast : (((Fields pre).map RemoveLeadingZeroes).length : Int) + 1 =
        ((if at_ then 2 else 6 : Nat) : Int) := by
      rw [hlen2]
      cases at_ <;> simp
    rw [hcast, ← hinput] at hF2
    have hres := SplitCron_fields (schedule ++ ' ' :: command) at_ _ (c :: rest') hlen2 hF2
    rw [← hsched, hfix, hcmd] at hres
    refine ⟨hres, ?_, ?_, hfix, ⟨pre, by rw [← hcmd]; exact hs⟩⟩
    · rw [hsched, Fields_Join _ hfld, hlen2]
      cases at_ <;> rfl
    · conv => rhs; rw [hsched, Fields_Join _ hfld]
      exact hsched

/-- The witness of `SplitCron_resplit`: a line with leading zeros in its schedule and in its
command. -/
theorem SplitCron_resplit_witness :
    SplitCron "  05 04 * * *   echo 007 ".toList false =
      .ok ("5 4 * * *".toList, "echo 007 ".toList) ∧
    (SplitCron ("5 4 * * *".toList ++ ' ' :: "echo 007 ".toList) false =
      .ok ("5 4 * * *".toList, "echo 007 ".toList) ∧
    (Fields "5 4 * * *".toList).length = (if false then 1 else 5) ∧
    "5 4 * * *".toList = Join (Fields "5 4 * * *".toList) [' '] ∧
    RemoveLeadingZeroes "5 4 * * *".toList = "5 4 * * *".toList ∧
    (∃ pre, "  05 04 * * *   echo 007 ".toList = pre ++ "echo 007 ".toList)) :=
  ⟨by decide,
    SplitCron_resplit "  05 04 * * *   echo 007 ".toList false "5 4 * * *".toList
      "echo 007 ".toList (by decide)⟩


/-! ### Whitespace that the class `\s` does not hold -/

/-- C12 as stated fails for whitespace outside of the class `\s`. The line `tabLine` holds
only a vertical tab, which is whitespace for `unicode.IsSpace` and so for `FieldsN`; the line
`tabHashLine` has `#` as its first character that is no such whitespace. Neither matches the
patterns `^\s*$` and `^\s*#`, and for both `ParseCronLine` returns no job and the error
`ErrNotEnoughFields`. -/
theorem ParseCronLine_vertical_tab_not_blank :
    (∀ c ∈ tabLine, isSpace c = true) ∧
    (ParseCronLine everyMinute 0 (fun _ => none) ['f'] tabLine).1.1.isNone = true ∧
    (ParseCronLine everyMinute 0 (fun _ => none) ['f'] tabLine).1.2 =
      some Error.ErrNotEnoughFields ∧
    (tabHashLine.dropWhile isSpace).head? = some '#' ∧
    (ParseCronLine everyMinute 0 (fun _ => none) ['f'] tabHashLine).1.1.isNone = true ∧
    (ParseCronLine everyMinute 0 (fun _ => none) ['f'] tabHashLine).1.2 =
      some Error.ErrNotEnoughFields := by
  refine ⟨by decide, by decide, by decide, by decide, by decide, by decide⟩

/-- C14 as stated fails for whitespace outside of the class `\s`. The line `tabAtLine`, a
vertical tab and `@daily cmd`, is not blank, no comment and no assignment, its first character
that is no whitespace for `unicode.IsSpace` is `@`, and it has the two fields `@daily` and
`cmd`. The pattern `^\s*@` does not match it, so `ParseCronLine` asks for 6 fields and returns
no job and the error `ErrNotEnoughFields`, with an evaluator that accepts every schedule;
without the vertical tab the line gives a job with the command `cmd`. -/
theorem ParseCronLine_at_after_vertical_tab :
    (tabAtLine.dropWhile isSpace).head? = some '@' ∧
    Fields tabAtLine = ["@daily".toList, "cmd".toList] ∧
    ¬ (∀ c ∈ tabAtLine, isSpace c = true) ∧
    blank_line tabAtLine = false ∧ starts_with_hash tabAtLine = false ∧
    assignment tabAtLine = none ∧
    (ParseCronLine everyMinute 0 (fun _ => none) ['f'] tabAtLine).1.1.isNone = true ∧
    (ParseCronLine everyMinute 0 (fun _ => none) ['f'] tabAtLine).1.2 =
      some Error.ErrNotEnoughFields ∧
    (ParseCronLine everyMinute 0 (fun _ => none) ['f'] "@daily cmd".toList).1.2 = none ∧
    (ParseCronLine everyMinute 0 (fun _ => none) ['f'] "@daily cmd".toList).1.1.map
      (fun job => job.script) = some "cmd".toList := by
  refine ⟨by decide, by decide, by decide, by decide, by decide, by decide, by decide, by decide,
    by decide, by decide⟩


end Cronly
